import Mathlib

/-!
Verification of the DLX repository: a Dancing-Links exact-cover engine
(`src/nodes.rs`) plus a 2D polyomino tiling reducer (`src/blocks.rs`).

Modelling conventions (shallow embedding):

* The `Rc<RefCell<Node>>` graph of `nodes.rs` is embedded as an arena: a
  `List DNode` indexed by `Nat`.  The `u/d/l/r/c` weak references become arena
  indices.  The Rust code uses the global `id` counter only to compare nodes
  for identity inside one build; within a single arena the index itself is
  that identity, so `id` is represented by the node's arena index and the
  Rust `current_id != start_id` loop tests become index comparisons.
* `data : usize` is embedded as `Int`.  All values arising in the claims stay
  far inside `[0, 2^64)`, where `usize` arithmetic and `Int` arithmetic agree;
  the `usize::MAX` initial value of the column-size scan is the literal
  `2^64 - 1`.
* Rust panics (index out of bounds, `Option::unwrap` on `None`, `usize`
  subtraction overflow in `Game2D::get_matrix`) are embedded as `none`.
* The `while` loops of `cover`/`uncover`/`search_*` are embedded as
  fuel-bounded recursion; exhausting fuel also yields `none`.  The fuel given
  by the entry points is generous enough for every terminating execution.
* `Game2D::get_matrix` takes `&mut self` and rotates/flips the blocks in
  place; the embedding returns the produced matrix together with the updated
  game so the mutation is observable.
* `HashSet<Block2D>` iteration order is unspecified in Rust; the embedding
  keeps first-insertion order, and theorems about `get_transformations` only
  use order-independent facts (membership and cardinality) except where a
  single element makes the order irrelevant.
-/

namespace DLX

/-! ### The tiling reducer: `src/blocks.rs` -/

/-- `Block2D` from `blocks.rs`: width, height and the boolean cell data. -/
structure Block2D where
  w : Nat
  h : Nat
  data : List (List Bool)
deriving DecidableEq, Repr

namespace Block2D

/-- Cell read `data[x][y]`; in the executions the claims touch, every such
read is in bounds, so the `getD` default is never consulted. -/
def cell (b : Block2D) (x y : Nat) : Bool :=
  (b.data.getD x []).getD y false

/-- `Block2D::flip`: `self.data = self.data.iter().rev().cloned().collect()`. -/
def flip (b : Block2D) : Block2D :=
  { b with data := b.data.reverse }

/-- `Block2D::rotate`:
`self.data = (0..self.w).map(|y| (0..self.h).rev().map(|x| self.data[x][y]).collect()).collect();`
followed by swapping `w` and `h`. -/
def rotate (b : Block2D) : Block2D :=
  { w := b.h
    h := b.w
    data := (List.range b.w).map fun y =>
      ((List.range b.h).reverse.map fun x => b.cell x y) }

/-- `HashSet::insert`, keeping first-insertion order. -/
def hsInsert (hs : List Block2D) (b : Block2D) : List Block2D :=
  if b ∈ hs then hs else hs ++ [b]

/-- `Block2D::get_transformations`: the loop
`for _ in 0..2 { for _ in 0..4 { hs.insert(self.clone()); self.rotate(); } self.flip(); }`
unrolled.  Returns the collected set (in insertion order) together with the
mutated `self`. -/
def get_transformations (b0 : Block2D) : List Block2D × Block2D :=
  let hs := hsInsert [] b0
  let b1 := b0.rotate
  let hs := hsInsert hs b1
  let b2 := b1.rotate
  let hs := hsInsert hs b2
  let b3 := b2.rotate
  let hs := hsInsert hs b3
  let b4 := b3.rotate
  let b5 := b4.flip
  let hs := hsInsert hs b5
  let b6 := b5.rotate
  let hs := hsInsert hs b6
  let b7 := b6.rotate
  let hs := hsInsert hs b7
  let b8 := b7.rotate
  let hs := hsInsert hs b8
  let b9 := b8.rotate
  let b10 := b9.flip
  (hs, b10)

/-- A block is rectangular: `h` rows, each of length `w`.  (`from_string`
produces this exactly when the piece string's lines all have the length of
the first line; ragged strings are accepted by the code and violate it.) -/
def Rect (b : Block2D) : Prop :=
  b.data.length = b.h ∧ ∀ row ∈ b.data, row.length = b.w

instance (b : Block2D) : Decidable b.Rect := by
  unfold Rect; infer_instance

end Block2D

/-- `Game2D` from `blocks.rs`. -/
structure Game2D where
  w : Nat
  h : Nat
  blocks : List Block2D
deriving DecidableEq, Repr

/-! ### `Node::matrix_from_variations` and `Game2D::get_matrix` -/

/-- `Node::matrix_from_variations`: prepend `input.len()` false bits to each
row and set the bit whose index is the row's own index. -/
def matrix_from_variations (input : List (List Bool)) : List (List Bool) :=
  let variations := input.length
  input.enum.map fun p =>
    ((List.replicate variations false) ++ p.2).set p.1 true

/-- One placement row of `Game2D::get_matrix`: the `H·W` cell bits for
transformation `t` shifted to `(sx, sy)`, emitted row-major (outer `py`,
inner `px`).  The Rust `&&` chain only indexes `transformation.data` after
the bound tests succeed, which the `if` mirrors. -/
def placeEntry (g : Game2D) (t : Block2D) (sy sx : Nat) : List Bool :=
  (List.range g.h).flatMap fun py =>
    (List.range g.w).map fun px =>
      if sx ≤ px ∧ px < sx + t.w ∧ sy ≤ py ∧ py < sy + t.h then
        t.cell (py - sy) (px - sx)
      else false

/-- The placement rows of one transformation: the two nested shift loops
`for shift_y in 0..=(self.h - t.h) { for shift_x in 0..=(self.w - t.w) {...} }`.
`self.h - t.h` is a `usize` subtraction that overflows when the
transformation does not fit the board; that panic is modelled as `none`. -/
def blockVariations (g : Game2D) (t : Block2D) : Option (List (List Bool)) :=
  if t.h ≤ g.h ∧ t.w ≤ g.w then
    some ((List.range (g.h - t.h + 1)).flatMap fun sy =>
      (List.range (g.w - t.w + 1)).map fun sx => placeEntry g t sy sx)
  else none

/-- Placement rows of a list of transformations, in order. -/
def trsVariations (g : Game2D) : List Block2D → Option (List (List Bool))
  | [] => some []
  | t :: ts => do
    let v ← blockVariations g t
    let r ← trsVariations g ts
    some (v ++ r)

/-- The body of `get_matrix`'s block loop: collect every block's placement
rows and the mutated blocks. -/
def gatherVariations (g : Game2D) : List Block2D → Option (List (List Bool) × List Block2D)
  | [] => some ([], [])
  | b :: bs => do
    let (trs, b') := b.get_transformations
    let vs ← trsVariations g trs
    let (rest, bs') ← gatherVariations g bs
    some (vs ++ rest, b' :: bs')

/-- `Game2D::get_matrix`.  Returns the matrix and the game after the call
(the blocks having been rotated and flipped in place). -/
def get_matrix (g : Game2D) : Option (List (List Bool) × Game2D) := do
  let (vars, blocks') ← gatherVariations g g.blocks
  some (matrix_from_variations vars, { g with blocks := blocks' })

/-! ### The DLX engine: `src/nodes.rs` -/

/-- The node record of `nodes.rs`.  `u d l r c` are arena indices (the weak
references); `data` is the `usize` payload embedded as `Int`.  The Rust `id`
field is the arena index itself (see the module comment). -/
structure DNode where
  u : Nat
  d : Nat
  l : Nat
  r : Nat
  c : Nat
  data : Int
deriving DecidableEq, Repr

/-- The arena holding every node of one build. -/
abbrev DState := List DNode

/-- `Node::new`: a self-linked node (all four neighbours and the column
pointer refer to the node itself) carrying `data`; `idx` is its arena index. -/
def DNode.new (data : Int) (idx : Nat) : DNode :=
  ⟨idx, idx, idx, idx, idx, data⟩

/-- Dereference an arena index (`Weak::upgrade().unwrap()` + `borrow`). -/
def getN (s : DState) (i : Nat) : DNode :=
  s.getD i (DNode.new 0 0)

/-- Mutate the node at index `i` (`borrow_mut`). -/
def modifyN (s : DState) (i : Nat) (f : DNode → DNode) : DState :=
  s.set i (f (getN s i))

/-- `Node::unlink_lr`: `node.L.R ← node.R; node.R.L ← node.L`. -/
def unlink_lr (s : DState) (node : Nat) : DState :=
  let l := (getN s node).l
  let r := (getN s node).r
  modifyN (modifyN s l fun n => { n with r := r }) r fun n => { n with l := l }

/-- `Node::unlink_ud`: `node.U.D ← node.D; node.D.U ← node.U`. -/
def unlink_ud (s : DState) (node : Nat) : DState :=
  let u := (getN s node).u
  let d := (getN s node).d
  modifyN (modifyN s u fun n => { n with d := d }) d fun n => { n with u := u }

/-- `Node::link_lr`: `node.L.R ← node; node.R.L ← node`. -/
def link_lr (s : DState) (node : Nat) : DState :=
  let l := (getN s node).l
  let r := (getN s node).r
  modifyN (modifyN s l fun n => { n with r := node }) r fun n => { n with l := node }

/-- `Node::link_ud`: `node.U.D ← node; node.D.U ← node`. -/
def link_ud (s : DState) (node : Nat) : DState :=
  let u := (getN s node).u
  let d := (getN s node).d
  modifyN (modifyN s u fun n => { n with d := node }) d fun n => { n with u := node }

/-! #### `Node::build`

Arena layout mirroring the allocation order of `build`: the root at index 0,
the `width` column headers at indices `1 .. width`, then one node per `true`
cell in row-major order.  `input[0]` on an empty input and `headers[0]` /
`headers[x]` on a zero-width or ragged-with-wide-row input are Rust panics,
modelled as `none`.  The returned `all_nodes` vector is never consulted by
the searches, so the embedding returns only the arena and the root index. -/

/-- The initial header-row chaining of `build` (the statements before the row
loop plus the `for i in 0..width` loop). -/
def chainHeaders (width : Nat) : DState :=
  let s0 : DState := (List.range (width + 1)).map fun i => DNode.new 0 i
  let s1 := modifyN s0 0 fun n => { n with r := 1 }
  let s2 := modifyN s1 1 fun n => { n with l := 0 }
  let s3 := modifyN s2 0 fun n => { n with l := width }
  let s4 := modifyN s3 width fun n => { n with r := 0 }
  (List.range width).foldl
    (fun s i =>
      let s' := if i ≠ 0 then modifyN s (i + 1) (fun n => { n with l := i }) else s
      if i ≠ width - 1 then modifyN s' (i + 1) (fun n => { n with r := i + 2 }) else s')
    s4

/-- One `true` cell of row `y` at column `x`: create the node, splice it at
the tail of column `x`'s vertical ring, bump the header's payload, and record
the node's index in `row_nodes`.  `headers[x]` with `x ≥ width` panics. -/
def buildCell (width y : Nat) (acc : DState × List Nat) (x : Nat) (val : Bool) :
    Option (DState × List Nat) :=
  if val then
    if x < width then
      let (s, rowNodes) := acc
      let hdr := x + 1
      let idx := s.length
      let node : DNode :=
        { DNode.new (y : Int) idx with c := hdr, d := hdr, u := (getN s hdr).u }
      let s1 := s ++ [node]
      let s2 := modifyN s1 (getN s hdr).u fun n => { n with d := idx }
      let s3 := modifyN s2 hdr fun n => { n with u := idx }
      let s4 := modifyN s3 hdr fun n => { n with data := n.data + 1 }
      some (s4, rowNodes ++ [idx])
    else none
  else some acc

/-- Process the cells of one row left to right (`for (x, val) in row`). -/
def buildRowCells (width y : Nat) (s : DState) (row : List Bool) :
    Option (DState × List Nat) :=
  row.enum.foldlM (fun acc p => buildCell width y acc p.1 p.2) (s, ([] : List Nat))

/-- The horizontal chaining of a completed row (`if len != 0 { ... }`). -/
def chainRow (s : DState) (rowNodes : List Nat) : DState :=
  match rowNodes with
  | [] => s
  | first :: _ =>
    let len := rowNodes.length
    let last := rowNodes.getLastD first
    let s1 := modifyN s first fun n => { n with l := last }
    let s2 := modifyN s1 last fun n => { n with r := first }
    (List.range len).foldl
      (fun t i =>
        let t' := if i ≠ 0 then
          modifyN t (rowNodes.getD i 0) (fun n => { n with l := rowNodes.getD (i - 1) 0 }) else t
        if i ≠ len - 1 then
          modifyN t' (rowNodes.getD i 0) (fun n => { n with r := rowNodes.getD (i + 1) 0 }) else t')
      s2

/-- All rows of the input (`for (y, row) in input.iter().enumerate()`). -/
def buildRows (width : Nat) (s : DState) (input : List (List Bool)) : Option DState :=
  input.enum.foldlM
    (fun t p => do
      let (t1, rowNodes) ← buildRowCells width p.1 t p.2
      some (chainRow t1 rowNodes))
    s

/-- The final loop of `build`: splice every empty column's header out of the
header row. -/
def elideEmpty (width : Nat) (s : DState) : DState :=
  (List.range width).foldl
    (fun t i => if (getN t (i + 1)).data = 0 then unlink_lr t (i + 1) else t) s

/-- `Node::build`.  Returns the arena and the root's index. -/
def build (input : List (List Bool)) : Option (DState × Nat) :=
  match input with
  | [] => none
  | row0 :: _ =>
    let width := row0.length
    if width = 0 then none
    else do
      let s ← buildRows width (chainHeaders width) input
      some (elideEmpty width s, 0)

/-! #### `Node::cover` and `Node::uncover` -/

/-- Inner loop of `cover`: walk right along the row of one column node,
vertically unlinking each node met and decrementing its column's payload. -/
def coverRow : Nat → DState → Nat → Nat → Option DState
  | 0, _, _, _ => none
  | fuel + 1, s, startN, cur =>
    if cur = startN then some s
    else
      let s1 := unlink_ud s cur
      let s2 := modifyN s1 (getN s1 cur).c fun n => { n with data := n.data - 1 }
      coverRow fuel s2 startN ((getN s2 cur).r)

/-- Outer loop of `cover`: walk down the covered column. -/
def coverCol : Nat → DState → Nat → Nat → Option DState
  | 0, _, _, _ => none
  | fuel + 1, s, header, cur =>
    if cur = header then some s
    else do
      let s1 ← coverRow (s.length + 1) s cur ((getN s cur).r)
      coverCol fuel s1 header ((getN s1 cur).d)

/-- `Node::cover`. -/
def cover (s : DState) (header : Nat) : Option DState :=
  let s0 := unlink_lr s header
  coverCol (s0.length + 1) s0 header ((getN s0 header).d)

/-- Inner loop of `uncover`: walk left along the row, relinking and
incrementing. -/
def uncoverRow : Nat → DState → Nat → Nat → Option DState
  | 0, _, _, _ => none
  | fuel + 1, s, startN, cur =>
    if cur = startN then some s
    else
      let s1 := link_ud s cur
      let s2 := modifyN s1 (getN s1 cur).c fun n => { n with data := n.data + 1 }
      uncoverRow fuel s2 startN ((getN s2 cur).l)

/-- Outer loop of `uncover`: walk up the column. -/
def uncoverCol : Nat → DState → Nat → Nat → Option DState
  | 0, _, _, _ => none
  | fuel + 1, s, header, cur =>
    if cur = header then some s
    else do
      let s1 ← uncoverRow (s.length + 1) s cur ((getN s cur).l)
      uncoverCol fuel s1 header ((getN s1 cur).u)

/-- `Node::uncover`. -/
def uncover (s : DState) (header : Nat) : Option DState :=
  let s0 := link_lr s header
  uncoverCol (s0.length + 1) s0 header ((getN s0 header).u)

/-! #### The search routines -/

/-- `usize::MAX`. -/
def usizeMax : Int := 2 ^ 64 - 1

/-- The column-selection scan shared verbatim by `search_all` and
`search_once` (`nodes.rs` lines 214–231 and 294–311 are textually the same
loop): walk the header row from `root.r`, keeping the strictly smallest
payload seen, hence the leftmost on ties.  Returns the `best_col` option;
`none` on fuel exhaustion. -/
def chooseLoop : Nat → DState → Nat → Nat → Option Nat → Int → Option (Option Nat)
  | 0, _, _, _, _, _ => none
  | fuel + 1, s, root, cur, best, minSize =>
    if cur = root then some best
    else
      if (getN s cur).data < minSize then
        chooseLoop fuel s root ((getN s cur).r) (some cur) ((getN s cur).data)
      else
        chooseLoop fuel s root ((getN s cur).r) best minSize

/-- The scan as invoked: start at `root.r` with `min_size = usize::MAX`. -/
def chooseCol (s : DState) (root : Nat) : Option (Option Nat) :=
  chooseLoop (s.length + 1) s root ((getN s root).r) none usizeMax

/-- The loop covering the columns of a selected row's other nodes
(right-to-left for the uncovering twin below). -/
def coverRowMates : Nat → DState → Nat → Nat → Option DState
  | 0, _, _, _ => none
  | fuel + 1, s, startN, cur =>
    if cur = startN then some s
    else do
      let s1 ← cover s ((getN s cur).c)
      coverRowMates fuel s1 startN ((getN s1 cur).r)

/-- The backtracking twin: uncover the columns of the row's other nodes,
walking left. -/
def uncoverRowMates : Nat → DState → Nat → Nat → Option DState
  | 0, _, _, _ => none
  | fuel + 1, s, startN, cur =>
    if cur = startN then some s
    else do
      let s1 ← uncover s ((getN s cur).c)
      uncoverRowMates fuel s1 startN ((getN s1 cur).l)

mutual

/-- `Node::search_all`.  `solution` is the partial solution, `results` the
accumulated `partial_results`; the returned state is the arena after the
call (search restores it). -/
def search_all : Nat → DState → Nat → List Int → List (List Int) →
    Option (DState × List (List Int))
  | 0, _, _, _, _ => none
  | fuel + 1, s, root, solution, results =>
    if (getN s root).r = root then some (s, results ++ [solution])
    else
      match chooseCol s root with
      | none => none
      | some none => none
      | some (some best) =>
        match cover s best with
        | none => none
        | some s1 =>
          match search_all_rows fuel s1 root best ((getN s1 best).d) solution results with
          | none => none
          | some (s2, results2) =>
            match uncover s2 best with
            | none => none
            | some s3 => some (s3, results2)

/-- The row loop of `search_all`: try every row of the chosen column top to
bottom. -/
def search_all_rows : Nat → DState → Nat → Nat → Nat → List Int → List (List Int) →
    Option (DState × List (List Int))
  | 0, _, _, _, _, _, _ => none
  | fuel + 1, s, root, best, cur, solution, results =>
    if cur = best then some (s, results)
    else
      match coverRowMates (s.length + 1) s cur ((getN s cur).r) with
      | none => none
      | some s1 =>
        match search_all fuel s1 root (solution ++ [(getN s cur).data]) results with
        | none => none
        | some (s2, results2) =>
          match uncoverRowMates (s2.length + 1) s2 cur ((getN s2 cur).l) with
          | none => none
          | some s3 => search_all_rows fuel s3 root best ((getN s3 cur).d) solution results2

end

mutual

/-- `Node::search_once`: identical control flow to `search_all` except that
the first recorded solution is returned immediately (leaving the arena in
its covered state, exactly as the Rust early `return` does). -/
def search_once : Nat → DState → Nat → List Int → Option (DState × Option (List Int))
  | 0, _, _, _ => none
  | fuel + 1, s, root, solution =>
    if (getN s root).r = root then some (s, some solution)
    else
      match chooseCol s root with
      | none => none
      | some none => none
      | some (some best) =>
        match cover s best with
        | none => none
        | some s1 =>
          match search_once_rows fuel s1 root best ((getN s1 best).d) solution with
          | none => none
          | some (s2, some found) => some (s2, some found)
          | some (s2, none) =>
            match uncover s2 best with
            | none => none
            | some s3 => some (s3, none)

/-- The row loop of `search_once`. -/
def search_once_rows : Nat → DState → Nat → Nat → Nat → List Int →
    Option (DState × Option (List Int))
  | 0, _, _, _, _, _ => none
  | fuel + 1, s, root, best, cur, solution =>
    if cur = best then some (s, none)
    else
      match coverRowMates (s.length + 1) s cur ((getN s cur).r) with
      | none => none
      | some s1 =>
        match search_once fuel s1 root (solution ++ [(getN s cur).data]) with
        | none => none
        | some (s2, some found) => some (s2, some found)
        | some (s2, none) =>
          match uncoverRowMates (s2.length + 1) s2 cur ((getN s2 cur).l) with
          | none => none
          | some s3 => search_once_rows fuel s3 root best ((getN s3 cur).d) solution

end

/-- Fuel amply covering the fuel consumption along any path of a terminating
search (which is at most quadratic in the arena size). -/
def bigFuel (s : DState) : Nat := (s.length + 2) ^ (s.length + 2)

/-- `Node::solve_all`: build, then search; `none` models a panic or a
non-terminating (ill-formed) instance. -/
def solve_all (input : List (List Bool)) : Option (List (List Int)) :=
  match build input with
  | none => none
  | some (s, root) =>
    match search_all (bigFuel s) s root [] [] with
    | none => none
    | some (_, results) => some results

/-- `Node::solve_once`: `some none` is Rust's `None` ("no solution"),
`some (some sol)` is `Some(sol)`, outer `none` models a panic. -/
def solve_once (input : List (List Bool)) : Option (Option (List Int)) :=
  match build input with
  | none => none
  | some (s, root) =>
    match search_once (bigFuel s) s root [] with
    | none => none
    | some (_, found) => some found

/-! ### The exact-cover property, as the spec states it

This definition follows the words of claim C1 / spec property P2 (it is the
property the code is checked against, not a translation of the code): the
union of the selected rows' 1-cell column sets is the set of all columns of
the matrix, and the 1-cell sets of distinct selected rows are disjoint.
Solutions carry `Int` row indices (the node payloads). -/
def isExactCover (input : List (List Bool)) (sol : List Int) : Prop :=
  (∀ j < (input.headD []).length, ∃ i ∈ sol, (input.getD i.toNat []).getD j false = true) ∧
  ∀ i ∈ sol, ∀ i' ∈ sol, i ≠ i' → ∀ j < (input.headD []).length,
    ¬((input.getD i.toNat []).getD j false = true ∧ (input.getD i'.toNat []).getD j false = true)

instance (input : List (List Bool)) (sol : List Int) : Decidable (isExactCover input sol) := by
  unfold isExactCover; infer_instance

/-- The inputs on which `Node::build` panics: an empty input (`input[0]`),
a zero-width first row (`headers[0]`), or a `true` cell at a column index at
or beyond the first row's length (`headers[x]`). -/
def buildPanics (input : List (List Bool)) : Prop :=
  input = [] ∨ (input.headD []).length = 0 ∨
    ∃ row ∈ input, ∃ x, x < row.length ∧
      (input.headD []).length ≤ x ∧ row.getD x false = true

instance (input : List (List Bool)) : Decidable (buildPanics input) := by
  unfold buildPanics; infer_instance

/-- Chain predicate: following the link selected by `f` from node `a`, the
successive nodes are exactly `xs`, landing at `b`. -/
def pathF (f : DNode → Nat) (s : DState) : Nat → List Nat → Nat → Prop
  | a, [], b => f (getN s a) = b
  | a, x :: xs, b => f (getN s a) = x ∧ pathF f s x xs b

instance instDecidablePathF (f : DNode → Nat) (s : DState) :
    ∀ (a : Nat) (xs : List Nat) (b : Nat), Decidable (pathF f s a xs b)
  | a, [], b => inferInstanceAs (Decidable (f (getN s a) = b))
  | a, x :: xs, b =>
    haveI : Decidable (pathF f s x xs b) := instDecidablePathF f s x xs b
    inferInstanceAs (Decidable (f (getN s a) = x ∧ pathF f s x xs b))

/-- The pure content of the column-selection scan: the champion after
scanning `xs` with current best `c` (strict improvement only, so the
leftmost of equal payloads survives). -/
def champion (s : DState) (c : Nat) : List Nat → Nat
  | [] => c
  | x :: xs => if (getN s x).data < (getN s c).data then champion s x xs else champion s c xs

/-! ### Ghost state for the cover/uncover round-trip

The structural invariants §3 I1–I5 of the spec, made explicit: which data
nodes belong to which column, the row rings, which headers are active, and
which data nodes are currently spliced out. -/

/-- Ghost description of a built structure: the root is arena index 0 and
header `j` of `width` columns is arena index `j + 1`. -/
structure Ghost where
  width : Nat
  cols : List (List Nat)
  rows : List (List Nat)
  act : List Nat
  dead : List Nat
deriving Repr

/-- The data nodes of column `j` that are currently linked into its vertical
ring, in ring order. -/
def liveCol (G : Ghost) (j : Nat) : List Nat :=
  (G.cols.getD j []).filter fun m => !(G.dead.contains m)

/-- The row ring containing node `n`. -/
def rowOf (G : Ghost) (n : Nat) : List Nat :=
  (G.rows.find? fun rs => rs.contains n).getD []

/-- Rotate a ring list to start just after `n`: for `rs = u ++ n :: v` with
`n ∉ u` this is `v ++ u`, the other row members in ring order from `n`. -/
def rotAfter (rs : List Nat) (n : Nat) : List Nat :=
  (rs.dropWhile fun x => x != n).tail ++ rs.takeWhile fun x => x != n

/-- The row-mates of `n`, in the order the cover loop unlinks them. -/
def matesOf (G : Ghost) (n : Nat) : List Nat := rotAfter (rowOf G n) n

/-- All data nodes vertically unlinked by `cover` of header `c`. -/
def removedBy (G : Ghost) (c : Nat) : List Nat :=
  (liveCol G (c - 1)).flatMap (matesOf G)

/-- The ghost after covering header `c`. -/
def coverGhost (G : Ghost) (c : Nat) : Ghost :=
  { G with act := G.act.erase c, dead := G.dead ++ removedBy G c }

/-- Well-formedness of an arena against its ghost: the invariants I1–I5 of
the spec's data model, spelled out over the arena layout of `build`
(root at 0, header `j` at `j + 1`, data nodes above `width`). -/
def WF (s : DState) (G : Ghost) : Prop :=
  G.cols.length = G.width ∧
  G.width < s.length ∧
  (∀ m ∈ G.cols.flatten, G.width < m ∧ m < s.length) ∧
  G.cols.flatten.Nodup ∧
  (∀ a ∈ G.act, 1 ≤ a ∧ a ≤ G.width) ∧
  G.act.Nodup ∧
  pathF (fun n => n.r) s 0 G.act 0 ∧
  pathF (fun n => n.l) s 0 G.act.reverse 0 ∧
  (∀ j < G.width, pathF (fun n => n.d) s (j + 1) (liveCol G j) (j + 1)) ∧
  (∀ j < G.width, pathF (fun n => n.u) s (j + 1) (liveCol G j).reverse (j + 1)) ∧
  (∀ j < G.width, ∀ m ∈ G.cols.getD j [], (getN s m).c = j + 1) ∧
  (∀ rs ∈ G.rows, rs ≠ []) ∧
  (∀ rs ∈ G.rows, pathF (fun n => n.r) s (rs.headD 0) rs.tail (rs.headD 0)) ∧
  (∀ rs ∈ G.rows, pathF (fun n => n.l) s (rs.headD 0) rs.tail.reverse (rs.headD 0)) ∧
  (∀ m ∈ G.rows.flatten, m ∈ G.cols.flatten) ∧
  (∀ m ∈ G.cols.flatten, m ∈ G.rows.flatten) ∧
  G.rows.flatten.Nodup ∧
  (∀ rs ∈ G.rows, (rs.map fun m => (getN s m).c).Nodup) ∧
  (∀ m ∈ G.dead, m ∈ G.cols.flatten) ∧
  (∀ rs ∈ G.rows, (∀ m ∈ rs, m ∉ G.dead) ∨
    (∃ n ∈ rs, n ∉ G.dead ∧ (getN s n).c ∉ G.act ∧ ∀ m ∈ rs, m ≠ n → m ∈ G.dead))

instance (s : DState) (G : Ghost) : Decidable (WF s G) := by
  unfold WF; infer_instance

/-- One vertical unlinking step of `cover`'s inner loop: unlink `m` and
decrement its column's payload (exactly the two statements of the loop
body). -/
def coverStep (t : DState) (m : Nat) : DState :=
  let t1 := unlink_ud t m
  modifyN t1 ((getN t1 m).c) fun nd => { nd with data := nd.data - 1 }

/-- One step of `uncover`'s inner loop: relink `m` and increment. -/
def uncoverStep (t : DState) (m : Nat) : DState :=
  let t1 := link_ud t m
  modifyN t1 ((getN t1 m).c) fun nd => { nd with data := nd.data + 1 }

/-- Walk the active header row rightwards from `cur` to the root, collecting
the headers passed. -/
def headerChain : Nat → DState → Nat → Option (List Nat)
  | 0, _, _ => none
  | fuel + 1, s, cur =>
    if cur = 0 then some []
    else (headerChain fuel s ((getN s cur).r)).map (cur :: ·)

/-- The currently active headers (those threaded on the root's `r` chain). -/
def activeHeaders (s : DState) : Option (List Nat) :=
  headerChain (s.length + 1) s ((getN s 0).r)

/-- A cover sequence is admissible when each header is linked in the active
header row at the moment it is covered (and each cover call returns). -/
def SeqOK : DState → List Nat → Prop
  | _, [] => True
  | s, c :: cs =>
    ((activeHeaders s).elim False fun hs => c ∈ hs) ∧
    ((cover s c).elim False fun s' => SeqOK s' cs)

instance instDecidableSeqOK : ∀ (s : DState) (cs : List Nat), Decidable (SeqOK s cs)
  | _, [] => inferInstanceAs (Decidable True)
  | s, c :: cs =>
    haveI h1 : Decidable ((activeHeaders s).elim False fun hs => c ∈ hs) := by
      cases activeHeaders s with
      | none => exact inferInstanceAs (Decidable False)
      | some hs => exact inferInstanceAs (Decidable (c ∈ hs))
    haveI h2 : Decidable ((cover s c).elim False fun s' => SeqOK s' cs) := by
      cases cover s c with
      | none => exact inferInstanceAs (Decidable False)
      | some s' => exact instDecidableSeqOK s' cs
    inferInstanceAs (Decidable (_ ∧ _))

/-- Loop invariant of the cover traversal: starting from `s0`, with the data
nodes `D` already unlinked, the horizontal links and column back-references
are untouched and every column's vertical ring threads exactly its
not-yet-unlinked nodes. -/
def Inv (s0 : DState) (G : Ghost) (D : List Nat) (t : DState) : Prop :=
  t.length = s0.length ∧
  (∀ v, (getN t v).r = (getN s0 v).r ∧ (getN t v).l = (getN s0 v).l ∧
    (getN t v).c = (getN s0 v).c) ∧
  (∀ j < G.width, pathF (fun n => n.d) t (j + 1)
    ((G.cols.getD j []).filter fun m => !((G.dead ++ D).contains m)) (j + 1)) ∧
  (∀ j < G.width, pathF (fun n => n.u) t (j + 1)
    (((G.cols.getD j []).filter fun m => !((G.dead ++ D).contains m)).reverse) (j + 1))

/-- Perform a sequence of covers. -/
def coverSeq (s : DState) : List Nat → Option DState
  | [] => some s
  | c :: cs => (cover s c).bind fun s' => coverSeq s' cs

/-- Perform a sequence of uncovers. -/
def uncoverSeq (s : DState) : List Nat → Option DState
  | [] => some s
  | c :: cs => (uncover s c).bind fun s' => uncoverSeq s' cs

end DLX

namespace DLX

/-- One application of a symmetry of the code: a rotate or a flip step
(claim C8's "these symmetries"). -/
def ReachStep (a b : Block2D) : Prop := b = a.rotate ∨ b = a.flip

/-- The fully-filled 2×2 square piece of claim C7. -/
def square22 : Block2D := ⟨2, 2, [[true, true], [true, true]]⟩

/-! ## Helper lemmas about lists and `Block2D` -/

theorem getD_false_of_le {l : List Bool} {j : Nat} (h : l.length ≤ j) :
    l.getD j false = false := by
  simp [List.getD_eq_getElem?_getD, List.getElem?_eq_none h]

theorem getD_nil_of_le {l : List (List Bool)} {i : Nat} (h : l.length ≤ i) :
    l.getD i [] = [] := by
  simp [List.getD_eq_getElem?_getD, List.getElem?_eq_none h]

namespace Block2D

theorem cell_of_data_oob (b : Block2D) {x : Nat} (h : b.data.length ≤ x) (y : Nat) :
    b.cell x y = false := by
  show (b.data.getD x []).getD y false = false
  rw [getD_nil_of_le h]
  rfl

theorem cell_of_row_oob (b : Block2D) {x y : Nat} (h : (b.data.getD x []).length ≤ y) :
    b.cell x y = false := by
  show (b.data.getD x []).getD y false = false
  exact getD_false_of_le h

@[simp] theorem rotate_w (b : Block2D) : b.rotate.w = b.h := rfl

@[simp] theorem rotate_h (b : Block2D) : b.rotate.h = b.w := rfl

@[simp] theorem flip_w (b : Block2D) : b.flip.w = b.w := rfl

@[simp] theorem flip_h (b : Block2D) : b.flip.h = b.h := rfl

@[simp] theorem flip_data (b : Block2D) : b.flip.data = b.data.reverse := rfl

@[simp] theorem rotate_data_length (b : Block2D) : b.rotate.data.length = b.w := by
  simp [rotate]

theorem rotate_data_getD (b : Block2D) {x : Nat} (hx : x < b.w) :
    b.rotate.data.getD x [] = (List.range b.h).reverse.map fun i => b.cell i x := by
  show (((List.range b.w).map fun y =>
      ((List.range b.h).reverse.map fun x => b.cell x y)).getD x []) = _
  rw [List.getD_eq_getElem?_getD, List.getElem?_map, List.getElem?_range hx]
  rfl

theorem rotate_row_length (b : Block2D) {x : Nat} (hx : x < b.w) :
    (b.rotate.data.getD x []).length = b.h := by
  rw [rotate_data_getD b hx]; simp

theorem rotate_cell (b : Block2D) {x y : Nat} (hx : x < b.w) (hy : y < b.h) :
    b.rotate.cell x y = b.cell (b.h - 1 - y) x := by
  have h1 : y < ((List.range b.h).reverse).length := by simpa using hy
  have h2 : ((List.range b.h).reverse)[y]? = some (b.h - 1 - y) := by
    rw [List.getElem?_reverse (by simpa using hy)]
    simp only [List.length_range]
    exact List.getElem?_range (by omega)
  show (b.rotate.data.getD x []).getD y false = _
  rw [rotate_data_getD b hx, List.getD_eq_getElem?_getD, List.getElem?_map, h2]
  rfl

theorem rotate_cell_oob (b : Block2D) {x y : Nat} (h : ¬(x < b.w ∧ y < b.h)) :
    b.rotate.cell x y = false := by
  by_cases hx : x < b.w
  · have hy : b.h ≤ y := by omega
    exact cell_of_row_oob _ (by rw [rotate_row_length b hx]; exact hy)
  · exact cell_of_data_oob _ (by simpa using Nat.le_of_not_lt hx) _

theorem rect_row_length {b : Block2D} (hb : b.Rect) {x : Nat} (hx : x < b.h) :
    (b.data.getD x []).length = b.w := by
  have hx' : x < b.data.length := by rw [hb.1]; exact hx
  have hmem : b.data.getD x [] ∈ b.data := by
    rw [List.getD_eq_getElem?_getD, List.getElem?_eq_getElem hx']
    exact List.getElem_mem _
  exact hb.2 _ hmem

theorem rect_cell_oob (b : Block2D) (hb : b.Rect) {x y : Nat} (h : ¬(x < b.h ∧ y < b.w)) :
    b.cell x y = false := by
  by_cases hx : x < b.h
  · have hy : b.w ≤ y := by omega
    exact cell_of_row_oob _ (by rw [rect_row_length hb hx]; exact hy)
  · exact cell_of_data_oob _ (by rw [hb.1]; omega) _

theorem rect_rotate (b : Block2D) : b.rotate.Rect := by
  refine ⟨by simp, ?_⟩
  intro row hrow
  simp only [rotate, List.mem_map] at hrow
  obtain ⟨y, -, rfl⟩ := hrow
  simp

theorem rect_flip {b : Block2D} (hb : b.Rect) : b.flip.Rect := by
  refine ⟨by simp [hb.1], ?_⟩
  intro row hrow
  exact hb.2 row (by simpa using hrow)

theorem flip_flip (b : Block2D) : b.flip.flip = b := by
  cases b; simp [flip]

theorem flip_cell (b : Block2D) {x : Nat} (hx : x < b.data.length) (y : Nat) :
    b.flip.cell x y = b.cell (b.data.length - 1 - x) y := by
  show (b.data.reverse.getD x []).getD y false = (b.data.getD (b.data.length - 1 - x) []).getD y false
  have hrow : b.data.reverse.getD x [] = b.data.getD (b.data.length - 1 - x) [] := by
    rw [List.getD_eq_getElem?_getD, List.getD_eq_getElem?_getD,
      List.getElem?_reverse (by simpa using hx)]
  rw [hrow]

theorem flip_cell_oob (b : Block2D) {x : Nat} (hx : b.data.length ≤ x) (y : Nat) :
    b.flip.cell x y = false :=
  cell_of_data_oob _ (by simpa using hx) _

/-- Extensionality for blocks through `cell`. -/
theorem block_ext {b1 b2 : Block2D} (hw : b1.w = b2.w) (hh : b1.h = b2.h)
    (hlen : b1.data.length = b2.data.length)
    (hrowlen : ∀ i, (b1.data.getD i []).length = (b2.data.getD i []).length)
    (hcell : ∀ x y, b1.cell x y = b2.cell x y) : b1 = b2 := by
  obtain ⟨w1, h1, d1⟩ := b1
  obtain ⟨w2, h2, d2⟩ := b2
  simp only at hw hh hlen hrowlen hcell ⊢
  subst hw hh
  suffices hdata : d1 = d2 by rw [hdata]
  refine List.ext_getElem hlen ?_
  intro n hn1 hn2
  have hd1 : d1.getD n [] = d1[n] := by
    rw [List.getD_eq_getElem?_getD, List.getElem?_eq_getElem hn1]; rfl
  have hd2 : d2.getD n [] = d2[n] := by
    rw [List.getD_eq_getElem?_getD, List.getElem?_eq_getElem hn2]; rfl
  refine List.ext_getElem ?_ ?_
  · have := hrowlen n; rwa [hd1, hd2] at this
  · intro j hj1 hj2
    have := hcell n j
    simp only [cell] at this
    rw [hd1, hd2] at this
    rw [List.getD_eq_getElem?_getD, List.getElem?_eq_getElem hj1] at this
    rw [List.getD_eq_getElem?_getD, List.getElem?_eq_getElem hj2] at this
    exact this

theorem flip_data_getD (b : Block2D) {x : Nat} (hx : x < b.data.length) :
    b.flip.data.getD x [] = b.data.getD (b.data.length - 1 - x) [] := by
  show b.data.reverse.getD x [] = _
  rw [List.getD_eq_getElem?_getD, List.getD_eq_getElem?_getD,
    List.getElem?_reverse (by simpa using hx)]

/-- Extensionality for rectangular blocks: same dimensions and same in-range
cells. -/
theorem rect_ext {b1 b2 : Block2D} (h1 : b1.Rect) (h2 : b2.Rect)
    (hw : b1.w = b2.w) (hh : b1.h = b2.h)
    (hcell : ∀ x y, x < b1.h → y < b1.w → b1.cell x y = b2.cell x y) : b1 = b2 := by
  refine block_ext hw hh (by rw [h1.1, h2.1, hh]) ?_ ?_
  · intro i
    by_cases hi : i < b1.h
    · rw [rect_row_length h1 hi, rect_row_length h2 (hh ▸ hi), hw]
    · rw [getD_nil_of_le (by rw [h1.1]; omega),
        getD_nil_of_le (by rw [h2.1, ← hh]; omega)]
  · intro x y
    by_cases hxy : x < b1.h ∧ y < b1.w
    · exact hcell x y hxy.1 hxy.2
    · rw [rect_cell_oob b1 h1 hxy, rect_cell_oob b2 h2 (by omega)]

theorem rotate_rotate_cell (b : Block2D) {x y : Nat} (hx : x < b.h) (hy : y < b.w) :
    b.rotate.rotate.cell x y = b.cell (b.h - 1 - x) (b.w - 1 - y) := by
  have h1 : x < b.rotate.w := by simpa using hx
  have h2 : y < b.rotate.h := by simpa using hy
  rw [rotate_cell b.rotate h1 h2]
  have h3 : b.rotate.h - 1 - y < b.w := by simp; omega
  rw [show b.rotate.h - 1 - y = b.w - 1 - y from by simp]
  exact rotate_cell b (by omega) hx

theorem rotate_four {b : Block2D} (hb : b.Rect) :
    b.rotate.rotate.rotate.rotate = b := by
  refine block_ext rfl rfl ?_ ?_ ?_
  · simp [hb.1]
  · intro i
    by_cases hi : i < b.h
    · rw [rotate_row_length _ (show i < b.rotate.rotate.rotate.w by simpa using hi),
        rect_row_length hb hi]
      simp
    · rw [getD_nil_of_le (l := b.rotate.rotate.rotate.rotate.data) (by simp; omega),
        getD_nil_of_le (by rw [hb.1]; omega)]
  · intro x y
    by_cases hxy : x < b.h ∧ y < b.w
    · obtain ⟨hx, hy⟩ := hxy
      rw [rotate_rotate_cell b.rotate.rotate (by simpa using hx) (by simpa using hy)]
      have e1 : b.rotate.rotate.h = b.h := rfl
      have e2 : b.rotate.rotate.w = b.w := rfl
      rw [e1, e2,
        rotate_rotate_cell b (by omega) (by omega)]
      congr 1 <;> omega
    · rw [rotate_cell_oob _ (by simpa using hxy), rect_cell_oob b hb hxy]

/-- The dihedral relation `flip ∘ rotate = rotate³ ∘ flip` on rectangular
blocks. -/
theorem flip_rotate {b : Block2D} (hb : b.Rect) :
    b.rotate.flip = b.flip.rotate.rotate.rotate := by
  have hfb : b.flip.Rect := rect_flip hb
  refine rect_ext (rect_flip (rect_rotate b)) (rect_rotate _) rfl rfl ?_
  intro x y hx hy
  have hx' : x < b.w := by simpa using hx
  have hy' : y < b.h := by simpa using hy
  have hxl : x < b.rotate.data.length := by simpa using hx'
  rw [show b.rotate.flip.cell x y = b.rotate.cell (b.rotate.data.length - 1 - x) y from
    flip_cell b.rotate hxl y]
  rw [rotate_data_length]
  rw [rotate_cell b (by omega) hy']
  have h1 : x < b.flip.rotate.rotate.w := by simpa using hx'
  have h2 : y < b.flip.rotate.rotate.h := by simpa using hy'
  rw [rotate_cell _ h1 h2]
  have e1 : b.flip.rotate.rotate.h = b.h := rfl
  rw [e1, rotate_rotate_cell b.flip (show b.h - 1 - y < b.flip.h by simp; omega) hx']
  have e2 : b.flip.h = b.h := rfl
  have e3 : b.flip.w = b.w := rfl
  rw [e2, e3]
  rw [show b.h - 1 - (b.h - 1 - y) = y from by omega]
  rw [flip_cell b (by rw [hb.1]; omega) (b.w - 1 - x)]
  rw [hb.1]

theorem flip_rotate2 {b : Block2D} (hb : b.Rect) :
    b.rotate.rotate.flip = b.flip.rotate.rotate := by
  rw [flip_rotate (rect_rotate b), flip_rotate hb, rotate_four (rect_flip hb)]

theorem flip_rotate3 {b : Block2D} (hb : b.Rect) :
    b.rotate.rotate.rotate.flip = b.flip.rotate := by
  rw [flip_rotate (rect_rotate _), flip_rotate2 hb, rotate_four (rect_flip hb)]

theorem mem_hsInsert {hs : List Block2D} {c x : Block2D} :
    x ∈ hsInsert hs c ↔ x ∈ hs ∨ x = c := by
  unfold hsInsert
  split
  · rename_i hc
    constructor
    · exact Or.inl
    · rintro (h | rfl)
      · exact h
      · exact hc
  · simp

theorem hsInsert_nodup {hs : List Block2D} {c : Block2D} (h : hs.Nodup) :
    (hsInsert hs c).Nodup := by
  unfold hsInsert
  split
  · exact h
  · rename_i hc
    simpa [List.nodup_append] using ⟨h, hc⟩

/-- The collected set of `get_transformations`, spelled out. -/
theorem get_transformations_fst (b : Block2D) :
    (b.get_transformations).1 =
      hsInsert (hsInsert (hsInsert (hsInsert (hsInsert (hsInsert (hsInsert
        (hsInsert [] b) b.rotate) b.rotate.rotate) b.rotate.rotate.rotate)
        b.rotate.rotate.rotate.rotate.flip)
        b.rotate.rotate.rotate.rotate.flip.rotate)
        b.rotate.rotate.rotate.rotate.flip.rotate.rotate)
        b.rotate.rotate.rotate.rotate.flip.rotate.rotate.rotate := by
  simp only [get_transformations]

/-- The mutated `self` returned by `get_transformations`, spelled out. -/
theorem get_transformations_snd (b : Block2D) :
    (b.get_transformations).2 =
      b.rotate.rotate.rotate.rotate.flip.rotate.rotate.rotate.rotate.flip := by
  simp only [get_transformations]

theorem get_transformations_snd_rect {b : Block2D} (hb : b.Rect) :
    (b.get_transformations).2 = b := by
  rw [get_transformations_snd, rotate_four hb, rotate_four (rect_flip hb), flip_flip]

theorem get_transformations_nodup (b : Block2D) : (b.get_transformations).1.Nodup := by
  rw [get_transformations_fst]
  exact hsInsert_nodup (hsInsert_nodup (hsInsert_nodup (hsInsert_nodup (hsInsert_nodup
    (hsInsert_nodup (hsInsert_nodup (hsInsert_nodup List.nodup_nil)))))))

theorem mem_get_transformations {b : Block2D} (hb : b.Rect) (x : Block2D) :
    x ∈ (b.get_transformations).1 ↔
      x = b ∨ x = b.rotate ∨ x = b.rotate.rotate ∨ x = b.rotate.rotate.rotate ∨
      x = b.flip ∨ x = b.flip.rotate ∨ x = b.flip.rotate.rotate ∨
      x = b.flip.rotate.rotate.rotate := by
  rw [get_transformations_fst, rotate_four hb]
  simp only [mem_hsInsert, List.not_mem_nil, false_or]
  tauto

/-- Every transformation in the collected set is reachable from `b` by
rotate/flip steps. -/
theorem reach_of_mem_get_transformations {b : Block2D} (hb : b.Rect) {x : Block2D}
    (hx : x ∈ (b.get_transformations).1) : Relation.ReflTransGen ReachStep b x := by
  have step_rot : ∀ y : Block2D, ReachStep y y.rotate := fun y => Or.inl rfl
  have step_flip : ∀ y : Block2D, ReachStep y y.flip := fun y => Or.inr rfl
  rw [mem_get_transformations hb] at hx
  rcases hx with rfl | rfl | rfl | rfl | rfl | rfl | rfl | rfl
  · exact Relation.ReflTransGen.refl
  · exact Relation.ReflTransGen.single (step_rot b)
  · exact (Relation.ReflTransGen.single (step_rot b)).tail (step_rot _)
  · exact ((Relation.ReflTransGen.single (step_rot b)).tail (step_rot _)).tail (step_rot _)
  · exact Relation.ReflTransGen.single (step_flip b)
  · exact (Relation.ReflTransGen.single (step_flip b)).tail (step_rot _)
  · exact ((Relation.ReflTransGen.single (step_flip b)).tail (step_rot _)).tail (step_rot _)
  · exact (((Relation.ReflTransGen.single (step_flip b)).tail (step_rot _)).tail
      (step_rot _)).tail (step_rot _)

/-- Conversely, everything reachable from `b` by rotate/flip steps is in the
collected set: the eight D₄ images are closed under both steps. -/
theorem mem_get_transformations_of_reach {b : Block2D} (hb : b.Rect) {x : Block2D}
    (hx : Relation.ReflTransGen ReachStep b x) : x ∈ (b.get_transformations).1 := by
  have hfb : b.flip.Rect := rect_flip hb
  induction hx with
  | refl => rw [mem_get_transformations hb]; exact Or.inl rfl
  | tail hprev hstep ih =>
    rename_i y z
    rw [mem_get_transformations hb] at ih ⊢
    rcases hstep with rfl | rfl
    · rcases ih with rfl | rfl | rfl | rfl | rfl | rfl | rfl | rfl
      · exact Or.inr (Or.inl rfl)
      · exact Or.inr (Or.inr (Or.inl rfl))
      · exact Or.inr (Or.inr (Or.inr (Or.inl rfl)))
      · rw [rotate_four hb]; exact Or.inl rfl
      · exact Or.inr (Or.inr (Or.inr (Or.inr (Or.inr (Or.inl rfl)))))
      · exact Or.inr (Or.inr (Or.inr (Or.inr (Or.inr (Or.inr (Or.inl rfl))))))
      · exact Or.inr (Or.inr (Or.inr (Or.inr (Or.inr (Or.inr (Or.inr rfl))))))
      · rw [rotate_four hfb]; exact Or.inr (Or.inr (Or.inr (Or.inr (Or.inl rfl))))
    · rcases ih with rfl | rfl | rfl | rfl | rfl | rfl | rfl | rfl
      · exact Or.inr (Or.inr (Or.inr (Or.inr (Or.inl rfl))))
      · rw [flip_rotate hb]
        exact Or.inr (Or.inr (Or.inr (Or.inr (Or.inr (Or.inr (Or.inr rfl))))))
      · rw [flip_rotate2 hb]
        exact Or.inr (Or.inr (Or.inr (Or.inr (Or.inr (Or.inr (Or.inl rfl))))))
      · rw [flip_rotate3 hb]
        exact Or.inr (Or.inr (Or.inr (Or.inr (Or.inr (Or.inl rfl)))))
      · rw [flip_flip]; exact Or.inl rfl
      · rw [flip_rotate hfb, flip_flip]
        exact Or.inr (Or.inr (Or.inr (Or.inl rfl)))
      · rw [flip_rotate2 hfb, flip_flip]
        exact Or.inr (Or.inr (Or.inl rfl))
      · rw [flip_rotate3 hfb, flip_flip]
        exact Or.inr (Or.inl rfl)

end Block2D

theorem matrix_from_variations_length (l : List (List Bool)) :
    (matrix_from_variations l).length = l.length := by
  simp [matrix_from_variations]

theorem gatherVariations_blocks {g : Game2D} :
    ∀ {bs : List Block2D}, (∀ b ∈ bs, b.Rect) →
      ∀ {vs : List (List Bool)} {bs' : List Block2D},
        gatherVariations g bs = some (vs, bs') → bs' = bs := by
  intro bs
  induction bs with
  | nil =>
    intro _ vs bs' h
    simp [gatherVariations] at h
    exact h.2
  | cons b rest ih =>
    intro hrect vs bs' h
    simp only [gatherVariations] at h
    rw [Block2D.get_transformations_snd_rect (hrect b (by simp))] at h
    match htv : trsVariations g (b.get_transformations).1 with
    | none => rw [htv] at h; simp at h
    | some v =>
      rw [htv] at h
      simp only [Option.bind_eq_bind, Option.some_bind] at h
      match hgv : gatherVariations g rest with
      | none => rw [hgv] at h; simp at h
      | some p =>
        rw [hgv] at h
        simp only [Option.some_bind, Option.some.injEq, Prod.mk.injEq] at h
        obtain ⟨-, h2⟩ := h
        have hgv' : gatherVariations g rest = some (p.1, p.2) := by rw [hgv]
        have := ih (fun x hx => hrect x (by simp [hx])) hgv'
        rw [← h2, this]

/-! ## Claim C1 -/

/-- Claim C1 (code bug): the claim states that every solution returned by
`solve_all` is a valid exact cover of the input matrix.  The code violates
it: `build` splices every empty column out of the header row, so search
treats such a column as already satisfied.  On `[[true, false]]` (column 1
has no 1-cells) `solve_all` returns the "solution" `[0]`, whose single row
covers only column 0, not the full column set `{0, 1}`. -/
theorem c1_solve_all_returns_non_cover :
    solve_all [[true, false]] = some [[0]] ∧
    ¬ isExactCover [[true, false]] [0] := by
  constructor
  · rfl
  · decide

/-! ## Claim C2 -/

/-- Claim C2 (code bug): the claim (and spec §4.3) say the matrix built by
`Game2D::get_matrix` has `P + H·W` columns, `P` the number of pieces, with
each row's piece bit set at its piece's index.  `matrix_from_variations`
instead prepends one identity column per *placement row*: for a 2×1 board
with the single 1×1 piece `"#"` (so `P + H·W = 1 + 2 = 3`) the produced
matrix has `2 + 2 = 4` columns, and the second placement row of the only
piece has no true bit among its first `P = 1` entries. -/
theorem c2_identity_block_per_row_not_per_piece :
    get_matrix ⟨2, 1, [⟨1, 1, [[true]]⟩]⟩ =
      some ([[true, false, true, false], [false, true, false, true]],
        ⟨2, 1, [⟨1, 1, [[true]]⟩]⟩) ∧
    ([[true, false, true, false], [false, true, false, true]] : List (List Bool)).map
      List.length = [4, 4] ∧
    (([false, true, false, true] : List Bool).take 1).all (fun b => b = false) = true := by
  refine ⟨by rfl, by decide, by decide⟩

/-! ## Claim C3 -/

/-- Claim C3 (code bug): the claim (and spec §7 / scenario 2) say a matrix
containing an empty column is infeasible, `solve_all` returning `[]` and
`solve_once` returning `None`; on `[[true, false], [true, false]]` the code
instead elides the empty column during `build` and then *succeeds* without
covering it, returning the non-covers `[[0], [1]]` and `Some [0]`. -/
theorem c3_empty_column_not_reported_infeasible :
    solve_all [[true, false], [true, false]] = some [[0], [1]] ∧
    solve_once [[true, false], [true, false]] = some (some [0]) := by
  exact ⟨by rfl, by rfl⟩

/-! ## Claim C9, counterexample -/

/-- Claim C9 counterexample: the claim says every malformed matrix (zero
rows, zero columns, or ragged rows) is rejected up front with an error.  The
ragged matrix `[[true, false], [true]]` (second row shorter) is accepted:
`build` succeeds, the search runs, and both entry points return ordinary
results rather than an error. -/
theorem c9_ragged_matrix_not_rejected :
    solve_all [[true, false], [true]] = some [[0], [1]] ∧
    solve_once [[true, false], [true]] = some (some [0]) := by
  exact ⟨by rfl, by rfl⟩

/-! ## Claim C10, counterexample -/

/-- Claim C10 counterexample: the claim says every `Game2D`'s blocks are
unchanged after `get_matrix` returns.  For the ragged block `"#\n##"`
(`w = 1` taken from the first row, second row longer) the two rounds of four
rotations and a flip are *not* the identity: each rotation reads only the
first `w` cells of each row, so the overhanging cell is truncated and the
block comes back as `[[true], [true]]`. -/
theorem c10_ragged_block_mutated :
    ((get_matrix ⟨2, 2, [⟨1, 2, [[true], [true, true]]⟩]⟩).map fun p => p.2.blocks) =
      some [⟨1, 2, [[true], [true]]⟩] ∧
    ([⟨1, 2, [[true], [true]]⟩] : List Block2D) ≠ [⟨1, 2, [[true], [true, true]]⟩] := by
  exact ⟨by rfl, by decide⟩

/-! ## Claim C4, counterexample -/

/-- Claim C4 counterexample: the claim quantifies over *every* sequence of
column headers of a built structure.  Covering the header of an empty column
(spliced out of the header row by `build`) and then uncovering it does not
restore the structure: on `[[false, true]]` the empty column's header is
elided, `cover` on it is a no-op, and `uncover` splices it *back into* the
header row, changing the root's `r` link and the other header's `l` link. -/
theorem c4_cover_uncover_elided_header_not_inverse :
    ((build [[false, true]]).bind fun p => cover p.1 1) =
      (build [[false, true]]).map (fun p => p.1) ∧
    ((build [[false, true]]).bind fun p => (cover p.1 1).bind fun s' => uncover s' 1) ≠
      (build [[false, true]]).map (fun p => p.1) := by
  exact ⟨by rfl, by decide⟩

end DLX

namespace DLX

/-! ## Claim C7 -/

/-- Claim C7 (confirmed): the fully-filled 2×2 square piece has exactly one
distinct orientation after D₄ deduplication, and on a `W×H` board with
`W, H ≥ 2` the reducer emits exactly `(W−1)·(H−1)` placement rows for it
(the matrix built from the single-piece game has that many rows), not eight
times as many. -/
theorem c7_square_one_orientation_and_placements (W H : Nat) (hW : 2 ≤ W) (hH : 2 ≤ H) :
    (square22.get_transformations).1 = [square22] ∧
    ∃ M g', get_matrix ⟨W, H, [square22]⟩ = some (M, g') ∧
      M.length = (W - 1) * (H - 1) := by
  have hgt : square22.get_transformations = ([square22], square22) := by decide
  refine ⟨by rw [hgt], ?_⟩
  have hfit : square22.h ≤ (⟨W, H, [square22]⟩ : Game2D).h ∧
      square22.w ≤ (⟨W, H, [square22]⟩ : Game2D).w := ⟨hH, hW⟩
  have hbv : blockVariations ⟨W, H, [square22]⟩ square22 =
      some ((List.range (H - 2 + 1)).flatMap fun sy =>
        (List.range (W - 2 + 1)).map fun sx =>
          placeEntry ⟨W, H, [square22]⟩ square22 sy sx) := by
    unfold blockVariations
    rw [if_pos hfit]
    rfl
  have htrs : trsVariations ⟨W, H, [square22]⟩ [square22] =
      some (((List.range (H - 2 + 1)).flatMap fun sy =>
        (List.range (W - 2 + 1)).map fun sx =>
          placeEntry ⟨W, H, [square22]⟩ square22 sy sx) ++ []) := by
    simp only [trsVariations, hbv, Option.bind_eq_bind, Option.some_bind]
  have hgv : gatherVariations ⟨W, H, [square22]⟩ [square22] =
      some ((((List.range (H - 2 + 1)).flatMap fun sy =>
        (List.range (W - 2 + 1)).map fun sx =>
          placeEntry ⟨W, H, [square22]⟩ square22 sy sx) ++ []) ++ [], [square22]) := by
    simp only [gatherVariations, hgt, htrs, Option.bind_eq_bind, Option.some_bind]
  refine ⟨matrix_from_variations ((((List.range (H - 2 + 1)).flatMap fun sy =>
        (List.range (W - 2 + 1)).map fun sx =>
          placeEntry ⟨W, H, [square22]⟩ square22 sy sx) ++ []) ++ []),
      ⟨W, H, [square22]⟩, ?_, ?_⟩
  · simp only [get_matrix, hgv, Option.bind_eq_bind, Option.some_bind]
  · rw [matrix_from_variations_length]
    simp only [List.append_nil, List.length_flatMap]
    have e1 : H - 2 + 1 = H - 1 := by omega
    have e2 : W - 2 + 1 = W - 1 := by omega
    rw [e1, e2]
    simp [Function.comp_def, List.map_const']
    ring

/-- Witness for C7 at `W = H = 2`. -/
theorem c7_witness :
    2 ≤ 2 ∧
    ((square22.get_transformations).1 = [square22] ∧
      ∃ M g', get_matrix ⟨2, 2, [square22]⟩ = some (M, g') ∧
        M.length = (2 - 1) * (2 - 1)) :=
  ⟨by decide, c7_square_one_orientation_and_placements 2 2 (by decide) (by decide)⟩

/-! ## Claim C8 -/

/-- Claim C8 (confirmed): for a rectangular `h×w` block, `rotate` produces
the `w×h` block with `rot(M)[x][y] = M[h−1−y][x]` (90° clockwise, dimensions
swapped), `flip` reverses the rows keeping the dimensions, and
`get_transformations` returns, without duplicates, exactly the set of blocks
reachable from the block by these two symmetries, compared by value equality
of dimensions and cell data. -/
theorem c8_rotate_flip_transformations (b : Block2D) (hb : b.Rect) :
    ((b.rotate.w = b.h ∧ b.rotate.h = b.w) ∧
      ∀ x y, x < b.w → y < b.h → b.rotate.cell x y = b.cell (b.h - 1 - y) x) ∧
    (b.flip.data = b.data.reverse ∧ b.flip.w = b.w ∧ b.flip.h = b.h) ∧
    ((b.get_transformations).1.Nodup ∧
      ∀ x, x ∈ (b.get_transformations).1 ↔ Relation.ReflTransGen ReachStep b x) :=
  ⟨⟨⟨rfl, rfl⟩, fun _ _ hx hy => Block2D.rotate_cell b hx hy⟩,
    ⟨rfl, rfl, rfl⟩,
    Block2D.get_transformations_nodup b, fun _ =>
      ⟨Block2D.reach_of_mem_get_transformations hb,
        Block2D.mem_get_transformations_of_reach hb⟩⟩

/-- Witness for C8 at the rectangular L-shaped block `"##" / ".#"`. -/
theorem c8_witness :
    (⟨2, 2, [[true, true], [false, true]]⟩ : Block2D).Rect ∧
    (((⟨2, 2, [[true, true], [false, true]]⟩ : Block2D).rotate.w =
          (⟨2, 2, [[true, true], [false, true]]⟩ : Block2D).h ∧
        (⟨2, 2, [[true, true], [false, true]]⟩ : Block2D).rotate.h =
          (⟨2, 2, [[true, true], [false, true]]⟩ : Block2D).w) ∧
      ∀ x y, x < (⟨2, 2, [[true, true], [false, true]]⟩ : Block2D).w →
        y < (⟨2, 2, [[true, true], [false, true]]⟩ : Block2D).h →
        (⟨2, 2, [[true, true], [false, true]]⟩ : Block2D).rotate.cell x y =
          (⟨2, 2, [[true, true], [false, true]]⟩ : Block2D).cell
            ((⟨2, 2, [[true, true], [false, true]]⟩ : Block2D).h - 1 - y) x) ∧
    ((⟨2, 2, [[true, true], [false, true]]⟩ : Block2D).flip.data =
        (⟨2, 2, [[true, true], [false, true]]⟩ : Block2D).data.reverse ∧
      (⟨2, 2, [[true, true], [false, true]]⟩ : Block2D).flip.w =
        (⟨2, 2, [[true, true], [false, true]]⟩ : Block2D).w ∧
      (⟨2, 2, [[true, true], [false, true]]⟩ : Block2D).flip.h =
        (⟨2, 2, [[true, true], [false, true]]⟩ : Block2D).h) ∧
    (((⟨2, 2, [[true, true], [false, true]]⟩ : Block2D).get_transformations).1.Nodup ∧
      ∀ x, x ∈ ((⟨2, 2, [[true, true], [false, true]]⟩ : Block2D).get_transformations).1 ↔
        Relation.ReflTransGen ReachStep (⟨2, 2, [[true, true], [false, true]]⟩ : Block2D) x) :=
  ⟨by decide, c8_rotate_flip_transformations _ (by decide)⟩

/-! ## Claim C10, amended -/

/-- Claim C10 (corrected, amended): for every `Game2D` whose blocks are all
rectangular, after `get_matrix` returns every block is unchanged (the two
rounds of four rotations followed by a flip are a net identity); the
counterexample above shows the restriction to rectangular blocks is needed. -/
theorem c10_rect_blocks_unchanged (g : Game2D) (M : List (List Bool)) (g' : Game2D)
    (hrect : ∀ b ∈ g.blocks, b.Rect) (h : get_matrix g = some (M, g')) :
    g'.blocks = g.blocks := by
  simp only [get_matrix, Option.bind_eq_bind] at h
  match hgv : gatherVariations g g.blocks with
  | none => rw [hgv] at h; simp at h
  | some p =>
    rw [hgv] at h
    simp only [Option.some_bind, Option.some.injEq, Prod.mk.injEq] at h
    have hgv' : gatherVariations g g.blocks = some (p.1, p.2) := by rw [hgv]
    have hb : p.2 = g.blocks := gatherVariations_blocks hrect hgv' 
    rw [← h.2]
    exact hb

/-- Witness for C10's amended claim at a rectangular single-block game. -/
theorem c10_witness :
    (∀ b ∈ (⟨2, 2, [square22]⟩ : Game2D).blocks, b.Rect) ∧
    (Game2D.mk 2 2 [square22]).blocks = (⟨2, 2, [square22]⟩ : Game2D).blocks :=
  ⟨by decide,
    c10_rect_blocks_unchanged ⟨2, 2, [square22]⟩
      [[true, true, true, true, true]] ⟨2, 2, [square22]⟩ (by decide) (by rfl)⟩

end DLX

namespace DLX

/-! ## Claim C9, amended -/

theorem buildCell_bad_none {width y : Nat} (acc : DState × List Nat) {x : Nat}
    (hx : width ≤ x) : buildCell width y acc x true = none := by
  simp [buildCell, Nat.not_lt.mpr hx]

theorem foldlM_buildCell_none {width y : Nat} :
    ∀ (l : List (Nat × Bool)) (acc : DState × List Nat),
      (∃ p ∈ l, width ≤ p.1 ∧ p.2 = true) →
      l.foldlM (fun acc p => buildCell width y acc p.1 p.2) acc = none := by
  intro l
  induction l with
  | nil => intro acc h; simp at h
  | cons p rest ih =>
    intro acc h
    obtain ⟨q, hq, hq1, hq2⟩ := h
    rw [List.foldlM_cons]
    rcases List.mem_cons.mp hq with rfl | hq'
    · rw [hq2, buildCell_bad_none acc hq1]
      rfl
    · cases hc : buildCell width y acc p.1 p.2 with
      | none => rfl
      | some acc' => exact ih acc' ⟨q, hq', hq1, hq2⟩

theorem buildRowCells_bad_none {width y : Nat} {row : List Bool}
    (hbad : ∃ x, x < row.length ∧ width ≤ x ∧ row.getD x false = true) (s : DState) :
    buildRowCells width y s row = none := by
  obtain ⟨x, hxlen, hxw, hxt⟩ := hbad
  have hsome : row[x]? = some true := by
    rw [List.getElem?_eq_getElem hxlen]
    rw [List.getD_eq_getElem?_getD, List.getElem?_eq_getElem hxlen] at hxt
    exact congrArg some hxt
  have hmem : ((x, true) : Nat × Bool) ∈ row.enum := List.mem_enum_iff_getElem?.mpr hsome
  exact foldlM_buildCell_none row.enum (s, []) ⟨(x, true), hmem, hxw, rfl⟩

theorem buildRows_bad_none {width : Nat} {input : List (List Bool)}
    (hbad : ∃ row ∈ input, ∃ x, x < row.length ∧ width ≤ x ∧ row.getD x false = true) :
    ∀ s, buildRows width s input = none := by
  obtain ⟨row, hrow, hx⟩ := hbad
  obtain ⟨yy, hyy⟩ := List.mem_iff_getElem?.mp hrow
  have hmem : ((yy, row) : Nat × List Bool) ∈ input.enum := List.mem_enum_iff_getElem?.mpr hyy
  unfold buildRows
  suffices h : ∀ (l : List (Nat × List Bool)) (s : DState), (yy, row) ∈ l →
      (l.foldlM (fun t p => do
        let (t1, rowNodes) ← buildRowCells width p.1 t p.2
        some (chainRow t1 rowNodes)) s) = none by
    intro s; exact h input.enum s hmem
  intro l
  induction l with
  | nil => intro s h; simp at h
  | cons p rest ih =>
    intro s h
    rw [List.foldlM_cons]
    rcases List.mem_cons.mp h with heq | h'
    · rw [show buildRowCells width p.1 s p.2 = none from heq ▸ buildRowCells_bad_none hx s]
      rfl
    · cases hc : buildRowCells width p.1 s p.2 with
      | none => rfl
      | some pr =>
        obtain ⟨t1, rn⟩ := pr
        exact ih (chainRow t1 rn) h'

/-- Claim C9 (corrected, amended): `solve_all` and `solve_once` fail by
panicking in `build` (modelled as an error result) on matrices with zero
rows, zero columns, or a ragged row carrying a `true` cell at a column index
at or beyond the first row's length; the counterexample above shows other
ragged matrices are accepted and searched rather than rejected. -/
theorem c9_panic_inputs_give_errors (input : List (List Bool)) (h : buildPanics input) :
    solve_all input = none ∧ solve_once input = none := by
  have hb : build input = none := by
    rcases h with rfl | h0 | hbad
    · rfl
    · cases input with
      | nil => rfl
      | cons row0 rest =>
        simp only [List.headD_cons] at h0
        simp [build, h0]
    · cases input with
      | nil => rfl
      | cons row0 rest =>
        simp only [List.headD_cons] at hbad
        simp only [build]
        split
        · rfl
        · rw [buildRows_bad_none hbad]
          rfl
  exact ⟨by simp [solve_all, hb], by simp [solve_once, hb]⟩

/-- Witness for C9's amended claim: a ragged matrix whose second row has a
`true` cell beyond the first row's width. -/
theorem c9_witness :
    buildPanics [[true], [false, true]] ∧
    solve_all [[true], [false, true]] = none ∧
    solve_once [[true], [false, true]] = none :=
  ⟨by decide, c9_panic_inputs_give_errors [[true], [false, true]] (by decide)⟩

end DLX

namespace DLX

/-! ## Claim C6 -/

theorem champion_spec (s : DState) :
    ∀ (rest : List Nat) (c : Nat),
      (champion s c rest = c ∧
        ∀ h ∈ rest, (getN s c).data ≤ (getN s h).data) ∨
      (∃ l1 l2, rest = l1 ++ champion s c rest :: l2 ∧
        (getN s (champion s c rest)).data < (getN s c).data ∧
        (∀ h ∈ rest, (getN s (champion s c rest)).data ≤ (getN s h).data) ∧
        ∀ h ∈ l1, (getN s (champion s c rest)).data < (getN s h).data) := by
  intro rest
  induction rest with
  | nil => intro c; exact Or.inl ⟨rfl, by simp⟩
  | cons x xs ih =>
    intro c
    show (champion s c (x :: xs) = c ∧ _) ∨ _
    by_cases hx : (getN s x).data < (getN s c).data
    · have hch : champion s c (x :: xs) = champion s x xs := by
        simp [champion, hx]
      rcases ih x with ⟨heq, hmin⟩ | ⟨l1, l2, hsplit, hlt, hmin, hstrict⟩
      · refine Or.inr ⟨[], xs, ?_, ?_, ?_, by simp⟩
        · rw [hch, heq]; rfl
        · rw [hch, heq]; exact hx
        · intro h hmem
          rw [hch, heq]
          rcases List.mem_cons.mp hmem with rfl | hmem'
          · exact le_refl _
          · exact hmin h hmem'
      · refine Or.inr ⟨x :: l1, l2, ?_, ?_, ?_, ?_⟩
        · rw [hch, List.cons_append, ← hsplit]
        · rw [hch]
          exact lt_trans hlt hx
        · intro h hmem
          rw [hch]
          rcases List.mem_cons.mp hmem with rfl | hmem'
          · exact le_of_lt hlt
          · exact hmin h hmem'
        · intro h hmem
          rw [hch]
          rcases List.mem_cons.mp hmem with rfl | hmem'
          · exact hlt
          · exact hstrict h hmem'
    · have hch : champion s c (x :: xs) = champion s c xs := by
        simp [champion, hx]
      have hcx : (getN s c).data ≤ (getN s x).data := le_of_not_lt hx
      rcases ih c with ⟨heq, hmin⟩ | ⟨l1, l2, hsplit, hlt, hmin, hstrict⟩
      · refine Or.inl ⟨by rw [hch, heq], ?_⟩
        intro h hmem
        rcases List.mem_cons.mp hmem with rfl | hmem'
        · exact hcx
        · exact hmin h hmem'
      · refine Or.inr ⟨x :: l1, l2, ?_, ?_, ?_, ?_⟩
        · rw [hch, List.cons_append, ← hsplit]
        · rw [hch]; exact hlt
        · intro h hmem
          rw [hch]
          rcases List.mem_cons.mp hmem with rfl | hmem'
          · exact le_of_lt (lt_of_lt_of_le hlt hcx)
          · exact hmin h hmem'
        · intro h hmem
          rw [hch]
          rcases List.mem_cons.mp hmem with rfl | hmem'
          · exact lt_of_lt_of_le hlt hcx
          · exact hstrict h hmem'

theorem chooseLoop_champion (s : DState) (root : Nat) :
    ∀ (xs : List Nat) (cur c : Nat) (fuel : Nat),
      pathF (fun n => n.r) s cur xs root → cur ≠ root → root ∉ xs →
      xs.length + 2 ≤ fuel →
      chooseLoop fuel s root cur (some c) ((getN s c).data) =
        some (some (champion s c (cur :: xs))) := by
  intro xs
  induction xs with
  | nil =>
    intro cur c fuel hpath hcur _ hfuel
    match fuel, hfuel with
    | f + 2, _ =>
      show chooseLoop (f + 2) s root cur (some c) ((getN s c).data) = _
      rw [chooseLoop]
      rw [if_neg hcur]
      have hr : (getN s cur).r = root := hpath
      by_cases hd : (getN s cur).data < (getN s c).data
      · rw [if_pos hd, hr, chooseLoop, if_pos rfl]
        simp [champion, hd]
      · rw [if_neg hd, hr, chooseLoop, if_pos rfl]
        simp [champion, hd]
  | cons x xs' ih =>
    intro cur c fuel hpath hcur hroot hfuel
    obtain ⟨hr0, hpath'⟩ := hpath
    have hr : (getN s cur).r = x := hr0
    have hxroot : x ≠ root := fun h => hroot (h ▸ List.mem_cons_self x xs')
    have hroot' : root ∉ xs' := fun h => hroot (List.mem_cons_of_mem x h)
    match fuel, hfuel with
    | f + 1, hf =>
      rw [chooseLoop, if_neg hcur]
      have hlen : xs'.length + 2 ≤ f := by
        simp only [List.length_cons] at hf; omega
      by_cases hd : (getN s cur).data < (getN s c).data
      · rw [if_pos hd, hr, ih x cur f hpath' hxroot hroot' hlen]
        have : champion s c (cur :: x :: xs') = champion s cur (x :: xs') := by
          simp [champion, hd]
        rw [this]
      · rw [if_neg hd, hr, ih x c f hpath' hxroot hroot' hlen]
        have : champion s c (cur :: x :: xs') = champion s c (x :: xs') := by
          simp [champion, hd]
        rw [this]

/-- Claim C6 (confirmed): whenever the active header row is non-empty, the
column-selection scan performed at each recursion step of `search_all` and
`search_once` (both branch on `chooseCol`, the shared embedding of their
identical scan loops) returns a header whose payload is minimal among the
active headers, and on ties the leftmost active one (every header strictly
left of the choice has a strictly larger payload).  `hs` is the list of
active headers threaded right from the root, and the payload bound is the
`usize::MAX` initial value of the scan. -/
theorem c6_smallest_column_leftmost (s : DState) (root : Nat) (hs : List Nat)
    (hchain : pathF (fun n => n.r) s root hs root)
    (hroot : root ∉ hs) (hne : hs ≠ []) (hlen : hs.length < s.length)
    (hbound : ∀ h ∈ hs, (getN s h).data < usizeMax) :
    ∃ c l1 l2, chooseCol s root = some (some c) ∧ hs = l1 ++ c :: l2 ∧
      (∀ h ∈ hs, (getN s c).data ≤ (getN s h).data) ∧
      ∀ h ∈ l1, (getN s c).data < (getN s h).data := by
  match hs, hne with
  | a :: rest, _ =>
    obtain ⟨hra0, hpath⟩ := hchain
    have hra : (getN s root).r = a := hra0
    have haroot : a ≠ root := fun h => hroot (h ▸ List.mem_cons_self a rest)
    have hrootrest : root ∉ rest := fun h => hroot (List.mem_cons_of_mem a h)
    have hval : chooseCol s root = some (some (champion s a (a :: rest))) := by
      have hsame : champion s a (a :: rest) = champion s a rest := by simp [champion]
      unfold chooseCol
      match hsl : s.length, hlen with
      | n + 1, hl =>
        rw [chooseLoop, hra, if_neg haroot,
          if_pos (hbound a (List.mem_cons_self a rest))]
        cases rest with
        | nil =>
          have hr : (getN s a).r = root := hpath
          rw [hr, chooseLoop, if_pos rfl, hsame]
          rfl
        | cons b rest' =>
          obtain ⟨hrb0, hpath'⟩ := hpath
          have hrb : (getN s a).r = b := hrb0
          have hbroot : b ≠ root := fun h => hrootrest (h ▸ List.mem_cons_self b rest')
          have hrootrest' : root ∉ rest' := fun h => hrootrest (List.mem_cons_of_mem b h)
          have hlen' : rest'.length + 2 ≤ n + 1 := by
            simp only [List.length_cons] at hl; omega
          rw [hrb, chooseLoop_champion s root rest' b a (n + 1) hpath' hbroot hrootrest' hlen',
            hsame]
    rw [hval]
    rcases champion_spec s rest a with ⟨heq, hmin⟩ | ⟨l1, l2, hsplit, hlt, hmin, hstrict⟩
    · have hch : champion s a (a :: rest) = a := by
        have : champion s a (a :: rest) = champion s a rest := by simp [champion]
        rw [this, heq]
      refine ⟨a, [], rest, by rw [hch], rfl, ?_, by simp⟩
      intro h hmem
      rcases List.mem_cons.mp hmem with rfl | hmem'
      · exact le_refl _
      · exact hmin h hmem'
    · have hch : champion s a (a :: rest) = champion s a rest := by simp [champion]
      refine ⟨champion s a rest, a :: l1, l2, by rw [hch], by rw [List.cons_append, ← hsplit],
        ?_, ?_⟩
      · intro h hmem
        rcases List.mem_cons.mp hmem with rfl | hmem'
        · exact le_of_lt hlt
        · exact hmin h hmem'
      · intro h hmem
        rcases List.mem_cons.mp hmem with rfl | hmem'
        · exact hlt
        · exact hstrict h hmem'

end DLX

namespace DLX

/-- Witness for C6 on the structure built from `[[true, true], [true, false]]`:
active headers `[1, 2]` with payloads `2` and `1`; the scan picks header `2`. -/
theorem c6_witness :
    (pathF (fun n => n.r) (((build [[true, true], [true, false]]).map
        (fun p => p.1)).getD []) 0 [1, 2] 0 ∧
      (0 : Nat) ∉ ([1, 2] : List Nat) ∧ ([1, 2] : List Nat) ≠ [] ∧
      ([1, 2] : List Nat).length <
        (((build [[true, true], [true, false]]).map (fun p => p.1)).getD []).length ∧
      ∀ h ∈ ([1, 2] : List Nat),
        (getN (((build [[true, true], [true, false]]).map (fun p => p.1)).getD []) h).data <
          usizeMax) ∧
    (∃ c l1 l2,
      chooseCol (((build [[true, true], [true, false]]).map (fun p => p.1)).getD []) 0 =
        some (some c) ∧
      ([1, 2] : List Nat) = l1 ++ c :: l2 ∧
      (∀ h ∈ ([1, 2] : List Nat),
        (getN (((build [[true, true], [true, false]]).map (fun p => p.1)).getD []) c).data ≤
          (getN (((build [[true, true], [true, false]]).map (fun p => p.1)).getD []) h).data) ∧
      ∀ h ∈ l1,
        (getN (((build [[true, true], [true, false]]).map (fun p => p.1)).getD []) c).data <
          (getN (((build [[true, true], [true, false]]).map (fun p => p.1)).getD []) h).data) :=
  ⟨⟨by decide, by decide, by decide, by decide, by decide⟩,
    c6_smallest_column_leftmost _ 0 [1, 2] (by decide) (by decide) (by decide)
      (by decide) (by decide)⟩

end DLX

namespace DLX

/-! ## Claim C5 -/

/-- `partial_results` is a pure accumulator of `search_all`: running with any
initial accumulator equals running with the empty one and prepending. -/
theorem search_all_acc : ∀ fuel : Nat,
    (∀ s root sol res, search_all fuel s root sol res =
      (search_all fuel s root sol []).map fun p => (p.1, res ++ p.2)) ∧
    (∀ s root best cur sol res, search_all_rows fuel s root best cur sol res =
      (search_all_rows fuel s root best cur sol []).map fun p => (p.1, res ++ p.2)) := by
  intro fuel
  induction fuel with
  | zero => exact ⟨fun _ _ _ _ => rfl, fun _ _ _ _ _ _ => rfl⟩
  | succ fuel ih =>
    constructor
    · intro s root sol res
      rw [search_all, search_all]
      split
      · rfl
      · split
        · rfl
        · rfl
        · rename_i best hcc
          split
          · rfl
          · rename_i s1 hcov
            rw [ih.2 s1 root best ((getN s1 best).d) sol res]
            cases hrows : search_all_rows fuel s1 root best ((getN s1 best).d) sol [] with
            | none => rfl
            | some p =>
              obtain ⟨s2, r2⟩ := p
              simp only [Option.map_some']
              cases hunc : uncover s2 best with
              | none => rfl
              | some s3 => rfl
    · intro s root best cur sol res
      rw [search_all_rows, search_all_rows]
      split
      · simp
      · split
        · rfl
        · rename_i s1 hcrm
          rw [ih.1 s1 root (sol ++ [(getN s cur).data]) res]
          cases hall : search_all fuel s1 root (sol ++ [(getN s cur).data]) [] with
          | none => rfl
          | some p =>
            obtain ⟨s2, r2⟩ := p
            simp only [Option.map_some']
            cases hunc : uncoverRowMates (s2.length + 1) s2 cur ((getN s2 cur).l) with
            | none => rfl
            | some s3 =>
              simp only []
              rw [ih.2 s3 root best ((getN s3 cur).d) sol (res ++ r2),
                ih.2 s3 root best ((getN s3 cur).d) sol r2]
              cases htail : search_all_rows fuel s3 root best ((getN s3 cur).d) sol [] with
              | none => rfl
              | some q => simp

/-- The lockstep between `search_all` and `search_once`: on the same fuel and
state, `search_once` succeeds exactly when `search_all` collects a non-empty
result list, its result is the first collected solution, and when no solution
exists both leave the same final state. -/
theorem search_lockstep : ∀ fuel : Nat,
    (∀ s root sol s' res2, search_all fuel s root sol [] = some (s', res2) →
      (res2 = [] ∧ search_once fuel s root sol = some (s', none)) ∨
      (∃ r rs s'', res2 = r :: rs ∧ search_once fuel s root sol = some (s'', some r))) ∧
    (∀ s root best cur sol s' res2,
      search_all_rows fuel s root best cur sol [] = some (s', res2) →
      (res2 = [] ∧ search_once_rows fuel s root best cur sol = some (s', none)) ∨
      (∃ r rs s'', res2 = r :: rs ∧
        search_once_rows fuel s root best cur sol = some (s'', some r))) := by
  intro fuel
  induction fuel with
  | zero => exact ⟨fun _ _ _ _ _ h => absurd h (by simp [search_all]),
      fun _ _ _ _ _ _ _ h => absurd h (by simp [search_all_rows])⟩
  | succ fuel ih =>
    constructor
    · intro s root sol s' res2 h
      rw [search_all] at h
      rw [search_once]
      by_cases hroot : (getN s root).r = root
      · rw [if_pos hroot] at h
        rw [if_pos hroot]
        simp only [Option.some.injEq, Prod.mk.injEq, List.nil_append] at h
        exact Or.inr ⟨sol, [], s, h.2.symm, by rw [h.1]⟩
      · rw [if_neg hroot] at h
        rw [if_neg hroot]
        cases hcc : chooseCol s root with
        | none => rw [hcc] at h; exact absurd h (by simp)
        | some bo =>
          rw [hcc] at h
          cases bo with
          | none => exact absurd h (by simp)
          | some best =>
            simp only [] at h ⊢
            cases hcov : cover s best with
            | none => rw [hcov] at h; exact absurd h (by simp)
            | some s1 =>
              rw [hcov] at h
              simp only [] at h ⊢
              cases hrows : search_all_rows fuel s1 root best ((getN s1 best).d) sol [] with
              | none => rw [hrows] at h; exact absurd h (by simp)
              | some p =>
                rw [hrows] at h
                obtain ⟨s2, r2⟩ := p
                simp only [] at h
                rcases ih.2 s1 root best ((getN s1 best).d) sol s2 r2 hrows with
                  ⟨hr2, honce⟩ | ⟨r, rs, s'', hr2, honce⟩
                · subst hr2
                  rw [honce]
                  simp only []
                  cases hunc : uncover s2 best with
                  | none => rw [hunc] at h; exact absurd h (by simp)
                  | some s3 =>
                    rw [hunc] at h
                    simp only [Option.some.injEq, Prod.mk.injEq] at h
                    exact Or.inl ⟨h.2.symm, by rw [h.1]⟩
                · subst hr2
                  rw [honce]
                  simp only []
                  cases hunc : uncover s2 best with
                  | none => rw [hunc] at h; exact absurd h (by simp)
                  | some s3 =>
                    rw [hunc] at h
                    simp only [Option.some.injEq, Prod.mk.injEq] at h
                    exact Or.inr ⟨r, rs, s'', h.2.symm, rfl⟩
    · intro s root best cur sol s' res2 h
      rw [search_all_rows] at h
      rw [search_once_rows]
      by_cases hcur : cur = best
      · rw [if_pos hcur] at h
        rw [if_pos hcur]
        simp only [Option.some.injEq, Prod.mk.injEq] at h
        exact Or.inl ⟨h.2.symm, by rw [h.1]⟩
      · rw [if_neg hcur] at h
        rw [if_neg hcur]
        cases hcrm : coverRowMates (s.length + 1) s cur ((getN s cur).r) with
        | none => rw [hcrm] at h; exact absurd h (by simp)
        | some s1 =>
          rw [hcrm] at h
          simp only [] at h ⊢
          cases hall : search_all fuel s1 root (sol ++ [(getN s cur).data]) [] with
          | none => rw [hall] at h; exact absurd h (by simp)
          | some p =>
            rw [hall] at h
            obtain ⟨s2, r2⟩ := p
            simp only [] at h
            rcases ih.1 s1 root (sol ++ [(getN s cur).data]) s2 r2 hall with
              ⟨hr2, honce⟩ | ⟨r, rs, s'', hr2, honce⟩
            · subst hr2
              rw [honce]
              simp only []
              cases hunc : uncoverRowMates (s2.length + 1) s2 cur ((getN s2 cur).l) with
              | none => rw [hunc] at h; exact absurd h (by simp)
              | some s3 =>
                rw [hunc] at h
                simp only [] at h
                rcases ih.2 s3 root best ((getN s3 cur).d) sol s' res2 h with
                  ⟨hres, honce2⟩ | ⟨r, rs, s'', hres, honce2⟩
                · exact Or.inl ⟨hres, honce2⟩
                · exact Or.inr ⟨r, rs, s'', hres, honce2⟩
            · subst hr2
              rw [honce]
              simp only []
              cases hunc : uncoverRowMates (s2.length + 1) s2 cur ((getN s2 cur).l) with
              | none => rw [hunc] at h; exact absurd h (by simp)
              | some s3 =>
                rw [hunc] at h
                simp only [] at h
                rw [(search_all_acc fuel).2 s3 root best ((getN s3 cur).d) sol (r :: rs)] at h
                cases htail : search_all_rows fuel s3 root best ((getN s3 cur).d) sol [] with
                | none => rw [htail] at h; exact absurd h (by simp)
                | some q =>
                  rw [htail] at h
                  simp only [Option.map_some', Option.some.injEq, Prod.mk.injEq] at h
                  refine Or.inr ⟨r, rs ++ q.2, s'', ?_, rfl⟩
                  rw [← h.2]
                  simp

/-- Claim C5 (confirmed): whenever `solve_all` terminates with result list
`res` (the hypothesis; both entry points build the same structure and search
with the same fuel), `solve_once` terminates as well, returning `Some` of the
first element of `res` when `res` is non-empty and `None` when it is empty —
exactly "returns a solution iff `solve_all` is non-empty, and then the first
one". -/
theorem c5_solve_once_is_head_of_solve_all (input : List (List Bool))
    (res : List (List Int)) (h : solve_all input = some res) :
    solve_once input = some res.head? := by
  unfold solve_all at h
  unfold solve_once
  cases hb : build input with
  | none => rw [hb] at h; exact absurd h (by simp)
  | some p =>
    rw [hb] at h
    obtain ⟨s, root⟩ := p
    simp only [] at h ⊢
    cases hsa : search_all (bigFuel s) s root [] [] with
    | none => rw [hsa] at h; exact absurd h (by simp)
    | some q =>
      rw [hsa] at h
      obtain ⟨st, results⟩ := q
      have hres : results = res := by
        have := Option.some.inj h
        simpa using this
      subst hres
      rcases (search_lockstep (bigFuel s)).1 s root [] st results hsa with
        ⟨hnil, honce⟩ | ⟨r, rs, s'', hcons, honce⟩
      · subst hnil
        rw [honce]
        rfl
      · subst hcons
        rw [honce]
        rfl

/-- Witness for C5 at the trivial instance `[[true]]`. -/
theorem c5_witness :
    solve_all [[true]] = some [[0]] ∧
    solve_once [[true]] = some ([[(0 : Int)]].head?) :=
  ⟨by rfl, c5_solve_once_is_head_of_solve_all [[true]] [[0]] (by rfl)⟩

end DLX

namespace DLX

/-! ## Arena basics for the round-trip proof -/

theorem length_modifyN (s : DState) (i : Nat) (f : DNode → DNode) :
    (modifyN s i f).length = s.length := by
  simp [modifyN]

theorem getN_modifyN_same {s : DState} {i : Nat} (h : i < s.length) (f : DNode → DNode) :
    getN (modifyN s i f) i = f (getN s i) := by
  simp [modifyN, getN, List.getD_eq_getElem?_getD, List.getElem?_set, h]

theorem getN_modifyN_other {s : DState} {i j : Nat} (h : i ≠ j) (f : DNode → DNode) :
    getN (modifyN s i f) j = getN s j := by
  simp [modifyN, getN, List.getD_eq_getElem?_getD, List.getElem?_set, h]

theorem modifyN_oob {s : DState} {i : Nat} (h : s.length ≤ i) (f : DNode → DNode) :
    modifyN s i f = s := by
  simp [modifyN, List.set_eq_of_length_le h]

theorem dstate_ext {s t : DState} (hlen : s.length = t.length)
    (h : ∀ v, getN s v = getN t v) : s = t := by
  refine List.ext_getElem hlen ?_
  intro n h1 h2
  have := h n
  rw [getN, getN, List.getD_eq_getElem?_getD, List.getD_eq_getElem?_getD,
    List.getElem?_eq_getElem h1, List.getElem?_eq_getElem h2] at this
  exact this

/-! ## Path lemmas -/

theorem pathF_congr {f : DNode → Nat} {s s' : DState} :
    ∀ {a : Nat} {xs : List Nat} {b : Nat},
      (∀ v, v = a ∨ v ∈ xs → f (getN s' v) = f (getN s v)) →
      pathF f s a xs b → pathF f s' a xs b := by
  intro a xs
  induction xs generalizing a with
  | nil =>
    intro b hv hp
    show f (getN s' a) = b
    rw [hv a (Or.inl rfl)]
    exact hp
  | cons x xs ih =>
    intro b hv hp
    obtain ⟨h1, h2⟩ := hp
    refine ⟨by rw [hv a (Or.inl rfl)]; exact h1, ?_⟩
    refine ih ?_ h2
    intro v hv'
    refine hv v ?_
    rcases hv' with rfl | hm
    · exact Or.inr (List.mem_cons_self v xs)
    · exact Or.inr (List.mem_cons_of_mem x hm)

theorem pathF_append {f : DNode → Nat} {s : DState} :
    ∀ {a : Nat} {xs : List Nat} {y : Nat} {ys : List Nat} {b : Nat},
      pathF f s a (xs ++ y :: ys) b ↔ pathF f s a xs y ∧ pathF f s y ys b := by
  intro a xs
  induction xs generalizing a with
  | nil =>
    intro y ys b
    constructor
    · rintro ⟨h1, h2⟩; exact ⟨h1, h2⟩
    · rintro ⟨h1, h2⟩; exact ⟨h1, h2⟩
  | cons x xs ih =>
    intro y ys b
    constructor
    · rintro ⟨h1, h2⟩
      obtain ⟨h3, h4⟩ := ih.mp h2
      exact ⟨⟨h1, h3⟩, h4⟩
    · rintro ⟨⟨h1, h3⟩, h2⟩
      exact ⟨h1, ih.mpr ⟨h3, h2⟩⟩

theorem pathF_getLast {f : DNode → Nat} {s : DState} {a : Nat} {xs : List Nat} {b : Nat}
    (h : pathF f s a xs b) : f (getN s (xs.getLastD a)) = b := by
  induction xs generalizing a with
  | nil => exact h
  | cons x xs ih =>
    obtain ⟨h1, h2⟩ := h
    have := ih h2
    cases xs with
    | nil => simpa using this
    | cons z zs => simpa using this

theorem pathF_head {f : DNode → Nat} {s : DState} {a : Nat} {xs : List Nat} {b : Nat}
    (h : pathF f s a xs b) : f (getN s a) = xs.headD b := by
  cases xs with
  | nil => exact h
  | cons x xs => exact h.1

theorem headD_reverse {l : List Nat} {d : Nat} : l.reverse.headD d = l.getLastD d := by
  cases h : l.reverse with
  | nil =>
    have : l = [] := by simpa using congrArg List.reverse h
    simp [this]
  | cons x xs =>
    have : l = (x :: xs).reverse := by
      have := congrArg List.reverse h
      simpa using this
    subst this
    simp [List.getLastD_concat]

theorem getLastD_reverse {l : List Nat} {d : Nat} : l.reverse.getLastD d = l.headD d := by
  have := headD_reverse (l := l.reverse) (d := d)
  rw [List.reverse_reverse] at this
  exact this.symm

end DLX

namespace DLX

/-! ## Neighbour facts and primitive frame/cancellation lemmas -/

theorem chain_neighbors {s : DState} {h : Nat} {A B : List Nat} {m : Nat}
    (hd : pathF (fun n => n.d) s h (A ++ m :: B) h)
    (hu : pathF (fun n => n.u) s h (A ++ m :: B).reverse h) :
    (getN s m).d = B.headD h ∧ (getN s m).u = A.getLastD h ∧
    (getN s (A.getLastD h)).d = m ∧ (getN s (B.headD h)).u = m := by
  obtain ⟨hdA, hdB⟩ := pathF_append.mp hd
  have hrev : (A ++ m :: B).reverse = B.reverse ++ m :: A.reverse := by simp
  rw [hrev] at hu
  obtain ⟨huB, huA⟩ := pathF_append.mp hu
  refine ⟨?_, ?_, ?_, ?_⟩
  · exact pathF_head hdB
  · have h1 : (getN s m).u = A.reverse.headD h := pathF_head huA
    rwa [headD_reverse] at h1
  · exact pathF_getLast hdA
  · have h1 : (getN s (B.reverse.getLastD h)).u = m := pathF_getLast huB
    rwa [getLastD_reverse] at h1

theorem getN_modifyN (s : DState) (i v : Nat) (f : DNode → DNode) :
    getN (modifyN s i f) v = if v = i ∧ i < s.length then f (getN s i) else getN s v := by
  by_cases h1 : v = i
  · subst h1
    by_cases h2 : v < s.length
    · rw [getN_modifyN_same h2]; simp [h2]
    · rw [modifyN_oob (by omega)]; simp [h2]
  · rw [getN_modifyN_other (fun h => h1 h.symm)]; simp [h1]

theorem proj_modifyN_invariant {α : Type} {p : DNode → α} {f : DNode → DNode}
    (hf : ∀ n, p (f n) = p n) (s : DState) (i v : Nat) :
    p (getN (modifyN s i f) v) = p (getN s v) := by
  rw [getN_modifyN]
  split
  · rename_i h
    rw [hf, h.1]
  · rfl

theorem proj_modifyN_other {α : Type} (p : DNode → α) (s : DState) (i v : Nat)
    (f : DNode → DNode) (h : v ≠ i) : p (getN (modifyN s i f) v) = p (getN s v) := by
  rw [getN_modifyN_other (fun hh => h hh.symm)]

theorem proj_two_modify {α : Type} (p : DNode → α) (s : DState) (i1 i2 v : Nat)
    (f1 f2 : DNode → DNode)
    (h1 : v ≠ i1 ∨ ∀ n, p (f1 n) = p n) (h2 : v ≠ i2 ∨ ∀ n, p (f2 n) = p n) :
    p (getN (modifyN (modifyN s i1 f1) i2 f2) v) = p (getN s v) := by
  have step2 : p (getN (modifyN (modifyN s i1 f1) i2 f2) v) = p (getN (modifyN s i1 f1) v) := by
    rcases h2 with h | h
    · exact proj_modifyN_other p _ _ _ _ h
    · exact proj_modifyN_invariant h _ _ _
  have step1 : p (getN (modifyN s i1 f1) v) = p (getN s v) := by
    rcases h1 with h | h
    · exact proj_modifyN_other p _ _ _ _ h
    · exact proj_modifyN_invariant h _ _ _
  rw [step2, step1]

theorem unlink_ud_eq (s : DState) (m : Nat) :
    unlink_ud s m =
      modifyN (modifyN s ((getN s m).u) fun n => { n with d := (getN s m).d })
        ((getN s m).d) fun n => { n with u := (getN s m).u } := rfl

theorem link_ud_eq (s : DState) (m : Nat) :
    link_ud s m =
      modifyN (modifyN s ((getN s m).u) fun n => { n with d := m })
        ((getN s m).d) fun n => { n with u := m } := rfl

theorem unlink_lr_eq (s : DState) (m : Nat) :
    unlink_lr s m =
      modifyN (modifyN s ((getN s m).l) fun n => { n with r := (getN s m).r })
        ((getN s m).r) fun n => { n with l := (getN s m).l } := rfl

theorem link_lr_eq (s : DState) (m : Nat) :
    link_lr s m =
      modifyN (modifyN s ((getN s m).l) fun n => { n with r := m })
        ((getN s m).r) fun n => { n with l := m } := rfl

/-- `unlink_ud` leaves every `r`, `l`, `c` and `data` field unchanged, every
`d` field except its up-neighbour's, and every `u` field except its
down-neighbour's. -/
theorem unlink_ud_frame (s : DState) (m v : Nat) :
    (getN (unlink_ud s m) v).r = (getN s v).r ∧
    (getN (unlink_ud s m) v).l = (getN s v).l ∧
    (getN (unlink_ud s m) v).c = (getN s v).c ∧
    (getN (unlink_ud s m) v).data = (getN s v).data ∧
    (v ≠ (getN s m).u → (getN (unlink_ud s m) v).d = (getN s v).d) ∧
    (v ≠ (getN s m).d → (getN (unlink_ud s m) v).u = (getN s v).u) := by
  rw [unlink_ud_eq]
  refine ⟨proj_two_modify (fun n => n.r) _ _ _ _ _ _ (Or.inr fun n => rfl) (Or.inr fun n => rfl),
    proj_two_modify (fun n => n.l) _ _ _ _ _ _ (Or.inr fun n => rfl) (Or.inr fun n => rfl),
    proj_two_modify (fun n => n.c) _ _ _ _ _ _ (Or.inr fun n => rfl) (Or.inr fun n => rfl),
    proj_two_modify (fun n => n.data) _ _ _ _ _ _ (Or.inr fun n => rfl) (Or.inr fun n => rfl),
    fun hv => proj_two_modify (fun n => n.d) _ _ _ _ _ _ (Or.inl hv) (Or.inr fun n => rfl),
    fun hv => proj_two_modify (fun n => n.u) _ _ _ _ _ _ (Or.inr fun n => rfl) (Or.inl hv)⟩

/-- `link_ud`'s frame: same shape as `unlink_ud`'s. -/
theorem link_ud_frame (s : DState) (m v : Nat) :
    (getN (link_ud s m) v).r = (getN s v).r ∧
    (getN (link_ud s m) v).l = (getN s v).l ∧
    (getN (link_ud s m) v).c = (getN s v).c ∧
    (getN (link_ud s m) v).data = (getN s v).data ∧
    (v ≠ (getN s m).u → (getN (link_ud s m) v).d = (getN s v).d) ∧
    (v ≠ (getN s m).d → (getN (link_ud s m) v).u = (getN s v).u) := by
  rw [link_ud_eq]
  refine ⟨proj_two_modify (fun n => n.r) _ _ _ _ _ _ (Or.inr fun n => rfl) (Or.inr fun n => rfl),
    proj_two_modify (fun n => n.l) _ _ _ _ _ _ (Or.inr fun n => rfl) (Or.inr fun n => rfl),
    proj_two_modify (fun n => n.c) _ _ _ _ _ _ (Or.inr fun n => rfl) (Or.inr fun n => rfl),
    proj_two_modify (fun n => n.data) _ _ _ _ _ _ (Or.inr fun n => rfl) (Or.inr fun n => rfl),
    fun hv => proj_two_modify (fun n => n.d) _ _ _ _ _ _ (Or.inl hv) (Or.inr fun n => rfl),
    fun hv => proj_two_modify (fun n => n.u) _ _ _ _ _ _ (Or.inr fun n => rfl) (Or.inl hv)⟩

/-- `unlink_lr`'s frame: vertical links, column pointer and payload are
untouched; `r` changes only at the left neighbour, `l` only at the right. -/
theorem unlink_lr_frame (s : DState) (m v : Nat) :
    (getN (unlink_lr s m) v).u = (getN s v).u ∧
    (getN (unlink_lr s m) v).d = (getN s v).d ∧
    (getN (unlink_lr s m) v).c = (getN s v).c ∧
    (getN (unlink_lr s m) v).data = (getN s v).data ∧
    (v ≠ (getN s m).l → (getN (unlink_lr s m) v).r = (getN s v).r) ∧
    (v ≠ (getN s m).r → (getN (unlink_lr s m) v).l = (getN s v).l) := by
  rw [unlink_lr_eq]
  refine ⟨proj_two_modify (fun n => n.u) _ _ _ _ _ _ (Or.inr fun n => rfl) (Or.inr fun n => rfl),
    proj_two_modify (fun n => n.d) _ _ _ _ _ _ (Or.inr fun n => rfl) (Or.inr fun n => rfl),
    proj_two_modify (fun n => n.c) _ _ _ _ _ _ (Or.inr fun n => rfl) (Or.inr fun n => rfl),
    proj_two_modify (fun n => n.data) _ _ _ _ _ _ (Or.inr fun n => rfl) (Or.inr fun n => rfl),
    fun hv => proj_two_modify (fun n => n.r) _ _ _ _ _ _ (Or.inl hv) (Or.inr fun n => rfl),
    fun hv => proj_two_modify (fun n => n.l) _ _ _ _ _ _ (Or.inr fun n => rfl) (Or.inl hv)⟩

/-- `link_lr`'s frame. -/
theorem link_lr_frame (s : DState) (m v : Nat) :
    (getN (link_lr s m) v).u = (getN s v).u ∧
    (getN (link_lr s m) v).d = (getN s v).d ∧
    (getN (link_lr s m) v).c = (getN s v).c ∧
    (getN (link_lr s m) v).data = (getN s v).data ∧
    (v ≠ (getN s m).l → (getN (link_lr s m) v).r = (getN s v).r) ∧
    (v ≠ (getN s m).r → (getN (link_lr s m) v).l = (getN s v).l) := by
  rw [link_lr_eq]
  refine ⟨proj_two_modify (fun n => n.u) _ _ _ _ _ _ (Or.inr fun n => rfl) (Or.inr fun n => rfl),
    proj_two_modify (fun n => n.d) _ _ _ _ _ _ (Or.inr fun n => rfl) (Or.inr fun n => rfl),
    proj_two_modify (fun n => n.c) _ _ _ _ _ _ (Or.inr fun n => rfl) (Or.inr fun n => rfl),
    proj_two_modify (fun n => n.data) _ _ _ _ _ _ (Or.inr fun n => rfl) (Or.inr fun n => rfl),
    fun hv => proj_two_modify (fun n => n.r) _ _ _ _ _ _ (Or.inl hv) (Or.inr fun n => rfl),
    fun hv => proj_two_modify (fun n => n.l) _ _ _ _ _ _ (Or.inr fun n => rfl) (Or.inl hv)⟩

end DLX

namespace DLX

/-! ## `modifyN` algebra -/

theorem dnode_ext {a b : DNode} (hu : a.u = b.u) (hd : a.d = b.d) (hl : a.l = b.l)
    (hr : a.r = b.r) (hc : a.c = b.c) (hdata : a.data = b.data) : a = b := by
  cases a; cases b
  simp_all

theorem length_unlink_ud (s : DState) (m : Nat) : (unlink_ud s m).length = s.length := by
  rw [unlink_ud_eq]; simp [length_modifyN]

theorem length_link_ud (s : DState) (m : Nat) : (link_ud s m).length = s.length := by
  rw [link_ud_eq]; simp [length_modifyN]

theorem length_unlink_lr (s : DState) (m : Nat) : (unlink_lr s m).length = s.length := by
  rw [unlink_lr_eq]; simp [length_modifyN]

theorem length_link_lr (s : DState) (m : Nat) : (link_lr s m).length = s.length := by
  rw [link_lr_eq]; simp [length_modifyN]

theorem modifyN_modifyN_same (s : DState) (i : Nat) (f g : DNode → DNode) :
    modifyN (modifyN s i f) i g = modifyN s i fun n => g (f n) := by
  apply dstate_ext (by simp [length_modifyN])
  intro v
  simp only [getN_modifyN, length_modifyN]
  by_cases hvi : v = i <;> by_cases hlen : i < s.length <;> simp [hvi, hlen]

theorem modifyN_comm (s : DState) (i j : Nat) (f g : DNode → DNode)
    (h : i ≠ j ∨ ∀ n, g (f n) = f (g n)) :
    modifyN (modifyN s i f) j g = modifyN (modifyN s j g) i f := by
  rcases h with hne | hcomm
  · apply dstate_ext (by simp [length_modifyN])
    intro v
    simp only [getN_modifyN, length_modifyN]
    by_cases hvi : v = i <;> by_cases hvj : v = j <;>
      simp [hvi, hvj, hne, hne.symm]
  · by_cases hij : i = j
    · subst hij
      rw [modifyN_modifyN_same, modifyN_modifyN_same]
      have : (fun n => g (f n)) = fun n => f (g n) := funext hcomm
      rw [this]
    · apply dstate_ext (by simp [length_modifyN])
      intro v
      simp only [getN_modifyN, length_modifyN]
      by_cases hvi : v = i <;> by_cases hvj : v = j <;>
        simp [hvi, hvj, hij] <;> simp_all

theorem modifyN_eq_self {s : DState} {i : Nat} {f : DNode → DNode}
    (h : f (getN s i) = getN s i) : modifyN s i f = s := by
  apply dstate_ext (by simp [length_modifyN])
  intro v
  rw [getN_modifyN]
  split
  · rename_i hcond
    rw [h, hcond.1]
  · rfl

/-! ## Shape and frame lemmas for the loop-body steps -/

theorem coverStep_eq (t : DState) (m : Nat) :
    coverStep t m =
      modifyN (modifyN (modifyN t ((getN t m).u) fun n => { n with d := (getN t m).d })
          ((getN t m).d) fun n => { n with u := (getN t m).u })
        ((getN t m).c) fun n => { n with data := n.data - 1 } := by
  show modifyN (unlink_ud t m) ((getN (unlink_ud t m) m).c)
      (fun n => { n with data := n.data - 1 }) = _
  rw [(unlink_ud_frame t m m).2.2.1, unlink_ud_eq]

theorem uncoverStep_eq (t : DState) (m : Nat) :
    uncoverStep t m =
      modifyN (modifyN (modifyN t ((getN t m).u) fun n => { n with d := m })
          ((getN t m).d) fun n => { n with u := m })
        ((getN t m).c) fun n => { n with data := n.data + 1 } := by
  show modifyN (link_ud t m) ((getN (link_ud t m) m).c)
      (fun n => { n with data := n.data + 1 }) = _
  rw [(link_ud_frame t m m).2.2.1, link_ud_eq]

theorem length_coverStep (t : DState) (m : Nat) : (coverStep t m).length = t.length := by
  rw [coverStep_eq]; simp [length_modifyN]

theorem length_uncoverStep (t : DState) (m : Nat) : (uncoverStep t m).length = t.length := by
  rw [uncoverStep_eq]; simp [length_modifyN]

theorem proj_three_modify {α : Type} (p : DNode → α) (s : DState) (i1 i2 i3 v : Nat)
    (f1 f2 f3 : DNode → DNode)
    (h1 : v ≠ i1 ∨ ∀ n, p (f1 n) = p n) (h2 : v ≠ i2 ∨ ∀ n, p (f2 n) = p n)
    (h3 : v ≠ i3 ∨ ∀ n, p (f3 n) = p n) :
    p (getN (modifyN (modifyN (modifyN s i1 f1) i2 f2) i3 f3) v) = p (getN s v) := by
  have step3 : p (getN (modifyN (modifyN (modifyN s i1 f1) i2 f2) i3 f3) v) =
      p (getN (modifyN (modifyN s i1 f1) i2 f2) v) := by
    rcases h3 with h | h
    · exact proj_modifyN_other p _ _ _ _ h
    · exact proj_modifyN_invariant h _ _ _
  rw [step3]
  exact proj_two_modify p _ _ _ _ _ _ h1 h2

/-- `coverStep` never touches `r`, `l` or `c` fields. -/
theorem coverStep_frame (t : DState) (m v : Nat) :
    (getN (coverStep t m) v).r = (getN t v).r ∧
    (getN (coverStep t m) v).l = (getN t v).l ∧
    (getN (coverStep t m) v).c = (getN t v).c := by
  rw [coverStep_eq]
  exact ⟨proj_three_modify (fun n => n.r) _ _ _ _ _ _ _ _ (Or.inr fun n => rfl)
      (Or.inr fun n => rfl) (Or.inr fun n => rfl),
    proj_three_modify (fun n => n.l) _ _ _ _ _ _ _ _ (Or.inr fun n => rfl)
      (Or.inr fun n => rfl) (Or.inr fun n => rfl),
    proj_three_modify (fun n => n.c) _ _ _ _ _ _ _ _ (Or.inr fun n => rfl)
      (Or.inr fun n => rfl) (Or.inr fun n => rfl)⟩

/-- `uncoverStep` never touches `r`, `l` or `c` fields. -/
theorem uncoverStep_frame (t : DState) (m v : Nat) :
    (getN (uncoverStep t m) v).r = (getN t v).r ∧
    (getN (uncoverStep t m) v).l = (getN t v).l ∧
    (getN (uncoverStep t m) v).c = (getN t v).c := by
  rw [uncoverStep_eq]
  exact ⟨proj_three_modify (fun n => n.r) _ _ _ _ _ _ _ _ (Or.inr fun n => rfl)
      (Or.inr fun n => rfl) (Or.inr fun n => rfl),
    proj_three_modify (fun n => n.l) _ _ _ _ _ _ _ _ (Or.inr fun n => rfl)
      (Or.inr fun n => rfl) (Or.inr fun n => rfl),
    proj_three_modify (fun n => n.c) _ _ _ _ _ _ _ _ (Or.inr fun n => rfl)
      (Or.inr fun n => rfl) (Or.inr fun n => rfl)⟩

end DLX

namespace DLX

/-- Projections of `m`'s own node after `coverStep t m`: its vertical links
survive because the splice writes only to its two neighbours. -/
theorem coverStep_self_u (t : DState) (m : Nat) (hD : (getN t m).d ≠ m) :
    (getN (coverStep t m) m).u = (getN t m).u := by
  rw [coverStep_eq]
  exact proj_three_modify (fun n => n.u) _ _ _ _ _ _ _ _ (Or.inr fun n => rfl)
    (Or.inl fun h => hD h.symm) (Or.inr fun n => rfl)

theorem coverStep_self_d (t : DState) (m : Nat) (hU : (getN t m).u ≠ m) :
    (getN (coverStep t m) m).d = (getN t m).d := by
  rw [coverStep_eq]
  exact proj_three_modify (fun n => n.d) _ _ _ _ _ _ _ _ (Or.inl fun h => hU h.symm)
    (Or.inr fun n => rfl) (Or.inr fun n => rfl)

/-- The splice `coverStep t m` is undone by `uncoverStep _ m` whenever `m`'s
vertical neighbours in `t` are consistent (they point back at `m`) and `m` is
not its own neighbour. -/
theorem uncoverStep_coverStep_cancel {t : DState} {m : Nat}
    (hU : (getN t m).u ≠ m) (hD : (getN t m).d ≠ m)
    (hUd : (getN t ((getN t m).u)).d = m) (hDu : (getN t ((getN t m).d)).u = m) :
    uncoverStep (coverStep t m) m = t := by
  have hXu : (getN (coverStep t m) m).u = (getN t m).u := coverStep_self_u t m hD
  have hXd : (getN (coverStep t m) m).d = (getN t m).d := coverStep_self_d t m hU
  have hXc : (getN (coverStep t m) m).c = (getN t m).c := (coverStep_frame t m m).2.2
  rw [uncoverStep_eq, hXu, hXd, hXc, coverStep_eq]
  set yU := (getN t m).u with hyU
  set yD := (getN t m).d with hyD
  set yH := (getN t m).c with hyH
  rw [modifyN_comm (modifyN (modifyN t yU fun n => { n with d := yD })
      yD fun n => { n with u := yU }) yH yU
      (fun n => { n with data := n.data - 1 }) (fun n => { n with d := m })
      (Or.inr fun n => rfl)]
  rw [modifyN_comm (modifyN (modifyN (modifyN t yU fun n => { n with d := yD })
      yD fun n => { n with u := yU }) yU fun n => { n with d := m }) yH yD
      (fun n => { n with data := n.data - 1 }) (fun n => { n with u := m })
      (Or.inr fun n => rfl)]
  rw [modifyN_modifyN_same]
  rw [modifyN_eq_self (by simp)]
  by_cases hUD : yU = yD
  · rw [← hUD]
    rw [modifyN_modifyN_same, modifyN_modifyN_same, modifyN_modifyN_same]
    apply modifyN_eq_self
    rcases hg : getN t yU with ⟨a1, a2, a3, a4, a5, a6⟩
    have h1 : a2 = m := by have := hUd; rw [hg] at this; exact this
    have h2 : a1 = m := by have := hDu; rw [← hUD, hg] at this; exact this
    simp [h1, h2]
  · rw [modifyN_comm (modifyN t yU fun n => { n with d := yD }) yD yU
      (fun n => { n with u := yU }) (fun n => { n with d := m })
      (Or.inl fun h => hUD h.symm)]
    have hinner : modifyN (modifyN t yU fun n => { n with d := yD }) yU
        (fun n => { n with d := m }) = t := by
      rw [modifyN_modifyN_same]
      apply modifyN_eq_self
      rcases hg : getN t yU with ⟨a1, a2, a3, a4, a5, a6⟩
      have h1 : a2 = m := by have := hUd; rw [hg] at this; exact this
      simp [h1]
    rw [hinner, modifyN_modifyN_same]
    apply modifyN_eq_self
    rcases hg : getN t yD with ⟨a1, a2, a3, a4, a5, a6⟩
    have h2 : a1 = m := by have := hDu; rw [hg] at this; exact this
    simp [h2]

end DLX

namespace DLX

/-- Splicing a header out of the horizontal ring and splicing it back is the
identity when its ring neighbours point back at it. -/
theorem link_lr_unlink_lr_cancel {s : DState} {c : Nat}
    (hcL : c ≠ (getN s c).l) (hcR : c ≠ (getN s c).r)
    (hLr : (getN s ((getN s c).l)).r = c) (hRl : (getN s ((getN s c).r)).l = c) :
    link_lr (unlink_lr s c) c = s := by
  have hXl : (getN (unlink_lr s c) c).l = (getN s c).l :=
    (unlink_lr_frame s c c).2.2.2.2.2 hcR
  have hXr : (getN (unlink_lr s c) c).r = (getN s c).r :=
    (unlink_lr_frame s c c).2.2.2.2.1 hcL
  rw [link_lr_eq, hXl, hXr, unlink_lr_eq]
  set yL := (getN s c).l with hyL
  set yR := (getN s c).r with hyR
  by_cases hLR : yL = yR
  · rw [← hLR]
    rw [modifyN_modifyN_same, modifyN_modifyN_same, modifyN_modifyN_same]
    apply modifyN_eq_self
    rcases hg : getN s yL with ⟨a1, a2, a3, a4, a5, a6⟩
    have h1 : a4 = c := by have := hLr; rw [hg] at this; exact this
    have h2 : a3 = c := by have := hRl; rw [← hLR, hg] at this; exact this
    simp [h1, h2]
  · rw [modifyN_comm (modifyN s yL fun n => { n with r := yR }) yR yL
      (fun n => { n with l := yL }) (fun n => { n with r := c })
      (Or.inl fun h => hLR h.symm)]
    have hinner : modifyN (modifyN s yL fun n => { n with r := yR }) yL
        (fun n => { n with r := c }) = s := by
      rw [modifyN_modifyN_same]
      apply modifyN_eq_self
      rcases hg : getN s yL with ⟨a1, a2, a3, a4, a5, a6⟩
      have h1 : a4 = c := by have := hLr; rw [hg] at this; exact this
      simp [h1]
    rw [hinner, modifyN_modifyN_same]
    apply modifyN_eq_self
    rcases hg : getN s yR with ⟨a1, a2, a3, a4, a5, a6⟩
    have h2 : a3 = c := by have := hRl; rw [hg] at this; exact this
    simp [h2]

/-- Reorder five arena writes when the two groups write disjoint fields. -/
theorem five_write_swap (t : DState) (L R U D H : Nat) (fL fR fU fD fH : DNode → DNode)
    (hLU : ∀ n, fU (fL n) = fL (fU n)) (hLD : ∀ n, fD (fL n) = fL (fD n))
    (hLH : ∀ n, fH (fL n) = fL (fH n)) (hRU : ∀ n, fU (fR n) = fR (fU n))
    (hRD : ∀ n, fD (fR n) = fR (fD n)) (hRH : ∀ n, fH (fR n) = fR (fH n)) :
    modifyN (modifyN (modifyN (modifyN (modifyN t L fL) R fR) U fU) D fD) H fH =
    modifyN (modifyN (modifyN (modifyN (modifyN t U fU) D fD) H fH) L fL) R fR := by
  rw [modifyN_comm (modifyN t L fL) R U fR fU (Or.inr hRU)]
  rw [modifyN_comm t L U fL fU (Or.inr hLU)]
  rw [modifyN_comm (modifyN (modifyN t U fU) L fL) R D fR fD (Or.inr hRD)]
  rw [modifyN_comm (modifyN t U fU) L D fL fD (Or.inr hLD)]
  rw [modifyN_comm (modifyN (modifyN (modifyN t U fU) D fD) L fL) R H fR fH (Or.inr hRH)]
  rw [modifyN_comm (modifyN (modifyN t U fU) D fD) L H fL fH (Or.inr hLH)]

/-- An `uncoverStep` (vertical relink plus payload bump) commutes with the
horizontal relink of a header: the two touch disjoint fields. -/
theorem uncoverStep_link_lr_comm (t : DState) (c m : Nat) :
    uncoverStep (link_lr t c) m = link_lr (uncoverStep t m) c := by
  have h1 : (getN (link_lr t c) m).u = (getN t m).u := (link_lr_frame t c m).1
  have h2 : (getN (link_lr t c) m).d = (getN t m).d := (link_lr_frame t c m).2.1
  have h3 : (getN (link_lr t c) m).c = (getN t m).c := (link_lr_frame t c m).2.2.1
  have h4 : (getN (uncoverStep t m) c).l = (getN t c).l := (uncoverStep_frame t m c).2.1
  have h5 : (getN (uncoverStep t m) c).r = (getN t c).r := (uncoverStep_frame t m c).1
  rw [uncoverStep_eq, h1, h2, h3, link_lr_eq (uncoverStep t m) c, h4, h5,
    link_lr_eq t c, uncoverStep_eq t m]
  exact five_write_swap t ((getN t c).l) ((getN t c).r) ((getN t m).u) ((getN t m).d)
    ((getN t m).c) _ _ _ _ _ (fun n => rfl) (fun n => rfl) (fun n => rfl) (fun n => rfl)
    (fun n => rfl) (fun n => rfl)

/-- Pull the header relink out of a whole fold of `uncoverStep`s. -/
theorem foldl_uncoverStep_link_lr (L : List Nat) (t : DState) (c : Nat) :
    List.foldl uncoverStep (link_lr t c) L = link_lr (List.foldl uncoverStep t L) c := by
  induction L generalizing t with
  | nil => rfl
  | cons m L ih =>
    show List.foldl uncoverStep (uncoverStep (link_lr t c) m) L = _
    rw [uncoverStep_link_lr_comm, ih]
    rfl

end DLX

namespace DLX

/-! ## Ring rotation and splice utilities -/

theorem getLastD_mem_or (l : List Nat) (d : Nat) : l.getLastD d ∈ l ∨ l.getLastD d = d := by
  induction l generalizing d with
  | nil => exact Or.inr rfl
  | cons x xs ih =>
    rw [List.getLastD_cons]
    rcases ih x with h | h
    · exact Or.inl (List.mem_cons_of_mem x h)
    · exact Or.inl (by rw [h]; exact List.mem_cons_self x xs)

theorem headD_mem_or (l : List Nat) (d : Nat) : l.headD d ∈ l ∨ l.headD d = d := by
  cases l with
  | nil => exact Or.inr rfl
  | cons x xs => exact Or.inl (by simp)

theorem dropWhile_ne_append {A B : List Nat} {n : Nat} (hA : n ∉ A) :
    ((A ++ n :: B).dropWhile fun x => x != n) = n :: B := by
  induction A with
  | nil => simp [List.dropWhile_cons]
  | cons a A ih =>
    have ha : a ≠ n := fun h => hA (h ▸ List.mem_cons_self a A)
    have hA' : n ∉ A := fun h => hA (List.mem_cons_of_mem a h)
    simp only [List.cons_append, List.dropWhile_cons]
    simp [ha, ih hA']

theorem takeWhile_ne_append {A B : List Nat} {n : Nat} (hA : n ∉ A) :
    ((A ++ n :: B).takeWhile fun x => x != n) = A := by
  induction A with
  | nil => simp [List.takeWhile_cons]
  | cons a A ih =>
    have ha : a ≠ n := fun h => hA (h ▸ List.mem_cons_self a A)
    have hA' : n ∉ A := fun h => hA (List.mem_cons_of_mem a h)
    simp only [List.cons_append, List.takeWhile_cons]
    simp [ha, ih hA']

/-- On a ring list split around `n`, `rotAfter` gives the other members in
ring order starting after `n`. -/
theorem rotAfter_eq {A B : List Nat} {n : Nat} (hA : n ∉ A) :
    rotAfter (A ++ n :: B) n = B ++ A := by
  rw [rotAfter, dropWhile_ne_append hA, takeWhile_ne_append hA]
  rfl

/-- Rotating the starting point of a closed `pathF` ring. -/
theorem pathF_rotate {f : DNode → Nat} {s : DState} {A B : List Nat} {n : Nat}
    (h : pathF f s ((A ++ n :: B).headD 0) (A ++ n :: B).tail ((A ++ n :: B).headD 0)) :
    pathF f s n (B ++ A) n := by
  cases A with
  | nil =>
    simp only [List.nil_append, List.headD_cons, List.tail_cons] at h
    simpa using h
  | cons a A =>
    simp only [List.cons_append, List.headD_cons, List.tail_cons] at h
    obtain ⟨h1, h2⟩ := pathF_append.mp h
    exact pathF_append.mpr ⟨h2, h1⟩

/-- The reverse-direction ring rotated to start at `n`. -/
theorem pathF_rotate_rev {f : DNode → Nat} {s : DState} {A B : List Nat} {n : Nat}
    (h : pathF f s ((A ++ n :: B).headD 0) (A ++ n :: B).tail.reverse ((A ++ n :: B).headD 0)) :
    pathF f s n (B ++ A).reverse n := by
  cases A with
  | nil =>
    simp only [List.nil_append, List.headD_cons, List.tail_cons] at h
    simpa using h
  | cons a A =>
    simp only [List.cons_append, List.headD_cons, List.tail_cons] at h
    have hrw : (A ++ n :: B).reverse = B.reverse ++ n :: A.reverse := by simp
    rw [hrw] at h
    obtain ⟨h1, h2⟩ := pathF_append.mp h
    rw [show (B ++ a :: A).reverse = A.reverse ++ a :: B.reverse by simp]
    exact pathF_append.mpr ⟨h2, h1⟩

/-- Splice surgery on a linked chain: replacing the link out of `A`'s last
node by `B`'s head (skipping `m`) joins the two chain segments. -/
theorem pathF_surgery {f : DNode → Nat} {t t' : DState} {m b : Nat} :
    ∀ {a : Nat} {A B : List Nat},
      pathF f t a A m → pathF f t m B b →
      (∀ v, (v = a ∨ v ∈ A ++ B) → v ≠ A.getLastD a → f (getN t' v) = f (getN t v)) →
      f (getN t' (A.getLastD a)) = B.headD b →
      a ∉ A → A.Nodup → (∀ x ∈ B, x ≠ A.getLastD a) →
      pathF f t' a (A ++ B) b := by
  intro a A
  induction A generalizing a with
  | nil =>
    intro B hA hB hagree hnew haA hnd hBq
    simp only [List.getLastD_nil] at hagree hnew hBq
    cases B with
    | nil => exact hnew
    | cons x B =>
      refine ⟨hnew, ?_⟩
      refine pathF_congr ?_ hB.2
      intro v hv
      refine hagree v (Or.inr ?_) (hBq v ?_)
      · rcases hv with rfl | hm
        · simp
        · simp [hm]
      · rcases hv with rfl | hm
        · simp
        · simp [hm]
  | cons x A ih =>
    intro B hA hB hagree hnew haA hnd hBq
    have hq : (x :: A).getLastD a = A.getLastD x := by
      rw [List.getLastD_cons]
    have hqmem : A.getLastD x ∈ x :: A := by
      rcases getLastD_mem_or A x with h | h
      · exact List.mem_cons_of_mem x h
      · rw [h]; exact List.mem_cons_self x A
    refine ⟨?_, ?_⟩
    · have := hagree a (Or.inl rfl) (fun h => haA (by rw [h, hq]; exact hqmem))
      rw [this]
      exact hA.1
    · rw [hq] at hagree hnew hBq
      refine ih hA.2 hB ?_ hnew ?_ hnd.of_cons hBq
      · intro v hv hvq
        refine hagree v (Or.inr ?_) hvq
        rcases hv with rfl | hm
        · exact List.mem_cons_self v (A ++ B)
        · rcases List.mem_append.mp hm with h | h
          · exact List.mem_cons_of_mem x (List.mem_append.mpr (Or.inl h))
          · exact List.mem_cons_of_mem x (List.mem_append.mpr (Or.inr h))
      · exact fun h => (List.nodup_cons.mp hnd).1 h

end DLX

namespace DLX

theorem rowOf_mem {G : Ghost} {n : Nat} (h : n ∈ G.rows.flatten) :
    rowOf G n ∈ G.rows ∧ n ∈ rowOf G n := by
  obtain ⟨rs, hrs, hn⟩ := List.mem_flatten.mp h
  cases hfind : G.rows.find? fun rs => rs.contains n with
  | none =>
    exfalso
    have hsome : (G.rows.find? fun rs => rs.contains n).isSome := by
      rw [List.find?_isSome]
      exact ⟨rs, hrs, by simpa using hn⟩
    rw [hfind] at hsome
    simp at hsome
  | some rs' =>
    have h1 := List.find?_some hfind
    have h2 := List.mem_of_find?_eq_some hfind
    simp only [rowOf, hfind, Option.getD_some]
    exact ⟨h2, by simpa using h1⟩

theorem filter_dead_snoc (l dead D : List Nat) (m : Nat) :
    (l.filter fun x => !((dead ++ (D ++ [m])).contains x)) =
    ((l.filter fun x => !((dead ++ D).contains x)).filter fun x => x != m) := by
  rw [List.filter_filter]
  apply List.filter_congr
  intro x hx
  by_cases h1 : x ∈ dead <;> by_cases h2 : x ∈ D <;> by_cases h3 : x = m <;>
    simp [h1, h2, h3]

theorem filter_ne_self {A : List Nat} {m : Nat} (h : m ∉ A) :
    A.filter (fun x => x != m) = A := by
  rw [List.filter_eq_self]
  intro a ha
  simp only [bne_iff_ne, ne_eq, decide_eq_true_eq]
  exact fun hh => h (hh ▸ ha)

theorem getD_mem_of_lt {L : List (List Nat)} {j : Nat} (hj : j < L.length) :
    L.getD j [] ∈ L := by
  rw [List.getD_eq_getElem?_getD, List.getElem?_eq_getElem hj]
  exact List.getElem_mem hj

theorem col_nodup {L : List (List Nat)} (h : L.flatten.Nodup) {j : Nat}
    (hj : j < L.length) : (L.getD j []).Nodup :=
  (List.nodup_flatten.mp h).1 _ (getD_mem_of_lt hj)

theorem mem_flatten_of_col {L : List (List Nat)} {j x : Nat} (hj : j < L.length)
    (hx : x ∈ L.getD j []) : x ∈ L.flatten :=
  List.mem_flatten.mpr ⟨L.getD j [], getD_mem_of_lt hj, hx⟩

theorem cols_disjoint {L : List (List Nat)} (h : L.flatten.Nodup) {i j : Nat}
    (hij : i ≠ j) (hi : i < L.length) (hj : j < L.length) :
    ∀ x ∈ L.getD i [], x ∉ L.getD j [] := by
  have hp := (List.nodup_flatten.mp h).2
  have hgi : L.getD i [] = L[i] := by
    rw [List.getD_eq_getElem?_getD, List.getElem?_eq_getElem hi]; rfl
  have hgj : L.getD j [] = L[j] := by
    rw [List.getD_eq_getElem?_getD, List.getElem?_eq_getElem hj]; rfl
  rw [hgi, hgj]
  rcases Nat.lt_or_ge i j with hlt | hge
  · exact List.pairwise_iff_getElem.mp hp i j hi hj hlt
  · have hlt : j < i := Nat.lt_of_le_of_ne hge (fun hh => hij hh.symm)
    exact (List.pairwise_iff_getElem.mp hp j i hj hi hlt).symm

theorem nodup_length_le {l : List Nat} (h : l.Nodup) {n : Nat} (hb : ∀ x ∈ l, x < n) :
    l.length ≤ n := by
  have h1 : l.toFinset ⊆ Finset.range n :=
    fun x hx => Finset.mem_range.mpr (hb x (List.mem_toFinset.mp hx))
  have h2 := Finset.card_le_card h1
  rw [Finset.card_range] at h2
  rwa [List.toFinset_card_of_nodup h] at h2

theorem nodup_split_not_mem {A B : List Nat} {m : Nat} (h : (A ++ m :: B).Nodup) :
    m ∉ A ∧ m ∉ B ∧ A.Nodup ∧ B.Nodup ∧ ∀ x ∈ A, x ∉ m :: B := by
  have hdisj := List.disjoint_of_nodup_append h
  have hr := h.of_append_right
  refine ⟨fun hmA => hdisj hmA (List.mem_cons_self m B), (List.nodup_cons.mp hr).1,
    h.of_append_left, (List.nodup_cons.mp hr).2, fun x hx => hdisj hx⟩

end DLX

namespace DLX

theorem coverStep_other_d {t : DState} {m v : Nat} (h : v ≠ (getN t m).u) :
    (getN (coverStep t m) v).d = (getN t v).d := by
  rw [coverStep_eq]
  exact proj_three_modify (fun n => n.d) _ _ _ _ _ _ _ _ (Or.inl h)
    (Or.inr fun n => rfl) (Or.inr fun n => rfl)

theorem coverStep_other_u {t : DState} {m v : Nat} (h : v ≠ (getN t m).d) :
    (getN (coverStep t m) v).u = (getN t v).u := by
  rw [coverStep_eq]
  exact proj_three_modify (fun n => n.u) _ _ _ _ _ _ _ _ (Or.inr fun n => rfl)
    (Or.inl h) (Or.inr fun n => rfl)

theorem uncoverStep_other_d {t : DState} {m v : Nat} (h : v ≠ (getN t m).u) :
    (getN (uncoverStep t m) v).d = (getN t v).d := by
  rw [uncoverStep_eq]
  exact proj_three_modify (fun n => n.d) _ _ _ _ _ _ _ _ (Or.inl h)
    (Or.inr fun n => rfl) (Or.inr fun n => rfl)

theorem uncoverStep_other_u {t : DState} {m v : Nat} (h : v ≠ (getN t m).d) :
    (getN (uncoverStep t m) v).u = (getN t v).u := by
  rw [uncoverStep_eq]
  exact proj_three_modify (fun n => n.u) _ _ _ _ _ _ _ _ (Or.inr fun n => rfl)
    (Or.inl h) (Or.inr fun n => rfl)

theorem coverStep_set_d {t : DState} {m : Nat} (h : (getN t m).u < t.length) :
    (getN (coverStep t m) ((getN t m).u)).d = (getN t m).d := by
  rw [coverStep_eq]
  have e1 := proj_two_modify (fun n => n.d)
    (modifyN t ((getN t m).u) fun n => { n with d := (getN t m).d })
    ((getN t m).d) ((getN t m).c) ((getN t m).u)
    (fun n => { n with u := (getN t m).u }) (fun n => { n with data := n.data - 1 })
    (Or.inr fun n => rfl) (Or.inr fun n => rfl)
  have e2 : (getN (modifyN t ((getN t m).u) fun n => { n with d := (getN t m).d })
      ((getN t m).u)).d = (getN t m).d := by
    rw [getN_modifyN_same h]
  exact e1.trans e2

theorem coverStep_set_u {t : DState} {m : Nat} (h : (getN t m).d < t.length) :
    (getN (coverStep t m) ((getN t m).d)).u = (getN t m).u := by
  rw [coverStep_eq]
  have e1 : (getN (modifyN (modifyN (modifyN t ((getN t m).u)
      fun n => { n with d := (getN t m).d }) ((getN t m).d)
      fun n => { n with u := (getN t m).u }) ((getN t m).c)
      fun n => { n with data := n.data - 1 }) ((getN t m).d)).u =
      (getN (modifyN (modifyN t ((getN t m).u) fun n => { n with d := (getN t m).d })
        ((getN t m).d) fun n => { n with u := (getN t m).u }) ((getN t m).d)).u := by
    apply proj_modifyN_invariant
    intro n; rfl
  rw [e1, getN_modifyN_same (by rw [length_modifyN]; exact h)]

end DLX

namespace DLX

/-- One unlink of the cover loop: the loop invariant survives (the node moves
from the live rings to the removed set) and the corresponding relink undoes
it exactly. -/
theorem coverStep_inv {s0 : DState} {G : Ghost} {D : List Nat} {t : DState} {j m : Nat}
    (hinv : Inv s0 G D t)
    (hj : j < G.width) (hm : m ∈ G.cols.getD j [])
    (hcols_len : G.cols.length = G.width)
    (hcols_nodup : G.cols.flatten.Nodup)
    (hwidth : G.width < s0.length)
    (hbound : ∀ x ∈ G.cols.flatten, G.width < x ∧ x < s0.length)
    (hlive : ((G.dead ++ D).contains m) = false) :
    Inv s0 G (D ++ [m]) (coverStep t m) ∧ uncoverStep (coverStep t m) m = t ∧
      (∀ v, v ∉ G.cols.getD j [] → v ≠ j + 1 →
        (getN (coverStep t m) v).d = (getN t v).d ∧
        (getN (coverStep t m) v).u = (getN t v).u) := by
  obtain ⟨hlen, hframe, hdpath, hupath⟩ := hinv
  have hjcols : j < G.cols.length := by rw [hcols_len]; exact hj
  have hmF : m ∈ (G.cols.getD j []).filter fun x => !((G.dead ++ D).contains x) :=
    List.mem_filter.mpr ⟨hm, by simpa using hlive⟩
  have hFnd : ((G.cols.getD j []).filter fun x => !((G.dead ++ D).contains x)).Nodup :=
    (col_nodup hcols_nodup hjcols).filter _
  obtain ⟨A, B, hFAB⟩ := List.append_of_mem hmF
  obtain ⟨hmA, hmB, hAnd, hBnd, hABdisj⟩ := nodup_split_not_mem (hFAB ▸ hFnd)
  have hsubF : ∀ x ∈ (G.cols.getD j []).filter fun x => !((G.dead ++ D).contains x),
      x ∈ G.cols.getD j [] := fun x hx => (List.mem_filter.mp hx).1
  have hsubA : ∀ x ∈ A, x ∈ G.cols.getD j [] := fun x hx =>
    hsubF x (by rw [hFAB]; exact List.mem_append.mpr (Or.inl hx))
  have hsubB : ∀ x ∈ B, x ∈ G.cols.getD j [] := fun x hx =>
    hsubF x (by rw [hFAB]; exact List.mem_append.mpr (Or.inr (List.mem_cons_of_mem m hx)))
  have hmgt : G.width < m ∧ m < s0.length := hbound m (mem_flatten_of_col hjcols hm)
  have hd := hdpath j hj
  have hu := hupath j hj
  rw [hFAB] at hd hu
  obtain ⟨hmd, hmu, hPd, hNu⟩ := chain_neighbors hd hu
  have hPmem := getLastD_mem_or A (j + 1)
  have hNmem := headD_mem_or B (j + 1)
  have hPlt : A.getLastD (j + 1) < s0.length := by
    rcases hPmem with h | h
    · exact (hbound _ (mem_flatten_of_col hjcols (hsubA _ h))).2
    · omega
  have hNlt : B.headD (j + 1) < s0.length := by
    rcases hNmem with h | h
    · exact (hbound _ (mem_flatten_of_col hjcols (hsubB _ h))).2
    · omega
  have hPne : A.getLastD (j + 1) ≠ m := by
    rcases hPmem with h | h
    · exact fun hh => hmA (by rw [← hh]; exact h)
    · have := hmgt.1; omega
  have hNne : B.headD (j + 1) ≠ m := by
    rcases hNmem with h | h
    · exact fun hh => hmB (by rw [← hh]; exact h)
    · have := hmgt.1; omega
  have hcancel : uncoverStep (coverStep t m) m = t := by
    apply uncoverStep_coverStep_cancel
    · rw [hmu]; exact hPne
    · rw [hmd]; exact hNne
    · rw [hmu]; exact hPd
    · rw [hmd]; exact hNu
  have hFnew : ((G.cols.getD j []).filter fun x => !((G.dead ++ (D ++ [m])).contains x)) =
      A ++ B := by
    rw [filter_dead_snoc, hFAB, List.filter_append, List.filter_cons]
    rw [filter_ne_self hmA, filter_ne_self hmB]
    simp
  have hFkeep : ∀ j', j' ≠ j → j' < G.cols.length →
      ((G.cols.getD j' []).filter fun x => !((G.dead ++ (D ++ [m])).contains x)) =
      ((G.cols.getD j' []).filter fun x => !((G.dead ++ D).contains x)) := by
    intro j' hjj hj'cols
    rw [filter_dead_snoc]
    apply filter_ne_self
    intro hcontra
    exact cols_disjoint hcols_nodup hjj hj'cols hjcols m
      ((List.mem_filter.mp hcontra).1) hm
  refine ⟨⟨?_, ?_, ?_, ?_⟩, hcancel, ?_⟩
  · rw [length_coverStep]; exact hlen
  · intro v
    exact ⟨(coverStep_frame t m v).1.trans (hframe v).1,
      (coverStep_frame t m v).2.1.trans (hframe v).2.1,
      (coverStep_frame t m v).2.2.trans (hframe v).2.2⟩
  · intro j' hj'
    by_cases hjj : j' = j
    · subst hjj
      rw [hFnew]
      refine pathF_surgery (pathF_append.mp hd).1 (pathF_append.mp hd).2 ?_ ?_ ?_ hAnd ?_
      · intro v hv hvq
        apply coverStep_other_d
        rw [hmu]; exact hvq
      · rw [← hmu, coverStep_set_d (by rw [hmu, hlen]; exact hPlt)]
        exact hmd
      · intro hcontra
        have := (hbound _ (mem_flatten_of_col hjcols (hsubA _ hcontra))).1
        omega
      · intro x hx
        rcases hPmem with h | h
        · exact fun hh => hABdisj x (by rw [hh]; exact h) (List.mem_cons_of_mem m hx)
        · have := (hbound _ (mem_flatten_of_col hjcols (hsubB _ hx))).1
          omega
    · have hj'cols : j' < G.cols.length := by rw [hcols_len]; exact hj'
      rw [hFkeep j' hjj hj'cols]
      refine pathF_congr ?_ (hdpath j' hj')
      intro v hv
      apply coverStep_other_d
      rw [hmu]
      rcases hv with rfl | hvmem
      · rcases hPmem with h | h
        · have := (hbound _ (mem_flatten_of_col hjcols (hsubA _ h))).1
          intro hh; rw [← hh] at this; omega
        · intro hh; rw [h] at hh; omega
      · have hvcol : v ∈ G.cols.getD j' [] := (List.mem_filter.mp hvmem).1
        rcases hPmem with h | h
        · exact fun hh =>
            cols_disjoint hcols_nodup hjj hj'cols hjcols v hvcol (by rw [hh]; exact hsubA _ h)
        · have := (hbound _ (mem_flatten_of_col hj'cols hvcol)).1
          intro hh; rw [h] at hh; omega
  · intro j' hj'
    by_cases hjj : j' = j
    · subst hjj
      rw [hFnew]
      have hurw : (A ++ m :: B).reverse = B.reverse ++ m :: A.reverse := by simp
      rw [hurw] at hu
      rw [show (A ++ B).reverse = B.reverse ++ A.reverse by simp]
      refine pathF_surgery (pathF_append.mp hu).1 (pathF_append.mp hu).2 ?_ ?_ ?_
        (List.nodup_reverse.mpr hBnd) ?_
      · intro v hv hvq
        apply coverStep_other_u
        rw [hmd, ← getLastD_reverse]; exact hvq
      · rw [getLastD_reverse, headD_reverse, ← hmd,
          coverStep_set_u (by rw [hmd, hlen]; exact hNlt)]
        exact hmu
      · intro hcontra
        rw [List.mem_reverse] at hcontra
        have := (hbound _ (mem_flatten_of_col hjcols (hsubB _ hcontra))).1
        omega
      · intro x hx
        rw [List.mem_reverse] at hx
        rw [getLastD_reverse]
        rcases hNmem with h | h
        · exact fun hh => hABdisj x hx (by rw [hh]; exact List.mem_cons_of_mem m h)
        · have := (hbound _ (mem_flatten_of_col hjcols (hsubA _ hx))).1
          intro hh; rw [h] at hh; omega
    · have hj'cols : j' < G.cols.length := by rw [hcols_len]; exact hj'
      rw [hFkeep j' hjj hj'cols]
      refine pathF_congr ?_ (hupath j' hj')
      intro v hv
      apply coverStep_other_u
      rw [hmd]
      rcases hv with rfl | hvmem
      · rcases hNmem with h | h
        · have := (hbound _ (mem_flatten_of_col hjcols (hsubB _ h))).1
          intro hh; rw [← hh] at this; omega
        · intro hh; rw [h] at hh; omega
      · rw [List.mem_reverse] at hvmem
        have hvcol : v ∈ G.cols.getD j' [] := (List.mem_filter.mp hvmem).1
        rcases hNmem with h | h
        · exact fun hh =>
            cols_disjoint hcols_nodup hjj hj'cols hjcols v hvcol (by rw [hh]; exact hsubB _ h)
        · have := (hbound _ (mem_flatten_of_col hj'cols hvcol)).1
          intro hh; rw [h] at hh; omega
  · intro v hv1 hv2
    constructor
    · apply coverStep_other_d
      rw [hmu]
      rcases hPmem with h | h
      · exact fun hh => hv1 (by rw [hh]; exact hsubA _ h)
      · rw [h]; exact hv2
    · apply coverStep_other_u
      rw [hmd]
      rcases hNmem with h | h
      · exact fun hh => hv1 (by rw [hh]; exact hsubB _ h)
      · rw [h]; exact hv2

end DLX

namespace DLX

theorem contains_false_iff {l : List Nat} {x : Nat} : (l.contains x = false) ↔ x ∉ l := by
  simp

/-- Folding `coverStep` over a list of live nodes (no duplicates, not yet
removed) keeps the invariant with the list appended to the removed set, and
the reversed fold of `uncoverStep` undoes it exactly. -/
theorem coverSteps_fold {s0 : DState} {G : Ghost}
    (hcols_len : G.cols.length = G.width)
    (hcols_nodup : G.cols.flatten.Nodup)
    (hwidth : G.width < s0.length)
    (hbound : ∀ x ∈ G.cols.flatten, G.width < x ∧ x < s0.length) :
    ∀ (L D : List Nat) (t : DState), Inv s0 G D t → L.Nodup →
    (∀ x ∈ L, ∃ j, j < G.width ∧ x ∈ G.cols.getD j []) →
    (∀ x ∈ L, ((G.dead ++ D).contains x) = false) →
    Inv s0 G (D ++ L) (List.foldl coverStep t L) ∧
      List.foldl uncoverStep (List.foldl coverStep t L) L.reverse = t ∧
      (∀ v, (∀ x ∈ L, ∀ jx, jx < G.width → x ∈ G.cols.getD jx [] →
          v ∉ G.cols.getD jx [] ∧ v ≠ jx + 1) →
        (getN (List.foldl coverStep t L) v).d = (getN t v).d ∧
        (getN (List.foldl coverStep t L) v).u = (getN t v).u) := by
  intro L
  induction L with
  | nil =>
    intro D t hinv _ _ _
    exact ⟨by simpa using hinv, rfl, fun v hv => ⟨rfl, rfl⟩⟩
  | cons m L ih =>
    intro D t hinv hnd hcols hlive
    obtain ⟨j, hj, hmj⟩ := hcols m (List.mem_cons_self m L)
    have hstep := coverStep_inv hinv hj hmj hcols_len hcols_nodup hwidth hbound
      (hlive m (List.mem_cons_self m L))
    have hmL : m ∉ L := (List.nodup_cons.mp hnd).1
    have hlive' : ∀ x ∈ L, ((G.dead ++ (D ++ [m])).contains x) = false := by
      intro x hx
      have h1 : x ∉ G.dead ++ D := contains_false_iff.mp (hlive x (List.mem_cons_of_mem m hx))
      have h2 : x ≠ m := fun hh => hmL (hh ▸ hx)
      rw [contains_false_iff]
      intro hcontra
      rcases List.mem_append.mp hcontra with h | h
      · exact h1 (List.mem_append.mpr (Or.inl h))
      · rcases List.mem_append.mp h with h' | h'
        · exact h1 (List.mem_append.mpr (Or.inr h'))
        · simp at h'
          exact h2 h'
    have hIH := ih (D ++ [m]) (coverStep t m) hstep.1 (List.nodup_cons.mp hnd).2
      (fun x hx => hcols x (List.mem_cons_of_mem m hx)) hlive'
    refine ⟨?_, ?_, ?_⟩
    · have := hIH.1
      rw [List.append_assoc, List.singleton_append] at this
      exact this
    · show List.foldl uncoverStep (List.foldl coverStep (coverStep t m) L)
        ((m :: L).reverse) = t
      rw [List.reverse_cons, List.foldl_append, hIH.2.1]
      show uncoverStep (coverStep t m) m = t
      exact hstep.2.1
    · intro v hv
      have hstepv := hstep.2.2 v (hv m (List.mem_cons_self m L) j hj hmj).1
        (hv m (List.mem_cons_self m L) j hj hmj).2
      have hIHv := hIH.2.2 v
        (fun x hx jx hjx hxj => hv x (List.mem_cons_of_mem m hx) jx hjx hxj)
      exact ⟨hIHv.1.trans hstepv.1, hIHv.2.trans hstepv.2⟩

end DLX

namespace DLX

theorem filter_dead_ext (l dead : List Nat) :
    ∀ (dl D : List Nat), (∀ x ∈ dl, x ∉ l) →
    (l.filter fun x => !((dead ++ (D ++ dl)).contains x)) =
    (l.filter fun x => !((dead ++ D).contains x)) := by
  intro dl
  induction dl with
  | nil => intro D _; simp
  | cons m dl ih =>
    intro D hdl
    have h1 : D ++ m :: dl = (D ++ [m]) ++ dl := by simp
    rw [h1, ih (D ++ [m]) (fun x hx => hdl x (List.mem_cons_of_mem m hx)),
      filter_dead_snoc]
    exact filter_ne_self fun hm =>
      hdl m (List.mem_cons_self m dl) ((List.mem_filter.mp hm).1)

/-- The inner `cover` loop, walking right from `cur` through `ms` to the
starting node, is the fold of `coverStep` over the nodes visited. -/
theorem coverRow_fold {startN : Nat} :
    ∀ (ms : List Nat) (fuel : Nat) (t : DState) (cur : Nat),
    pathF (fun n => n.r) t cur ms startN →
    cur ≠ startN → (∀ x ∈ ms, x ≠ startN) →
    ms.length + 2 ≤ fuel →
    coverRow fuel t startN cur = some (List.foldl coverStep t (cur :: ms)) := by
  intro ms
  induction ms with
  | nil =>
    intro fuel t cur hpath hcur _ hfuel
    match fuel, hfuel with
    | f + 2, _ =>
      rw [show coverRow (f + 2) t startN cur = if cur = startN then some t else
        coverRow (f + 1) (coverStep t cur) startN ((getN (coverStep t cur) cur).r) from rfl]
      rw [if_neg hcur, (coverStep_frame t cur cur).1,
        show (getN t cur).r = startN from hpath]
      rw [show coverRow (f + 1) (coverStep t cur) startN startN =
        if startN = startN then some (coverStep t cur) else
        coverRow f (coverStep (coverStep t cur) startN) startN
          ((getN (coverStep (coverStep t cur) startN) startN).r) from rfl]
      rw [if_pos rfl]
      rfl
  | cons x ms ih =>
    intro fuel t cur hpath hcur hms hfuel
    match fuel, hfuel with
    | f + 2, hfuel =>
      rw [show coverRow (f + 2) t startN cur = if cur = startN then some t else
        coverRow (f + 1) (coverStep t cur) startN ((getN (coverStep t cur) cur).r) from rfl]
      rw [if_neg hcur, (coverStep_frame t cur cur).1,
        show (getN t cur).r = x from hpath.1]
      have htrans : pathF (fun n => n.r) (coverStep t cur) x ms startN :=
        pathF_congr (fun v _ => (coverStep_frame t cur v).1) hpath.2
      rw [ih (f + 1) (coverStep t cur) x htrans (hms x (List.mem_cons_self x ms))
        (fun y hy => hms y (List.mem_cons_of_mem x hy)) (by simp at hfuel ⊢; omega)]
      rfl

/-- `coverRow` as called by the outer loop: starting at the right neighbour
of the row's column-`c` node, it folds `coverStep` over the row mates. -/
theorem coverRow_mates {t : DState} {v : Nat} {ms : List Nat} {fuel : Nat}
    (hpath : pathF (fun n => n.r) t v ms v) (hms : ∀ x ∈ ms, x ≠ v)
    (hfuel : ms.length + 2 ≤ fuel) :
    coverRow fuel t v ((getN t v).r) = some (List.foldl coverStep t ms) := by
  cases ms with
  | nil =>
    rw [show (getN t v).r = v from hpath]
    match fuel, hfuel with
    | f + 2, _ =>
      rw [show coverRow (f + 2) t v v = if v = v then some t else
        coverRow (f + 1) (coverStep t v) v ((getN (coverStep t v) v).r) from rfl]
      rw [if_pos rfl]
      rfl
  | cons x ms =>
    rw [show (getN t v).r = x from hpath.1]
    exact coverRow_fold ms fuel t x hpath.2 (hms x (List.mem_cons_self x ms))
      (fun y hy => hms y (List.mem_cons_of_mem x hy)) (by simp at hfuel ⊢; omega)

/-- The inner `uncover` loop walking left is the fold of `uncoverStep`. -/
theorem uncoverRow_fold {startN : Nat} :
    ∀ (ms : List Nat) (fuel : Nat) (t : DState) (cur : Nat),
    pathF (fun n => n.l) t cur ms startN →
    cur ≠ startN → (∀ x ∈ ms, x ≠ startN) →
    ms.length + 2 ≤ fuel →
    uncoverRow fuel t startN cur = some (List.foldl uncoverStep t (cur :: ms)) := by
  intro ms
  induction ms with
  | nil =>
    intro fuel t cur hpath hcur _ hfuel
    match fuel, hfuel with
    | f + 2, _ =>
      rw [show uncoverRow (f + 2) t startN cur = if cur = startN then some t else
        uncoverRow (f + 1) (uncoverStep t cur) startN
          ((getN (uncoverStep t cur) cur).l) from rfl]
      rw [if_neg hcur, (uncoverStep_frame t cur cur).2.1,
        show (getN t cur).l = startN from hpath]
      rw [show uncoverRow (f + 1) (uncoverStep t cur) startN startN =
        if startN = startN then some (uncoverStep t cur) else
        uncoverRow f (uncoverStep (uncoverStep t cur) startN) startN
          ((getN (uncoverStep (uncoverStep t cur) startN) startN).l) from rfl]
      rw [if_pos rfl]
      rfl
  | cons x ms ih =>
    intro fuel t cur hpath hcur hms hfuel
    match fuel, hfuel with
    | f + 2, hfuel =>
      rw [show uncoverRow (f + 2) t startN cur = if cur = startN then some t else
        uncoverRow (f + 1) (uncoverStep t cur) startN
          ((getN (uncoverStep t cur) cur).l) from rfl]
      rw [if_neg hcur, (uncoverStep_frame t cur cur).2.1,
        show (getN t cur).l = x from hpath.1]
      have htrans : pathF (fun n => n.l) (uncoverStep t cur) x ms startN :=
        pathF_congr (fun v _ => (uncoverStep_frame t cur v).2.1) hpath.2
      rw [ih (f + 1) (uncoverStep t cur) x htrans (hms x (List.mem_cons_self x ms))
        (fun y hy => hms y (List.mem_cons_of_mem x hy)) (by simp at hfuel ⊢; omega)]
      rfl

theorem uncoverRow_mates {t : DState} {v : Nat} {ms : List Nat} {fuel : Nat}
    (hpath : pathF (fun n => n.l) t v ms v) (hms : ∀ x ∈ ms, x ≠ v)
    (hfuel : ms.length + 2 ≤ fuel) :
    uncoverRow fuel t v ((getN t v).l) = some (List.foldl uncoverStep t ms) := by
  cases ms with
  | nil =>
    rw [show (getN t v).l = v from hpath]
    match fuel, hfuel with
    | f + 2, _ =>
      rw [show uncoverRow (f + 2) t v v = if v = v then some t else
        uncoverRow (f + 1) (uncoverStep t v) v ((getN (uncoverStep t v) v).l) from rfl]
      rw [if_pos rfl]
      rfl
  | cons x ms =>
    rw [show (getN t v).l = x from hpath.1]
    exact uncoverRow_fold ms fuel t x hpath.2 (hms x (List.mem_cons_self x ms))
      (fun y hy => hms y (List.mem_cons_of_mem x hy)) (by simp at hfuel ⊢; omega)

end DLX

namespace DLX

theorem col_unique {L : List (List Nat)} (hnd : L.flatten.Nodup) {x jx jx' : Nat}
    (h1 : jx < L.length) (h2 : jx' < L.length)
    (hx1 : x ∈ L.getD jx []) (hx2 : x ∈ L.getD jx' []) : jx = jx' := by
  by_contra h
  exact cols_disjoint hnd h h1 h2 x hx1 hx2

/-- The outer `cover` loop: walking down the covered column's nodes `cur ::
vs`, it folds `coverStep` over all their row mates in visit order. -/
theorem coverCol_fold_aux {s0 : DState} {G : Ghost} {j : Nat} {M : Nat → List Nat}
    (hcols_len : G.cols.length = G.width)
    (hcols_nodup : G.cols.flatten.Nodup)
    (hwidth : G.width < s0.length)
    (hbound : ∀ x ∈ G.cols.flatten, G.width < x ∧ x < s0.length)
    (hj : j < G.width)
    (hM : ∀ v ∈ G.cols.getD j [],
      pathF (fun n => n.r) s0 v (M v) v ∧
      (∀ x ∈ M v, x ≠ v) ∧
      (∀ x ∈ M v, ∃ jx, jx < G.width ∧ jx ≠ j ∧ x ∈ G.cols.getD jx []) ∧
      (M v).length + 1 ≤ s0.length) :
    ∀ (vs : List Nat) (fuel : Nat) (D : List Nat) (t : DState) (cur : Nat),
    Inv s0 G D t →
    cur ∈ G.cols.getD j [] →
    (∀ v ∈ vs, v ∈ G.cols.getD j []) →
    pathF (fun n => n.d) t cur vs (j + 1) →
    (∀ x ∈ (cur :: vs).flatMap M, ((G.dead ++ D).contains x) = false) →
    ((cur :: vs).flatMap M).Nodup →
    vs.length + 2 ≤ fuel →
    coverCol fuel t (j + 1) cur =
      some (List.foldl coverStep t ((cur :: vs).flatMap M)) := by
  have hjcols : j < G.cols.length := by rw [hcols_len]; exact hj
  intro vs
  induction vs with
  | nil =>
    intro fuel D t cur hinv hcur _ hpath hlive hnodup hfuel
    obtain ⟨hlen, hframe, hdpath, hupath⟩ := hinv
    have hcur_ne : cur ≠ j + 1 := by
      have := (hbound cur (mem_flatten_of_col hjcols hcur)).1
      omega
    obtain ⟨hMr, hMne, hMcols, hMlen⟩ := hM cur hcur
    match fuel, hfuel with
    | f + 2, _ =>
      rw [show coverCol (f + 2) t (j + 1) cur = if cur = j + 1 then some t else
        (coverRow (t.length + 1) t cur ((getN t cur).r)).bind fun s1 =>
          coverCol (f + 1) s1 (j + 1) ((getN s1 cur).d) from rfl]
      rw [if_neg hcur_ne]
      have hpath_r : pathF (fun n => n.r) t cur (M cur) cur :=
        pathF_congr (fun v _ => (hframe v).1) hMr
      rw [coverRow_mates hpath_r hMne (by rw [hlen]; omega)]
      have hfold := coverSteps_fold hcols_len hcols_nodup hwidth hbound (M cur) D t
        ⟨hlen, hframe, hdpath, hupath⟩
        (by
          have := hnodup
          rw [List.flatMap_cons, List.flatMap_nil, List.append_nil] at this
          exact this)
        (fun x hx => (hMcols x hx).elim fun jx hjx => ⟨jx, hjx.1, hjx.2.2⟩)
        (fun x hx => hlive x (by
          rw [List.flatMap_cons, List.flatMap_nil, List.append_nil]
          exact hx))
      have hd_cur : (getN (List.foldl coverStep t (M cur)) cur).d = (getN t cur).d := by
        refine (hfold.2.2 cur ?_).1
        intro x hx jx hjx hxin
        obtain ⟨jx', hjx', hne', hxin'⟩ := hMcols x hx
        have : jx = jx' := col_unique hcols_nodup (by rw [hcols_len]; exact hjx)
          (by rw [hcols_len]; exact hjx') hxin hxin'
        subst this
        constructor
        · exact fun hc => cols_disjoint hcols_nodup hne' (by rw [hcols_len]; exact hjx)
            hjcols cur hc hcur
        · have := (hbound cur (mem_flatten_of_col hjcols hcur)).1
          omega
      simp only [Option.some_bind]
      rw [hd_cur, show (getN t cur).d = j + 1 from hpath]
      rw [show coverCol (f + 1) (List.foldl coverStep t (M cur)) (j + 1) (j + 1) =
        if j + 1 = j + 1 then some (List.foldl coverStep t (M cur)) else
        ((coverRow ((List.foldl coverStep t (M cur)).length + 1)
          (List.foldl coverStep t (M cur)) (j + 1)
          ((getN (List.foldl coverStep t (M cur)) (j + 1)).r)).bind fun s1 =>
          coverCol f s1 (j + 1) ((getN s1 (j + 1)).d)) from rfl, if_pos rfl]
      rw [List.flatMap_cons, List.flatMap_nil, List.append_nil]
  | cons v' vs' ih =>
    intro fuel D t cur hinv hcur hvs hpath hlive hnodup hfuel
    obtain ⟨hlen, hframe, hdpath, hupath⟩ := hinv
    have hcur_ne : cur ≠ j + 1 := by
      have := (hbound cur (mem_flatten_of_col hjcols hcur)).1
      omega
    obtain ⟨hMr, hMne, hMcols, hMlen⟩ := hM cur hcur
    match fuel, hfuel with
    | f + 2, hfuel =>
      rw [show coverCol (f + 2) t (j + 1) cur = if cur = j + 1 then some t else
        (coverRow (t.length + 1) t cur ((getN t cur).r)).bind fun s1 =>
          coverCol (f + 1) s1 (j + 1) ((getN s1 cur).d) from rfl]
      rw [if_neg hcur_ne]
      have hpath_r : pathF (fun n => n.r) t cur (M cur) cur :=
        pathF_congr (fun v _ => (hframe v).1) hMr
      rw [coverRow_mates hpath_r hMne (by rw [hlen]; omega)]
      have hMsplit : (cur :: v' :: vs').flatMap M = M cur ++ (v' :: vs').flatMap M :=
        List.flatMap_cons cur (v' :: vs') M
      have hnodup' : (M cur ++ (v' :: vs').flatMap M).Nodup := by rw [← hMsplit]; exact hnodup
      have hfold := coverSteps_fold hcols_len hcols_nodup hwidth hbound (M cur) D t
        ⟨hlen, hframe, hdpath, hupath⟩ hnodup'.of_append_left
        (fun x hx => (hMcols x hx).elim fun jx hjx => ⟨jx, hjx.1, hjx.2.2⟩)
        (fun x hx => hlive x (by rw [hMsplit]; exact List.mem_append.mpr (Or.inl hx)))
      have hother : ∀ w, w ∈ G.cols.getD j [] →
          (getN (List.foldl coverStep t (M cur)) w).d = (getN t w).d ∧
          (getN (List.foldl coverStep t (M cur)) w).u = (getN t w).u := by
        intro w hw
        refine hfold.2.2 w ?_
        intro x hx jx hjx hxin
        obtain ⟨jx', hjx', hne', hxin'⟩ := hMcols x hx
        have : jx = jx' := col_unique hcols_nodup (by rw [hcols_len]; exact hjx)
          (by rw [hcols_len]; exact hjx') hxin hxin'
        subst this
        constructor
        · exact fun hc => cols_disjoint hcols_nodup hne' (by rw [hcols_len]; exact hjx)
            hjcols w hc hw
        · have := (hbound w (mem_flatten_of_col hjcols hw)).1
          omega
      simp only [Option.some_bind]
      rw [(hother cur hcur).1, show (getN t cur).d = v' from hpath.1]
      have hpath' : pathF (fun n => n.d) (List.foldl coverStep t (M cur)) v' vs' (j + 1) := by
        refine pathF_congr ?_ hpath.2
        intro v hv
        refine (hother v ?_).1
        rcases hv with rfl | hm
        · exact hvs v (List.mem_cons_self v vs')
        · exact hvs v (List.mem_cons_of_mem v' hm)
      have hlive' : ∀ x ∈ (v' :: vs').flatMap M,
          ((G.dead ++ (D ++ M cur)).contains x) = false := by
        intro x hx
        rw [contains_false_iff]
        intro hcontra
        have h1 : x ∉ G.dead ++ D := contains_false_iff.mp
          (hlive x (by rw [hMsplit]; exact List.mem_append.mpr (Or.inr hx)))
        have h2 : x ∉ M cur := fun hh =>
          List.disjoint_of_nodup_append hnodup' hh hx
        rcases List.mem_append.mp hcontra with h | h
        · exact h1 (List.mem_append.mpr (Or.inl h))
        · rcases List.mem_append.mp h with h' | h'
          · exact h1 (List.mem_append.mpr (Or.inr h'))
          · exact h2 h'
      rw [ih (f + 1) (D ++ M cur) (List.foldl coverStep t (M cur)) v' hfold.1
        (hvs v' (List.mem_cons_self v' vs'))
        (fun v hv => hvs v (List.mem_cons_of_mem v' hv)) hpath' hlive'
        hnodup'.of_append_right (by simp at hfuel ⊢; omega)]
      rw [hMsplit, List.foldl_append]

end DLX

namespace DLX

theorem length_foldl_coverStep : ∀ (L : List Nat) (t : DState),
    (List.foldl coverStep t L).length = t.length := by
  intro L
  induction L with
  | nil => intro t; rfl
  | cons m L ih =>
    intro t
    show (List.foldl coverStep (coverStep t m) L).length = t.length
    rw [ih, length_coverStep]

/-- The outer `uncover` loop: walking up the covered column's nodes in
reverse visit order undoes all their mates' splices and finishes with the
header relink of the state the cover started from. -/
theorem uncoverCol_fold_aux {s0 : DState} {G : Ghost} {j : Nat} {M : Nat → List Nat}
    (hcols_len : G.cols.length = G.width)
    (hcols_nodup : G.cols.flatten.Nodup)
    (hwidth : G.width < s0.length)
    (hbound : ∀ x ∈ G.cols.flatten, G.width < x ∧ x < s0.length)
    (hj : j < G.width)
    (hsr : (getN s0 (j + 1)).r ≤ G.width)
    (hM : ∀ v ∈ G.cols.getD j [],
      pathF (fun n => n.l) s0 v ((M v).reverse) v ∧
      (∀ x ∈ M v, x ≠ v) ∧
      (∀ x ∈ M v, ∃ jx, jx < G.width ∧ jx ≠ j ∧ x ∈ G.cols.getD jx []) ∧
      (M v).length + 1 ≤ s0.length) :
    ∀ (ws : List Nat) (fuel : Nat) (D : List Nat) (t : DState) (cur : Nat),
    Inv s0 G D t →
    cur ∈ G.cols.getD j [] →
    (∀ v ∈ ws, v ∈ G.cols.getD j []) →
    pathF (fun n => n.u) t cur ws (j + 1) →
    (∀ x ∈ ((cur :: ws).reverse).flatMap M, ((G.dead ++ D).contains x) = false) →
    (((cur :: ws).reverse).flatMap M).Nodup →
    ws.length + 2 ≤ fuel →
    uncoverCol fuel
      (link_lr (List.foldl coverStep t (((cur :: ws).reverse).flatMap M)) (j + 1))
      (j + 1) cur = some (link_lr t (j + 1)) := by
  have hjcols : j < G.cols.length := by rw [hcols_len]; exact hj
  intro ws
  induction ws with
  | nil =>
    intro fuel D t cur hinv hcur _ hpath hlive hnodup hfuel
    have hlen := hinv.1
    have hcur_ne : cur ≠ j + 1 := by
      have := (hbound cur (mem_flatten_of_col hjcols hcur)).1
      omega
    obtain ⟨hMl, hMne, hMcols, hMlen⟩ := hM cur hcur
    have hsplitL : ((cur :: ([] : List Nat)).reverse).flatMap M = M cur := by
      simp
    rw [hsplitL]
    have hfoldT := coverSteps_fold hcols_len hcols_nodup hwidth hbound (M cur) D t hinv
      (by rw [hsplitL] at hnodup; exact hnodup)
      (fun x hx => (hMcols x hx).elim fun jx hjx => ⟨jx, hjx.1, hjx.2.2⟩)
      (fun x hx => hlive x (by rw [hsplitL]; exact hx))
    have hTlen : (List.foldl coverStep t (M cur)).length = s0.length := by
      rw [length_foldl_coverStep, hlen]
    have hlink_l : ∀ v, G.width < v →
        (getN (link_lr (List.foldl coverStep t (M cur)) (j + 1)) v).l =
        (getN (List.foldl coverStep t (M cur)) v).l := by
      intro v hv
      refine (link_lr_frame (List.foldl coverStep t (M cur)) (j + 1) v).2.2.2.2.2 ?_
      rw [(hfoldT.1.2.1 (j + 1)).1]
      omega
    have hpath_l : pathF (fun n => n.l)
        (link_lr (List.foldl coverStep t (M cur)) (j + 1)) cur ((M cur).reverse) cur := by
      refine pathF_congr ?_ hMl
      intro v hv
      have hvgt : G.width < v := by
        rcases hv with rfl | hm
        · exact (hbound v (mem_flatten_of_col hjcols hcur)).1
        · rw [List.mem_reverse] at hm
          obtain ⟨jx, hjx, _, hxin⟩ := hMcols v hm
          exact (hbound v (mem_flatten_of_col (by rw [hcols_len]; exact hjx) hxin)).1
      rw [hlink_l v hvgt, (hfoldT.1.2.1 v).2.1]
    match fuel, hfuel with
    | f + 2, _ =>
      rw [show uncoverCol (f + 2)
          (link_lr (List.foldl coverStep t (M cur)) (j + 1)) (j + 1) cur =
        if cur = j + 1 then some (link_lr (List.foldl coverStep t (M cur)) (j + 1)) else
        (uncoverRow ((link_lr (List.foldl coverStep t (M cur)) (j + 1)).length + 1)
          (link_lr (List.foldl coverStep t (M cur)) (j + 1)) cur
          ((getN (link_lr (List.foldl coverStep t (M cur)) (j + 1)) cur).l)).bind fun s1 =>
          uncoverCol (f + 1) s1 (j + 1) ((getN s1 cur).u) from rfl]
      rw [if_neg hcur_ne]
      rw [uncoverRow_mates hpath_l
        (fun x hx => hMne x (List.mem_reverse.mp hx))
        (by rw [length_link_lr, hTlen, List.length_reverse]; omega)]
      simp only [Option.some_bind]
      rw [foldl_uncoverStep_link_lr, hfoldT.2.1]
      have hu_cur : (getN (link_lr t (j + 1)) cur).u = (getN t cur).u :=
        (link_lr_frame t (j + 1) cur).1
      rw [hu_cur, show (getN t cur).u = j + 1 from hpath]
      rw [show uncoverCol (f + 1) (link_lr t (j + 1)) (j + 1) (j + 1) =
        if j + 1 = j + 1 then some (link_lr t (j + 1)) else
        (uncoverRow ((link_lr t (j + 1)).length + 1) (link_lr t (j + 1)) (j + 1)
          ((getN (link_lr t (j + 1)) (j + 1)).l)).bind fun s1 =>
          uncoverCol f s1 (j + 1) ((getN s1 (j + 1)).u) from rfl, if_pos rfl]
  | cons w ws' ih =>
    intro fuel D t cur hinv hcur hws hpath hlive hnodup hfuel
    have hlen := hinv.1
    have hcur_ne : cur ≠ j + 1 := by
      have := (hbound cur (mem_flatten_of_col hjcols hcur)).1
      omega
    obtain ⟨hMl, hMne, hMcols, hMlen⟩ := hM cur hcur
    have hsplitL : ((cur :: w :: ws').reverse).flatMap M =
        (((w :: ws').reverse).flatMap M) ++ M cur := by
      rw [List.reverse_cons, List.flatMap_append, List.flatMap_cons, List.flatMap_nil,
        List.append_nil]
    have hnodupL : ((((w :: ws').reverse).flatMap M) ++ M cur).Nodup := by
      rw [← hsplitL]; exact hnodup
    have hcolsLL : ∀ x ∈ ((w :: ws').reverse).flatMap M,
        ∃ jx, jx < G.width ∧ x ∈ G.cols.getD jx [] := by
      intro x hx
      obtain ⟨v'', hv'', hxv⟩ := List.mem_flatMap.mp hx
      rw [List.mem_reverse] at hv''
      have hv''cols : v'' ∈ G.cols.getD j [] := hws v'' hv''
      obtain ⟨jx, hjx, _, hxin⟩ := (hM v'' hv''cols).2.2.1 x hxv
      exact ⟨jx, hjx, hxin⟩
    have hfold' := coverSteps_fold hcols_len hcols_nodup hwidth hbound
      (((w :: ws').reverse).flatMap M) D t hinv hnodupL.of_append_left hcolsLL
      (fun x hx => hlive x (by rw [hsplitL]; exact List.mem_append.mpr (Or.inl hx)))
    have hliveM : ∀ x ∈ M cur,
        ((G.dead ++ (D ++ ((w :: ws').reverse).flatMap M)).contains x) = false := by
      intro x hx
      rw [contains_false_iff]
      intro hcontra
      have h1 : x ∉ G.dead ++ D := contains_false_iff.mp
        (hlive x (by rw [hsplitL]; exact List.mem_append.mpr (Or.inr hx)))
      have h2 : x ∉ ((w :: ws').reverse).flatMap M := fun hh =>
        List.disjoint_of_nodup_append hnodupL hh hx
      rcases List.mem_append.mp hcontra with h | h
      · exact h1 (List.mem_append.mpr (Or.inl h))
      · rcases List.mem_append.mp h with h' | h'
        · exact h1 (List.mem_append.mpr (Or.inr h'))
        · exact h2 h'
    have hfoldT := coverSteps_fold hcols_len hcols_nodup hwidth hbound (M cur)
      (D ++ ((w :: ws').reverse).flatMap M)
      (List.foldl coverStep t (((w :: ws').reverse).flatMap M)) hfold'.1
      hnodupL.of_append_right
      (fun x hx => (hMcols x hx).elim fun jx hjx => ⟨jx, hjx.1, hjx.2.2⟩) hliveM
    have hT : List.foldl coverStep t (((cur :: w :: ws').reverse).flatMap M) =
        List.foldl coverStep (List.foldl coverStep t (((w :: ws').reverse).flatMap M))
          (M cur) := by
      rw [hsplitL, List.foldl_append]
    have hTlen : (List.foldl coverStep t (((cur :: w :: ws').reverse).flatMap M)).length =
        s0.length := by
      rw [length_foldl_coverStep, hlen]
    have hlink_l : ∀ v, G.width < v →
        (getN (link_lr (List.foldl coverStep t (((cur :: w :: ws').reverse).flatMap M))
          (j + 1)) v).l =
        (getN (List.foldl coverStep t (((cur :: w :: ws').reverse).flatMap M)) v).l := by
      intro v hv
      refine (link_lr_frame _ (j + 1) v).2.2.2.2.2 ?_
      rw [hT, (hfoldT.1.2.1 (j + 1)).1]
      omega
    have hpath_l : pathF (fun n => n.l)
        (link_lr (List.foldl coverStep t (((cur :: w :: ws').reverse).flatMap M)) (j + 1))
        cur ((M cur).reverse) cur := by
      refine pathF_congr ?_ hMl
      intro v hv
      have hvgt : G.width < v := by
        rcases hv with rfl | hm
        · exact (hbound v (mem_flatten_of_col hjcols hcur)).1
        · rw [List.mem_reverse] at hm
          obtain ⟨jx, hjx, _, hxin⟩ := hMcols v hm
          exact (hbound v (mem_flatten_of_col (by rw [hcols_len]; exact hjx) hxin)).1
      rw [hlink_l v hvgt, hT, (hfoldT.1.2.1 v).2.1]
    match fuel, hfuel with
    | f + 2, hfuel =>
      rw [show uncoverCol (f + 2)
          (link_lr (List.foldl coverStep t (((cur :: w :: ws').reverse).flatMap M))
            (j + 1)) (j + 1) cur =
        if cur = j + 1 then
          some (link_lr (List.foldl coverStep t (((cur :: w :: ws').reverse).flatMap M))
            (j + 1)) else
        (uncoverRow
          ((link_lr (List.foldl coverStep t (((cur :: w :: ws').reverse).flatMap M))
            (j + 1)).length + 1)
          (link_lr (List.foldl coverStep t (((cur :: w :: ws').reverse).flatMap M))
            (j + 1)) cur
          ((getN (link_lr (List.foldl coverStep t
            (((cur :: w :: ws').reverse).flatMap M)) (j + 1)) cur).l)).bind fun s1 =>
          uncoverCol (f + 1) s1 (j + 1) ((getN s1 cur).u) from rfl]
      rw [if_neg hcur_ne]
      rw [uncoverRow_mates hpath_l
        (fun x hx => hMne x (List.mem_reverse.mp hx))
        (by rw [length_link_lr, hTlen, List.length_reverse]; omega)]
      simp only [Option.some_bind]
      rw [hT, foldl_uncoverStep_link_lr, hfoldT.2.1]
      have hu_cur : (getN (link_lr (List.foldl coverStep t
          (((w :: ws').reverse).flatMap M)) (j + 1)) cur).u =
          (getN t cur).u := by
        rw [(link_lr_frame _ (j + 1) cur).1]
        refine (hfold'.2.2 cur ?_).2
        intro x hx jx hjx hxin
        obtain ⟨v'', hv'', hxv⟩ := List.mem_flatMap.mp hx
        rw [List.mem_reverse] at hv''
        have hv''cols : v'' ∈ G.cols.getD j [] := hws v'' hv''
        obtain ⟨jx', hjx', hne', hxin'⟩ := (hM v'' hv''cols).2.2.1 x hxv
        have : jx = jx' := col_unique hcols_nodup (by rw [hcols_len]; exact hjx)
          (by rw [hcols_len]; exact hjx') hxin hxin'
        subst this
        constructor
        · exact fun hc => cols_disjoint hcols_nodup hne' (by rw [hcols_len]; exact hjx)
            hjcols cur hc hcur
        · have := (hbound cur (mem_flatten_of_col hjcols hcur)).1
          omega
      rw [hu_cur, show (getN t cur).u = w from hpath.1]
      rw [ih (f + 1) D t w hinv (hws w (List.mem_cons_self w ws'))
        (fun v hv => hws v (List.mem_cons_of_mem w hv)) hpath.2
        (fun x hx => hlive x (by rw [hsplitL]; exact List.mem_append.mpr (Or.inl hx)))
        hnodupL.of_append_left (by simp at hfuel ⊢; omega)]

end DLX

namespace DLX

theorem unlink_lr_set_r {s : DState} {m : Nat} (h : (getN s m).l < s.length) :
    (getN (unlink_lr s m) ((getN s m).l)).r = (getN s m).r := by
  rw [unlink_lr_eq]
  have e1 := proj_two_modify (fun n => n.r)
    (modifyN s ((getN s m).l) fun n => { n with r := (getN s m).r })
    ((getN s m).r) ((getN s m).l) ((getN s m).l)
    (fun n => { n with l := (getN s m).l }) (fun n => n)
    (Or.inr fun n => rfl) (Or.inr fun n => rfl)
  have e2 : (getN (modifyN s ((getN s m).l) fun n => { n with r := (getN s m).r })
      ((getN s m).l)).r = (getN s m).r := by
    rw [getN_modifyN_same h]
  refine Eq.trans ?_ e2
  have := proj_modifyN_invariant (f := fun n => { n with l := (getN s m).l })
    (p := fun n => n.r) (fun n => rfl)
    (modifyN s ((getN s m).l) fun n => { n with r := (getN s m).r })
    ((getN s m).r) ((getN s m).l)
  exact this

theorem unlink_lr_set_l {s : DState} {m : Nat} (h : (getN s m).r < s.length) :
    (getN (unlink_lr s m) ((getN s m).r)).l = (getN s m).l := by
  rw [unlink_lr_eq]
  rw [getN_modifyN_same (by rw [length_modifyN]; exact h)]

/-- Neighbour facts for a horizontal doubly-linked ring. -/
theorem chain_neighbors_rl {s : DState} {h : Nat} {A B : List Nat} {m : Nat}
    (hr : pathF (fun n => n.r) s h (A ++ m :: B) h)
    (hl : pathF (fun n => n.l) s h (A ++ m :: B).reverse h) :
    (getN s m).r = B.headD h ∧ (getN s m).l = A.getLastD h ∧
    (getN s (A.getLastD h)).r = m ∧ (getN s (B.headD h)).l = m := by
  obtain ⟨hrA, hrB⟩ := pathF_append.mp hr
  have hrev : (A ++ m :: B).reverse = B.reverse ++ m :: A.reverse := by simp
  rw [hrev] at hl
  obtain ⟨hlB, hlA⟩ := pathF_append.mp hl
  refine ⟨pathF_head hrB, ?_, pathF_getLast hrA, ?_⟩
  · have h1 : (getN s m).l = A.reverse.headD h := pathF_head hlA
    rwa [headD_reverse] at h1
  · have h1 : (getN s (B.reverse.getLastD h)).l = m := pathF_getLast hlB
    rwa [getLastD_reverse] at h1

/-- An element of a duplicate-free flattened family lies in exactly one
member list. -/
theorem mem_unique_list {L : List (List Nat)} (h : L.flatten.Nodup)
    {l1 l2 : List Nat} (h1 : l1 ∈ L) (h2 : l2 ∈ L) {x : Nat}
    (hx1 : x ∈ l1) (hx2 : x ∈ l2) : l1 = l2 := by
  obtain ⟨i, hi, hEq1⟩ := List.mem_iff_getElem.mp h1
  obtain ⟨k, hk, hEq2⟩ := List.mem_iff_getElem.mp h2
  by_cases hik : i = k
  · subst hik
    rw [← hEq1, ← hEq2]
  · exfalso
    have hp := (List.nodup_flatten.mp h).2
    rcases Nat.lt_or_ge i k with hlt | hge
    · exact (List.pairwise_iff_getElem.mp hp i k hi hk hlt) (hEq1 ▸ hx1) (hEq2 ▸ hx2)
    · have hlt : k < i := Nat.lt_of_le_of_ne hge (fun hh => hik hh.symm)
      exact (List.pairwise_iff_getElem.mp hp k i hk hi hlt) (hEq2 ▸ hx2) (hEq1 ▸ hx1)

theorem nodup_flatMap_disjoint {A : List Nat} {f : Nat → List Nat}
    (hA : A.Nodup) (hE : ∀ a ∈ A, (f a).Nodup)
    (hD : ∀ a ∈ A, ∀ b ∈ A, a ≠ b → ∀ x ∈ f a, x ∉ f b) :
    (A.flatMap f).Nodup := by
  induction A with
  | nil => simp
  | cons a A ih =>
    rw [List.flatMap_cons, List.nodup_append]
    obtain ⟨haA, hAnd⟩ := List.nodup_cons.mp hA
    refine ⟨hE a (List.mem_cons_self a A), ?_, ?_⟩
    · exact ih hAnd (fun b hb => hE b (List.mem_cons_of_mem a hb))
        (fun b hb b' hb' hne => hD b (List.mem_cons_of_mem a hb)
          b' (List.mem_cons_of_mem a hb') hne)
    · intro x hx hcontra
      obtain ⟨b, hb, hxb⟩ := List.mem_flatMap.mp hcontra
      exact hD a (List.mem_cons_self a A) b (List.mem_cons_of_mem a hb)
        (fun hh => haA (hh ▸ hb)) x hx hxb

theorem rowOf_eq_of_mem {G : Ghost} (hnd : G.rows.flatten.Nodup)
    {v : Nat} {rs : List Nat} (hrs : rs ∈ G.rows) (hv : v ∈ rs) : rowOf G v = rs := by
  have hvf : v ∈ G.rows.flatten := List.mem_flatten.mpr ⟨rs, hrs, hv⟩
  obtain ⟨hmem, hvin⟩ := rowOf_mem hvf
  exact mem_unique_list hnd hmem hrs hvin hv

/-- Split of a node's row around it, with the mate list. -/
theorem matesOf_split {G : Ghost} (hnd : G.rows.flatten.Nodup)
    {v : Nat} (hv : v ∈ G.rows.flatten) :
    ∃ A B, rowOf G v = A ++ v :: B ∧ matesOf G v = B ++ A ∧
      (A ++ v :: B).Nodup := by
  obtain ⟨hmem, hvin⟩ := rowOf_mem hv
  have hrnd : (rowOf G v).Nodup :=
    (List.sublist_flatten_of_mem hmem).nodup hnd
  obtain ⟨A, B, hAB⟩ := List.append_of_mem hvin
  refine ⟨A, B, hAB, ?_, hAB ▸ hrnd⟩
  rw [matesOf, hAB]
  exact rotAfter_eq (nodup_split_not_mem (hAB ▸ hrnd)).1

end DLX

namespace DLX

theorem col_index_of_mem {G : Ghost} (hlen : G.cols.length = G.width) {x : Nat}
    (hx : x ∈ G.cols.flatten) : ∃ jx, jx < G.width ∧ x ∈ G.cols.getD jx [] := by
  obtain ⟨l, hl, hxl⟩ := List.mem_flatten.mp hx
  obtain ⟨i, hi, hEq⟩ := List.mem_iff_getElem.mp hl
  refine ⟨i, by rw [← hlen]; exact hi, ?_⟩
  rw [List.getD_eq_getElem?_getD, List.getElem?_eq_getElem hi]
  simp only [Option.getD_some]
  rw [hEq]
  exact hxl

/-- The facts the cover/uncover loop lemmas need about a column node's row
mates, all read off the well-formedness invariant. -/
theorem mates_package {s : DState} {G : Ghost} (hwf : WF s G) {j : Nat} (hj : j < G.width) :
    ∀ v ∈ G.cols.getD j [],
      pathF (fun n => n.r) s v (matesOf G v) v ∧
      pathF (fun n => n.l) s v ((matesOf G v).reverse) v ∧
      (∀ x ∈ matesOf G v, x ≠ v) ∧
      (∀ x ∈ matesOf G v, ∃ jx, jx < G.width ∧ jx ≠ j ∧ x ∈ G.cols.getD jx []) ∧
      (matesOf G v).length + 1 ≤ s.length := by
  obtain ⟨h1, h2, h3, h4, h5, h6, h7, h8, h9, h10, h11, h12, h13, h14, h15, h16,
    h17, h18, h19, h20⟩ := hwf
  intro v hv
  have hjcols : j < G.cols.length := by rw [h1]; exact hj
  have hvflat : v ∈ G.cols.flatten := mem_flatten_of_col hjcols hv
  have hvrows : v ∈ G.rows.flatten := h16 v hvflat
  obtain ⟨A, B, hAB, hmates, hnd⟩ := matesOf_split h17 hvrows
  obtain ⟨hrow_mem, hrow_v⟩ := rowOf_mem hvrows
  obtain ⟨hvA, hvB, hAnd, hBnd, hABd⟩ := nodup_split_not_mem hnd
  have hmates_mem : ∀ x ∈ matesOf G v, x ∈ rowOf G v := by
    intro x hx
    rw [hmates] at hx
    rw [hAB]
    rcases List.mem_append.mp hx with h | h
    · exact List.mem_append.mpr (Or.inr (List.mem_cons_of_mem v h))
    · exact List.mem_append.mpr (Or.inl h)
  have hmates_ne : ∀ x ∈ matesOf G v, x ≠ v := by
    intro x hx
    rw [hmates] at hx
    rcases List.mem_append.mp hx with h | h
    · exact fun hh => hvB (hh ▸ h)
    · exact fun hh => hvA (hh ▸ h)
  refine ⟨?_, ?_, hmates_ne, ?_, ?_⟩
  · have hr_ring := h13 _ hrow_mem
    rw [hAB] at hr_ring
    rw [hmates]
    exact pathF_rotate hr_ring
  · have hl_ring := h14 _ hrow_mem
    rw [hAB] at hl_ring
    rw [hmates]
    exact pathF_rotate_rev hl_ring
  · intro x hx
    have hxrow : x ∈ rowOf G v := hmates_mem x hx
    have hxflat : x ∈ G.rows.flatten := List.mem_flatten.mpr ⟨_, hrow_mem, hxrow⟩
    obtain ⟨jx, hjx, hxin⟩ := col_index_of_mem h1 (h15 x hxflat)
    refine ⟨jx, hjx, ?_, hxin⟩
    intro hjxj
    subst hjxj
    have hcx : (getN s x).c = jx + 1 := h11 jx hjx x hxin
    have hcv : (getN s v).c = jx + 1 := h11 jx hjx v hv
    have := List.inj_on_of_nodup_map (h18 _ hrow_mem) hxrow hrow_v (by rw [hcx, hcv])
    exact hmates_ne x hx this
  · have hlen_row : (rowOf G v).length ≤ s.length := by
      refine nodup_length_le (hAB ▸ hnd) ?_
      intro x hxr
      exact (h3 x (h15 x (List.mem_flatten.mpr ⟨_, hrow_mem, hxr⟩))).2
    rw [hmates]
    have : (A ++ v :: B).length = (B ++ A).length + 1 := by
      simp
      omega
    rw [hAB, this] at hlen_row
    omega

/-- Row mates of distinct live column-`j` nodes never coincide, and none is
already dead: the covered column's live rows are pairwise distinct full rows. -/
theorem mates_disjoint {s : DState} {G : Ghost} (hwf : WF s G) {j : Nat}
    (hj : j < G.width) :
    ∀ v ∈ G.cols.getD j [], ∀ v' ∈ G.cols.getD j [], v ≠ v' →
      ∀ x ∈ matesOf G v, x ∉ matesOf G v' := by
  obtain ⟨h1, h2, h3, h4, h5, h6, h7, h8, h9, h10, h11, h12, h13, h14, h15, h16,
    h17, h18, h19, h20⟩ := hwf
  intro v hv v' hv' hne x hx hx'
  have hjcols : j < G.cols.length := by rw [h1]; exact hj
  have hvrows : v ∈ G.rows.flatten := h16 v (mem_flatten_of_col hjcols hv)
  have hv'rows : v' ∈ G.rows.flatten := h16 v' (mem_flatten_of_col hjcols hv')
  obtain ⟨A, B, hAB, hmates, hnd⟩ := matesOf_split h17 hvrows
  obtain ⟨A', B', hAB', hmates', hnd'⟩ := matesOf_split h17 hv'rows
  obtain ⟨hrow_mem, hrow_v⟩ := rowOf_mem hvrows
  obtain ⟨hrow_mem', hrow_v'⟩ := rowOf_mem hv'rows
  have hxrow : x ∈ rowOf G v := by
    rw [hmates] at hx
    rw [hAB]
    rcases List.mem_append.mp hx with h | h
    · exact List.mem_append.mpr (Or.inr (List.mem_cons_of_mem v h))
    · exact List.mem_append.mpr (Or.inl h)
  have hxrow' : x ∈ rowOf G v' := by
    rw [hmates'] at hx'
    rw [hAB']
    rcases List.mem_append.mp hx' with h | h
    · exact List.mem_append.mpr (Or.inr (List.mem_cons_of_mem v' h))
    · exact List.mem_append.mpr (Or.inl h)
  have hroweq : rowOf G v = rowOf G v' :=
    mem_unique_list h17 hrow_mem hrow_mem' hxrow hxrow'
  have hv'in : v' ∈ rowOf G v := hroweq ▸ hrow_v'
  have hcv : (getN s v).c = j + 1 := h11 j hj v hv
  have hcv' : (getN s v').c = j + 1 := h11 j hj v' hv'
  exact hne (List.inj_on_of_nodup_map (h18 _ hrow_mem) hrow_v hv'in
    (by rw [hcv, hcv']))

end DLX

namespace DLX

theorem not_dead_of_live {G : Ghost} {j v : Nat} (hv : v ∈ liveCol G j) :
    v ∈ G.cols.getD j [] ∧ v ∉ G.dead := by
  obtain ⟨h1, h2⟩ := List.mem_filter.mp hv
  refine ⟨h1, ?_⟩
  simpa using h2

/-- A live node of an active column sits in an all-live row, so none of its
mates is dead (this is where the row invariant earns its keep). -/
theorem mates_not_dead {s : DState} {G : Ghost} (hwf : WF s G) {j : Nat}
    (hj : j < G.width) (hact : (j + 1) ∈ G.act) :
    ∀ v ∈ liveCol G j, ∀ x ∈ matesOf G v, x ∉ G.dead := by
  obtain ⟨h1, h2, h3, h4, h5, h6, h7, h8, h9, h10, h11, h12, h13, h14, h15, h16,
    h17, h18, h19, h20⟩ := hwf
  intro v hvlive x hx
  obtain ⟨hv, hvnd⟩ := not_dead_of_live hvlive
  have hjcols : j < G.cols.length := by rw [h1]; exact hj
  have hvrows : v ∈ G.rows.flatten := h16 v (mem_flatten_of_col hjcols hv)
  obtain ⟨A, B, hAB, hmates, hnd⟩ := matesOf_split h17 hvrows
  obtain ⟨hrow_mem, hrow_v⟩ := rowOf_mem hvrows
  have hxrow : x ∈ rowOf G v := by
    rw [hmates] at hx
    rw [hAB]
    rcases List.mem_append.mp hx with h | h
    · exact List.mem_append.mpr (Or.inr (List.mem_cons_of_mem v h))
    · exact List.mem_append.mpr (Or.inl h)
  rcases h20 _ hrow_mem with hall | ⟨n, hn, hnnd, hcn, hothers⟩
  · exact hall x hxrow
  · by_cases hvn : v = n
    · subst hvn
      exact absurd (h11 j hj v hv ▸ hact) hcn
    · exact absurd (hothers v hrow_v hvn) hvnd

/-- The combined removal list of a cover of active header `j + 1`. -/
theorem removedBy_conditions {s : DState} {G : Ghost} (hwf : WF s G) {j : Nat}
    (hj : j < G.width) (hact : (j + 1) ∈ G.act) :
    ((liveCol G j).flatMap (matesOf G)).Nodup ∧
    (∀ x ∈ (liveCol G j).flatMap (matesOf G),
      ∃ jx, jx < G.width ∧ jx ≠ j ∧ x ∈ G.cols.getD jx []) ∧
    (∀ x ∈ (liveCol G j).flatMap (matesOf G), x ∉ G.dead) := by
  have h1 := hwf.1
  have h4 := hwf.2.2.2.1
  have hjcols : j < G.cols.length := by rw [h1]; exact hj
  have hlive_nd : (liveCol G j).Nodup := (col_nodup h4 hjcols).filter _
  have hsub : ∀ v ∈ liveCol G j, v ∈ G.cols.getD j [] :=
    fun v hv => (not_dead_of_live hv).1
  have hpkg := mates_package hwf hj
  refine ⟨?_, ?_, ?_⟩
  · refine nodup_flatMap_disjoint hlive_nd ?_ ?_
    · intro v hv
      have hp := (hpkg v (hsub v hv)).1
      -- mates are nodup as part of a nodup row
      have h17 := hwf.2.2.2.2.2.2.2.2.2.2.2.2.2.2.2.2.1
      have h16 := hwf.2.2.2.2.2.2.2.2.2.2.2.2.2.2.2.1
      have hvrows : v ∈ G.rows.flatten :=
        h16 v (mem_flatten_of_col hjcols (hsub v hv))
      obtain ⟨A, B, hAB, hmates, hnd⟩ := matesOf_split h17 hvrows
      rw [hmates]
      obtain ⟨hvA, hvB, hAnd, hBnd, hABd⟩ := nodup_split_not_mem hnd
      rw [List.nodup_append]
      exact ⟨hBnd, hAnd, fun x hxB hxA => hABd x hxA (List.mem_cons_of_mem v hxB)⟩
    · intro v hv v' hv' hne
      exact mates_disjoint hwf hj v (hsub v hv) v' (hsub v' hv') hne
  · intro x hx
    obtain ⟨v, hv, hxv⟩ := List.mem_flatMap.mp hx
    exact (hpkg v (hsub v hv)).2.2.2.1 x hxv
  · intro x hx
    obtain ⟨v, hv, hxv⟩ := List.mem_flatMap.mp hx
    exact mates_not_dead hwf hj hact v hv x hxv

/-- Ring neighbours of an active header in the header row. -/
theorem act_neighbors {s : DState} {G : Ghost} (hwf : WF s G) {c : Nat}
    (hc : c ∈ G.act) :
    ∃ Aa Ba, G.act = Aa ++ c :: Ba ∧ (Aa ++ c :: Ba).Nodup ∧
      (getN s c).r = Ba.headD 0 ∧ (getN s c).l = Aa.getLastD 0 ∧
      (getN s (Aa.getLastD 0)).r = c ∧ (getN s (Ba.headD 0)).l = c := by
  have h6 := hwf.2.2.2.2.2.1
  have h7 := hwf.2.2.2.2.2.2.1
  have h8 := hwf.2.2.2.2.2.2.2.1
  obtain ⟨Aa, Ba, hsplit⟩ := List.append_of_mem hc
  rw [hsplit] at h7 h8
  obtain ⟨hr, hl, hPr, hNl⟩ := chain_neighbors_rl h7 h8
  exact ⟨Aa, Ba, hsplit, hsplit ▸ h6, hr, hl, hPr, hNl⟩

end DLX

namespace DLX

/-- Right after the header is horizontally unlinked, the loop invariant
holds with nothing removed yet. -/
theorem Inv_base {s : DState} {G : Ghost} (hwf : WF s G) (c : Nat) :
    Inv (unlink_lr s c) G [] (unlink_lr s c) := by
  have h9 := hwf.2.2.2.2.2.2.2.2.1
  have h10 := hwf.2.2.2.2.2.2.2.2.2.1
  refine ⟨rfl, fun v => ⟨rfl, rfl, rfl⟩, ?_, ?_⟩
  · intro j' hj'
    rw [List.append_nil]
    exact pathF_congr (fun v _ => (unlink_lr_frame s c v).2.1) (h9 j' hj')
  · intro j' hj'
    rw [List.append_nil]
    exact pathF_congr (fun v _ => (unlink_lr_frame s c v).1) (h10 j' hj')

/-- Unlinking an active header does not move the horizontal links of any
data node (the write targets are headers or the root). -/
theorem unlink_preserves_rl_high {s : DState} {G : Ghost} (hwf : WF s G) {c : Nat}
    (hc : c ∈ G.act) : ∀ v, G.width < v →
      (getN (unlink_lr s c) v).r = (getN s v).r ∧
      (getN (unlink_lr s c) v).l = (getN s v).l := by
  have h5 := hwf.2.2.2.2.1
  obtain ⟨Aa, Ba, hsplit, hnd, hr, hl, hPr, hNl⟩ := act_neighbors hwf hc
  intro v hv
  constructor
  · refine (unlink_lr_frame s c v).2.2.2.2.1 ?_
    rw [hl]
    rcases getLastD_mem_or Aa 0 with h | h
    · have : Aa.getLastD 0 ∈ G.act := by
        rw [hsplit]; exact List.mem_append.mpr (Or.inl h)
      have := (h5 _ this).2
      omega
    · rw [h]; omega
  · refine (unlink_lr_frame s c v).2.2.2.2.2 ?_
    rw [hr]
    rcases headD_mem_or Ba 0 with h | h
    · have : Ba.headD 0 ∈ G.act := by
        rw [hsplit]
        exact List.mem_append.mpr (Or.inr (List.mem_cons_of_mem c h))
      have := (h5 _ this).2
      omega
    · rw [h]; omega

/-- `Node::cover` of an active header: the loops visit exactly the covered
column's live nodes and their mates, so the call returns the fold of
`coverStep` over `removedBy`. -/
theorem cover_spec_core {s : DState} {G : Ghost} {j : Nat} (hwf : WF s G)
    (hj : j < G.width) (hact : (j + 1) ∈ G.act) :
    cover s (j + 1) =
      some (List.foldl coverStep (unlink_lr s (j + 1)) (removedBy G (j + 1))) := by
  have h1 := hwf.1
  have h2 := hwf.2.1
  have h3 := hwf.2.2.1
  have h4 := hwf.2.2.2.1
  have h9 := hwf.2.2.2.2.2.2.2.2.1
  have hjcols : j < G.cols.length := by rw [h1]; exact hj
  have hlen0 : (unlink_lr s (j + 1)).length = s.length := length_unlink_lr s (j + 1)
  have hbound0 : ∀ x ∈ G.cols.flatten, G.width < x ∧ x < (unlink_lr s (j + 1)).length := by
    rw [hlen0]; exact h3
  have hwidth0 : G.width < (unlink_lr s (j + 1)).length := by rw [hlen0]; exact h2
  have hInv0 : Inv (unlink_lr s (j + 1)) G [] (unlink_lr s (j + 1)) := Inv_base hwf (j + 1)
  have hhigh := unlink_preserves_rl_high hwf hact
  have hpkg := mates_package hwf hj
  have hM0 : ∀ v ∈ G.cols.getD j [],
      pathF (fun n => n.r) (unlink_lr s (j + 1)) v (matesOf G v) v ∧
      (∀ x ∈ matesOf G v, x ≠ v) ∧
      (∀ x ∈ matesOf G v, ∃ jx, jx < G.width ∧ jx ≠ j ∧ x ∈ G.cols.getD jx []) ∧
      (matesOf G v).length + 1 ≤ (unlink_lr s (j + 1)).length := by
    intro v hv
    obtain ⟨hr, hlp, hne, hcols', hlenm⟩ := hpkg v hv
    refine ⟨?_, hne, hcols', by rw [hlen0]; exact hlenm⟩
    refine pathF_congr ?_ hr
    intro x hx
    refine (hhigh x ?_).1
    rcases hx with rfl | hm
    · exact (h3 x (mem_flatten_of_col hjcols hv)).1
    · obtain ⟨jx, hjx, _, hxin⟩ := hcols' x hm
      exact (h3 x (mem_flatten_of_col (by rw [h1]; exact hjx) hxin)).1
  have hrB : removedBy G (j + 1) = (liveCol G j).flatMap (matesOf G) := by
    simp [removedBy]
  have hRL := removedBy_conditions hwf hj hact
  have hd0 : (getN (unlink_lr s (j + 1)) (j + 1)).d = (getN s (j + 1)).d :=
    (unlink_lr_frame s (j + 1) (j + 1)).2.1
  have hpath0 : pathF (fun n => n.d) (unlink_lr s (j + 1)) (j + 1) (liveCol G j) (j + 1) :=
    pathF_congr (fun v _ => (unlink_lr_frame s (j + 1) v).2.1) (h9 j hj)
  have hlive_nd : (liveCol G j).Nodup := (col_nodup h4 hjcols).filter _
  have hlive_len : (liveCol G j).length ≤ s.length := by
    refine nodup_length_le hlive_nd ?_
    intro x hx
    exact (h3 x (mem_flatten_of_col hjcols (not_dead_of_live hx).1)).2
  show coverCol ((unlink_lr s (j + 1)).length + 1) (unlink_lr s (j + 1)) (j + 1)
    ((getN (unlink_lr s (j + 1)) (j + 1)).d) = _
  cases hF : liveCol G j with
  | nil =>
    have hstop : (getN (unlink_lr s (j + 1)) (j + 1)).d = j + 1 := by
      rw [hd0]
      have h := h9 j hj
      rw [hF] at h
      exact h
    rw [hstop]
    rw [show coverCol ((unlink_lr s (j + 1)).length + 1) (unlink_lr s (j + 1)) (j + 1)
        (j + 1) =
      if j + 1 = j + 1 then some (unlink_lr s (j + 1)) else
      ((coverRow ((unlink_lr s (j + 1)).length + 1) (unlink_lr s (j + 1)) (j + 1)
        ((getN (unlink_lr s (j + 1)) (j + 1)).r)).bind fun s1 =>
        coverCol (unlink_lr s (j + 1)).length s1 (j + 1) ((getN s1 (j + 1)).d)) from rfl,
      if_pos rfl]
    rw [hrB, hF]
    rfl
  | cons v1 vs =>
    have hmemF : ∀ v ∈ liveCol G j, v ∈ G.cols.getD j [] :=
      fun v hv => (not_dead_of_live hv).1
    have hstart : (getN (unlink_lr s (j + 1)) (j + 1)).d = v1 := by
      rw [hd0]
      have h := h9 j hj
      rw [hF] at h
      exact h.1
    have hpath0' : pathF (fun n => n.d) (unlink_lr s (j + 1)) v1 vs (j + 1) := by
      have h := hpath0
      rw [hF] at h
      exact h.2
    rw [hstart]
    rw [coverCol_fold_aux h1 h4 hwidth0 hbound0 hj hM0 vs
      ((unlink_lr s (j + 1)).length + 1) [] (unlink_lr s (j + 1)) v1 hInv0
      (hmemF v1 (by rw [hF]; exact List.mem_cons_self v1 vs))
      (fun v hv => hmemF v (by rw [hF]; exact List.mem_cons_of_mem v1 hv))
      hpath0'
      (by
        intro x hx
        rw [contains_false_iff]
        simp only [List.append_nil]
        exact hRL.2.2 x (by rw [hF]; exact hx))
      (by
        have := hRL.1
        rw [hF] at this
        exact this)
      (by
        have : vs.length + 1 ≤ s.length := by
          have := hlive_len
          rw [hF] at this
          simpa using this
        rw [hlen0]
        omega)]
    rw [hrB, hF]

end DLX

namespace DLX

/-- Invariant and full cancellation for the covered state. -/
theorem covered_state_facts {s : DState} {G : Ghost} {j : Nat} (hwf : WF s G)
    (hj : j < G.width) (hact : (j + 1) ∈ G.act) :
    Inv (unlink_lr s (j + 1)) G ([] ++ removedBy G (j + 1))
      (List.foldl coverStep (unlink_lr s (j + 1)) (removedBy G (j + 1))) ∧
    List.foldl uncoverStep
      (List.foldl coverStep (unlink_lr s (j + 1)) (removedBy G (j + 1)))
      (removedBy G (j + 1)).reverse = unlink_lr s (j + 1) := by
  have h1 := hwf.1
  have h2 := hwf.2.1
  have h3 := hwf.2.2.1
  have h4 := hwf.2.2.2.1
  have hlen0 : (unlink_lr s (j + 1)).length = s.length := length_unlink_lr s (j + 1)
  have hrB : removedBy G (j + 1) = (liveCol G j).flatMap (matesOf G) := by
    simp [removedBy]
  have hRL := removedBy_conditions hwf hj hact
  have hfold := coverSteps_fold h1 h4 (by rw [hlen0]; exact h2)
    (by rw [hlen0]; exact h3) (removedBy G (j + 1)) [] (unlink_lr s (j + 1))
    (Inv_base hwf (j + 1))
    (by rw [hrB]; exact hRL.1)
    (by
      rw [hrB]
      exact fun x hx => (hRL.2.1 x hx).elim fun jx hjx => ⟨jx, hjx.1, hjx.2.2⟩)
    (by
      rw [hrB]
      intro x hx
      rw [contains_false_iff]
      simp only [List.append_nil]
      exact hRL.2.2 x hx)
  exact ⟨hfold.1, hfold.2.1⟩

/-- Nodes of the covered column keep their vertical links through the whole
cover (their rings are never spliced). -/
theorem covered_col_frame {s : DState} {G : Ghost} {j : Nat} (hwf : WF s G)
    (hj : j < G.width) (hact : (j + 1) ∈ G.act) :
    ∀ v, (v ∈ G.cols.getD j [] ∨ v = j + 1) →
      (getN (List.foldl coverStep (unlink_lr s (j + 1)) (removedBy G (j + 1))) v).d =
        (getN (unlink_lr s (j + 1)) v).d ∧
      (getN (List.foldl coverStep (unlink_lr s (j + 1)) (removedBy G (j + 1))) v).u =
        (getN (unlink_lr s (j + 1)) v).u := by
  have h1 := hwf.1
  have h2 := hwf.2.1
  have h3 := hwf.2.2.1
  have h4 := hwf.2.2.2.1
  have hjcols : j < G.cols.length := by rw [h1]; exact hj
  have hlen0 : (unlink_lr s (j + 1)).length = s.length := length_unlink_lr s (j + 1)
  have hrB : removedBy G (j + 1) = (liveCol G j).flatMap (matesOf G) := by
    simp [removedBy]
  have hRL := removedBy_conditions hwf hj hact
  have hfold := coverSteps_fold h1 h4 (by rw [hlen0]; exact h2)
    (by rw [hlen0]; exact h3) (removedBy G (j + 1)) [] (unlink_lr s (j + 1))
    (Inv_base hwf (j + 1))
    (by rw [hrB]; exact hRL.1)
    (by
      rw [hrB]
      exact fun x hx => (hRL.2.1 x hx).elim fun jx hjx => ⟨jx, hjx.1, hjx.2.2⟩)
    (by
      rw [hrB]
      intro x hx
      rw [contains_false_iff]
      simp only [List.append_nil]
      exact hRL.2.2 x hx)
  intro v hv
  refine hfold.2.2 v ?_
  intro x hx jx hjx hxin
  obtain ⟨jx', hjx', hne', hxin'⟩ := hRL.2.1 x (by rw [← hrB]; exact hx)
  have : jx = jx' := col_unique h4 (by rw [h1]; exact hjx)
    (by rw [h1]; exact hjx') hxin hxin'
  subst this
  constructor
  · rcases hv with hv | rfl
    · exact fun hc => cols_disjoint h4 hne' (by rw [h1]; exact hjx) hjcols v hc hv
    · intro hc
      have := (h3 _ (mem_flatten_of_col (by rw [h1]; exact hjx) hc)).1
      omega
  · rcases hv with hv | rfl
    · have := (h3 v (mem_flatten_of_col hjcols hv)).1
      omega
    · omega
end DLX

namespace DLX

/-- Relinking an active header right after unlinking it restores the state. -/
theorem header_relink {s : DState} {G : Ghost} {c : Nat} (hwf : WF s G)
    (hc : c ∈ G.act) : link_lr (unlink_lr s c) c = s := by
  obtain ⟨Aa, Ba, hsplit, hnd, hr, hl, hPr, hNl⟩ := act_neighbors hwf hc
  have h5 := hwf.2.2.2.2.1
  obtain ⟨hcAa, hcBa, _, _, _⟩ := nodup_split_not_mem hnd
  apply link_lr_unlink_lr_cancel
  · rw [hl]
    rcases getLastD_mem_or Aa 0 with h | h
    · exact fun hh => hcAa (hh ▸ h)
    · rw [h]; have := (h5 c hc).1; omega
  · rw [hr]
    rcases headD_mem_or Ba 0 with h | h
    · exact fun hh => hcBa (hh ▸ h)
    · rw [h]; have := (h5 c hc).1; omega
  · rw [hl]; exact hPr
  · rw [hr]; exact hNl

/-- `Node::uncover` of the state `cover` produced returns the original
arena: the up-walk revisits the covered column's nodes in reverse order and
relinks every mate. -/
theorem uncover_spec_core {s : DState} {G : Ghost} {j : Nat} (hwf : WF s G)
    (hj : j < G.width) (hact : (j + 1) ∈ G.act) :
    uncover (List.foldl coverStep (unlink_lr s (j + 1)) (removedBy G (j + 1)))
      (j + 1) = some s := by
  have h1 := hwf.1
  have h2 := hwf.2.1
  have h3 := hwf.2.2.1
  have h4 := hwf.2.2.2.1
  have hjcols : j < G.cols.length := by rw [h1]; exact hj
  have hlen0 : (unlink_lr s (j + 1)).length = s.length := length_unlink_lr s (j + 1)
  have hrB : removedBy G (j + 1) = (liveCol G j).flatMap (matesOf G) := by
    simp [removedBy]
  have hRL := removedBy_conditions hwf hj hact
  have hInv0 : Inv (unlink_lr s (j + 1)) G [] (unlink_lr s (j + 1)) := Inv_base hwf (j + 1)
  have hhigh := unlink_preserves_rl_high hwf hact
  have hpkg := mates_package hwf hj
  have hM0 : ∀ v ∈ G.cols.getD j [],
      pathF (fun n => n.l) (unlink_lr s (j + 1)) v ((matesOf G v).reverse) v ∧
      (∀ x ∈ matesOf G v, x ≠ v) ∧
      (∀ x ∈ matesOf G v, ∃ jx, jx < G.width ∧ jx ≠ j ∧ x ∈ G.cols.getD jx []) ∧
      (matesOf G v).length + 1 ≤ (unlink_lr s (j + 1)).length := by
    intro v hv
    obtain ⟨hr, hlp, hne, hcols', hlenm⟩ := hpkg v hv
    refine ⟨?_, hne, hcols', by rw [hlen0]; exact hlenm⟩
    refine pathF_congr ?_ hlp
    intro x hx
    refine (hhigh x ?_).2
    rcases hx with rfl | hm
    · exact (h3 x (mem_flatten_of_col hjcols hv)).1
    · rw [List.mem_reverse] at hm
      obtain ⟨jx, hjx, _, hxin⟩ := hcols' x hm
      exact (h3 x (mem_flatten_of_col (by rw [h1]; exact hjx) hxin)).1
  have hXlen : (List.foldl coverStep (unlink_lr s (j + 1))
      (removedBy G (j + 1))).length = s.length := by
    rw [length_foldl_coverStep, hlen0]
  have hcolf := covered_col_frame hwf hj hact
  -- the up-path of the covered column survives the cover untouched
  have hupathX : pathF (fun n => n.u)
      (List.foldl coverStep (unlink_lr s (j + 1)) (removedBy G (j + 1))) (j + 1)
      (liveCol G j).reverse (j + 1) := by
    have hbase := hInv0.2.2.2 j hj
    rw [List.append_nil] at hbase
    refine pathF_congr ?_ hbase
    intro v hv
    refine (hcolf v ?_).2
    rcases hv with rfl | hm
    · exact Or.inr rfl
    · rw [List.mem_reverse] at hm
      exact Or.inl (not_dead_of_live hm).1
  have hsr0 : (getN (unlink_lr s (j + 1)) (j + 1)).r ≤ G.width := by
    obtain ⟨Aa, Ba, hsplit, hnd, hr, hl, hPr, hNl⟩ := act_neighbors hwf hact
    obtain ⟨hcAa, hcBa, _, _, _⟩ := nodup_split_not_mem hnd
    have h5 := hwf.2.2.2.2.1
    have hne_l : (j + 1) ≠ (getN s (j + 1)).l := by
      rw [hl]
      rcases getLastD_mem_or Aa 0 with h | h
      · exact fun hh => hcAa (hh ▸ h)
      · rw [h]; omega
    rw [(unlink_lr_frame s (j + 1) (j + 1)).2.2.2.2.1 hne_l, hr]
    rcases headD_mem_or Ba 0 with h | h
    · have : Ba.headD 0 ∈ G.act := by
        rw [hsplit]
        exact List.mem_append.mpr (Or.inr (List.mem_cons_of_mem _ h))
      exact (h5 _ this).2
    · rw [h]; omega
  show uncoverCol
    ((link_lr (List.foldl coverStep (unlink_lr s (j + 1)) (removedBy G (j + 1)))
      (j + 1)).length + 1)
    (link_lr (List.foldl coverStep (unlink_lr s (j + 1)) (removedBy G (j + 1))) (j + 1))
    (j + 1)
    ((getN (link_lr (List.foldl coverStep (unlink_lr s (j + 1)) (removedBy G (j + 1)))
      (j + 1)) (j + 1)).u) = some s
  rw [(link_lr_frame _ (j + 1) (j + 1)).1]
  cases hFR : (liveCol G j).reverse with
  | nil =>
    have hF : liveCol G j = [] := by
      have := congrArg List.reverse hFR
      simpa using this
    have hstop : (getN (List.foldl coverStep (unlink_lr s (j + 1))
        (removedBy G (j + 1))) (j + 1)).u = j + 1 := by
      have h := hupathX
      rw [hFR] at h
      exact h
    rw [hstop]
    have hX : List.foldl coverStep (unlink_lr s (j + 1)) (removedBy G (j + 1)) =
        unlink_lr s (j + 1) := by
      rw [hrB, hF]
      rfl
    rw [show uncoverCol
        ((link_lr (List.foldl coverStep (unlink_lr s (j + 1)) (removedBy G (j + 1)))
          (j + 1)).length + 1)
        (link_lr (List.foldl coverStep (unlink_lr s (j + 1)) (removedBy G (j + 1)))
          (j + 1)) (j + 1) (j + 1) =
      if j + 1 = j + 1 then
        some (link_lr (List.foldl coverStep (unlink_lr s (j + 1))
          (removedBy G (j + 1))) (j + 1)) else
      (uncoverRow ((link_lr (List.foldl coverStep (unlink_lr s (j + 1))
          (removedBy G (j + 1))) (j + 1)).length + 1)
        (link_lr (List.foldl coverStep (unlink_lr s (j + 1)) (removedBy G (j + 1)))
          (j + 1)) (j + 1)
        ((getN (link_lr (List.foldl coverStep (unlink_lr s (j + 1))
          (removedBy G (j + 1))) (j + 1)) (j + 1)).l)).bind fun s1 =>
        uncoverCol (link_lr (List.foldl coverStep (unlink_lr s (j + 1))
          (removedBy G (j + 1))) (j + 1)).length s1 (j + 1) ((getN s1 (j + 1)).u)
      from rfl, if_pos rfl]
    rw [hX, header_relink hwf hact]
  | cons cur ws =>
    have hcurws : liveCol G j = (cur :: ws).reverse := by
      have := congrArg List.reverse hFR
      simpa using this
    have hmemF : ∀ v ∈ liveCol G j, v ∈ G.cols.getD j [] :=
      fun v hv => (not_dead_of_live hv).1
    have hcur_mem : cur ∈ liveCol G j := by
      rw [hcurws]
      rw [List.mem_reverse]
      exact List.mem_cons_self cur ws
    have hws_mem : ∀ v ∈ ws, v ∈ liveCol G j := by
      intro v hv
      rw [hcurws, List.mem_reverse]
      exact List.mem_cons_of_mem cur hv
    have hstart : (getN (List.foldl coverStep (unlink_lr s (j + 1))
        (removedBy G (j + 1))) (j + 1)).u = cur := by
      have h := hupathX
      rw [hFR] at h
      exact h.1
    have hpathu : pathF (fun n => n.u) (unlink_lr s (j + 1)) cur ws (j + 1) := by
      have hbase := hInv0.2.2.2 j hj
      rw [List.append_nil] at hbase
      have h : pathF (fun n => n.u) (unlink_lr s (j + 1)) (j + 1)
          (liveCol G j).reverse (j + 1) := hbase
      rw [hFR] at h
      exact h.2
    have hLL : ((cur :: ws).reverse).flatMap (matesOf G) = removedBy G (j + 1) := by
      rw [hrB, hcurws]
    rw [hstart]
    have haux := uncoverCol_fold_aux h1 h4 (by rw [hlen0]; exact h2)
      (by rw [hlen0]; exact h3) hj hsr0 hM0 ws
      ((link_lr (List.foldl coverStep (unlink_lr s (j + 1)) (removedBy G (j + 1)))
        (j + 1)).length + 1) [] (unlink_lr s (j + 1)) cur hInv0
      (hmemF cur hcur_mem) (fun v hv => hmemF v (hws_mem v hv)) hpathu
      (by
        intro x hx
        rw [contains_false_iff]
        simp only [List.append_nil]
        exact hRL.2.2 x (by rw [← hrB, ← hLL]; exact hx))
      (by rw [hLL, hrB]; exact hRL.1)
      (by
        rw [length_link_lr, hXlen]
        have hlive_nd : (liveCol G j).Nodup := (col_nodup h4 hjcols).filter _
        have hlive_len : (liveCol G j).length ≤ s.length := by
          refine nodup_length_le hlive_nd ?_
          intro x hx
          exact (h3 x (mem_flatten_of_col hjcols (not_dead_of_live hx).1)).2
        rw [hcurws] at hlive_len
        simp at hlive_len
        omega)
    rw [hLL] at haux
    rw [haux, header_relink hwf hact]

end DLX

namespace DLX

theorem mate_mem_row {G : Ghost} (h17 : G.rows.flatten.Nodup) {v x : Nat}
    (hv : v ∈ G.rows.flatten) (hx : x ∈ matesOf G v) :
    x ∈ rowOf G v ∧ x ≠ v := by
  obtain ⟨A, B, hAB, hmates, hnd⟩ := matesOf_split h17 hv
  obtain ⟨hvA, hvB, _, _, _⟩ := nodup_split_not_mem hnd
  rw [hmates] at hx
  constructor
  · rw [hAB]
    rcases List.mem_append.mp hx with h | h
    · exact List.mem_append.mpr (Or.inr (List.mem_cons_of_mem v h))
    · exact List.mem_append.mpr (Or.inl h)
  · rcases List.mem_append.mp hx with h | h
    · exact fun hh => hvB (hh ▸ h)
    · exact fun hh => hvA (hh ▸ h)

theorem row_mem_mates {G : Ghost} (h17 : G.rows.flatten.Nodup) {v m : Nat}
    (hv : v ∈ G.rows.flatten) (hm : m ∈ rowOf G v) (hne : m ≠ v) :
    m ∈ matesOf G v := by
  obtain ⟨A, B, hAB, hmates, hnd⟩ := matesOf_split h17 hv
  rw [hmates]
  rw [hAB] at hm
  rcases List.mem_append.mp hm with h | h
  · exact List.mem_append.mpr (Or.inr h)
  · rcases List.mem_cons.mp h with h' | h'
    · exact absurd h' hne
    · exact List.mem_append.mpr (Or.inl h')

end DLX

namespace DLX

/-- Covering an active header preserves well-formedness with the ghost
updated: the header leaves the active row and the unlinked mates join the
removed set. -/
theorem cover_preserves_WF {s : DState} {G : Ghost} {j : Nat} (hwf : WF s G)
    (hj : j < G.width) (hact : (j + 1) ∈ G.act) :
    WF (List.foldl coverStep (unlink_lr s (j + 1)) (removedBy G (j + 1)))
      (coverGhost G (j + 1)) := by
  obtain ⟨h1, h2, h3, h4, h5, h6, h7, h8, h9, h10, h11, h12, h13, h14, h15, h16,
    h17, h18, h19, h20⟩ := hwf
  have hwf' : WF s G := ⟨h1, h2, h3, h4, h5, h6, h7, h8, h9, h10, h11, h12, h13, h14,
    h15, h16, h17, h18, h19, h20⟩
  have hjcols : j < G.cols.length := by rw [h1]; exact hj
  have hlen0 : (unlink_lr s (j + 1)).length = s.length := length_unlink_lr s (j + 1)
  have hrB : removedBy G (j + 1) = (liveCol G j).flatMap (matesOf G) := by
    simp [removedBy]
  have hRL := removedBy_conditions hwf' hj hact
  have hInvX := (covered_state_facts hwf' hj hact).1
  rw [List.nil_append] at hInvX
  obtain ⟨hXlen0, hXframe, hXd, hXu⟩ := hInvX
  have hXlen : (List.foldl coverStep (unlink_lr s (j + 1))
      (removedBy G (j + 1))).length = s.length := by rw [hXlen0, hlen0]
  have hhigh := unlink_preserves_rl_high hwf' hact
  have hcX : ∀ v, (getN (List.foldl coverStep (unlink_lr s (j + 1))
      (removedBy G (j + 1))) v).c = (getN s v).c := by
    intro v
    rw [(hXframe v).2.2, (unlink_lr_frame s (j + 1) v).2.2.1]
  have hrX : ∀ v, G.width < v →
      (getN (List.foldl coverStep (unlink_lr s (j + 1)) (removedBy G (j + 1))) v).r =
        (getN s v).r := by
    intro v hv
    rw [(hXframe v).1, (hhigh v hv).1]
  have hlX : ∀ v, G.width < v →
      (getN (List.foldl coverStep (unlink_lr s (j + 1)) (removedBy G (j + 1))) v).l =
        (getN s v).l := by
    intro v hv
    rw [(hXframe v).2.1, (hhigh v hv).2]
  have hrow_high : ∀ rs ∈ G.rows, ∀ v, (v = rs.headD 0 ∨ v ∈ rs.tail) → G.width < v := by
    intro rs hrs v hv
    have hne := h12 rs hrs
    have hvrs : v ∈ rs := by
      cases rs with
      | nil => exact absurd rfl hne
      | cons a l =>
        rcases hv with rfl | hm
        · simp
        · exact List.mem_cons_of_mem a hm
    have : v ∈ G.cols.flatten := h15 v (List.mem_flatten.mpr ⟨rs, hrs, hvrs⟩)
    exact (h3 v this).1
  have hRBflat : ∀ x ∈ removedBy G (j + 1), x ∈ G.cols.flatten := by
    intro x hx
    obtain ⟨jx, hjx, _, hxin⟩ := hRL.2.1 x (by rw [← hrB]; exact hx)
    exact mem_flatten_of_col (by rw [h1]; exact hjx) hxin
  have hRBmate : ∀ x ∈ removedBy G (j + 1),
      ∃ v', v' ∈ liveCol G j ∧ x ∈ matesOf G v' := by
    intro x hx
    rw [hrB] at hx
    exact List.mem_flatMap.mp hx
  obtain ⟨Aa, Ba, hsplit, handp, har, hal, haPr, haNl⟩ := act_neighbors hwf' hact
  obtain ⟨hcAa, hcBa, hAand, hBand, hABad⟩ := nodup_split_not_mem handp
  have herase : G.act.erase (j + 1) = Aa ++ Ba := by
    rw [hsplit, List.erase_append_right _ hcAa, List.erase_cons_head]
  have hl_lt : (getN s (j + 1)).l < s.length := by
    rw [hal]
    rcases getLastD_mem_or Aa 0 with h | h
    · have : Aa.getLastD 0 ∈ G.act := by
        rw [hsplit]; exact List.mem_append.mpr (Or.inl h)
      have := (h5 _ this).2
      omega
    · rw [h]; omega
  have hr_lt : (getN s (j + 1)).r < s.length := by
    rw [har]
    rcases headD_mem_or Ba 0 with h | h
    · have : Ba.headD 0 ∈ G.act := by
        rw [hsplit]
        exact List.mem_append.mpr (Or.inr (List.mem_cons_of_mem _ h))
      have := (h5 _ this).2
      omega
    · rw [h]; omega
  refine ⟨h1, ?_, ?_, h4, ?_, h6.erase _, ?_, ?_, ?_, ?_, ?_, h12, ?_, ?_, h15, h16,
    h17, ?_, ?_, ?_⟩
  · rw [hXlen]; exact h2
  · intro m hm
    have := h3 m hm
    rw [hXlen]
    exact this
  · intro a ha
    exact h5 a (List.mem_of_mem_erase ha)
  · -- active r-ring
    show pathF (fun n => n.r) _ 0 (G.act.erase (j + 1)) 0
    rw [herase]
    refine pathF_congr (fun v _ => (hXframe v).1) ?_
    rw [hsplit] at h7
    refine pathF_surgery (pathF_append.mp h7).1 (pathF_append.mp h7).2 ?_ ?_ ?_ hAand ?_
    · intro v hv hvq
      refine (unlink_lr_frame s (j + 1) v).2.2.2.2.1 ?_
      rw [hal]; exact hvq
    · rw [← hal, unlink_lr_set_r hl_lt, har]
    · intro hcontra
      have := (h5 0 (by rw [hsplit]; exact List.mem_append.mpr (Or.inl hcontra))).1
      omega
    · intro x hx
      rcases getLastD_mem_or Aa 0 with h | h
      · exact fun hh => hABad x (by rw [hh]; exact h) (List.mem_cons_of_mem _ hx)
      · intro hh
        have := (h5 x (by
          rw [hsplit]
          exact List.mem_append.mpr (Or.inr (List.mem_cons_of_mem _ hx)))).1
        rw [h] at hh
        omega
  · -- active l-ring
    show pathF (fun n => n.l) _ 0 (G.act.erase (j + 1)).reverse 0
    rw [herase, show (Aa ++ Ba).reverse = Ba.reverse ++ Aa.reverse by simp]
    refine pathF_congr (fun v _ => (hXframe v).2.1) ?_
    rw [hsplit, show (Aa ++ (j + 1) :: Ba).reverse =
      Ba.reverse ++ (j + 1) :: Aa.reverse by simp] at h8
    refine pathF_surgery (pathF_append.mp h8).1 (pathF_append.mp h8).2 ?_ ?_ ?_
      (List.nodup_reverse.mpr hBand) ?_
    · intro v hv hvq
      refine (unlink_lr_frame s (j + 1) v).2.2.2.2.2 ?_
      rw [har, ← getLastD_reverse]; exact hvq
    · rw [getLastD_reverse, headD_reverse, ← har, unlink_lr_set_l hr_lt, hal]
    · intro hcontra
      rw [List.mem_reverse] at hcontra
      have := (h5 0 (by
        rw [hsplit]
        exact List.mem_append.mpr (Or.inr (List.mem_cons_of_mem _ hcontra)))).1
      omega
    · intro x hx
      rw [List.mem_reverse] at hx
      rw [getLastD_reverse]
      rcases headD_mem_or Ba 0 with h | h
      · exact fun hh => hABad x hx (by rw [hh]; exact List.mem_cons_of_mem _ h)
      · intro hh
        have := (h5 x (by rw [hsplit]; exact List.mem_append.mpr (Or.inl hx))).1
        rw [h] at hh
        omega
  · exact fun j' hj' => hXd j' hj'
  · exact fun j' hj' => hXu j' hj'
  · intro j' hj' m hm
    rw [hcX m]
    exact h11 j' hj' m hm
  · intro rs hrs
    refine pathF_congr ?_ (h13 rs hrs)
    intro v hv
    exact hrX v (hrow_high rs hrs v hv)
  · intro rs hrs
    refine pathF_congr ?_ (h14 rs hrs)
    intro v hv
    refine hlX v (hrow_high rs hrs v ?_)
    rcases hv with rfl | hm
    · exact Or.inl rfl
    · rw [List.mem_reverse] at hm
      exact Or.inr hm
  · intro rs hrs
    have : (rs.map fun m => (getN (List.foldl coverStep (unlink_lr s (j + 1))
        (removedBy G (j + 1))) m).c) = rs.map fun m => (getN s m).c :=
      List.map_congr_left fun m _ => hcX m
    rw [this]
    exact h18 rs hrs
  · intro m hm
    rcases List.mem_append.mp hm with h | h
    · exact h19 m h
    · exact hRBflat m h
  · -- the row invariant
    intro rs hrs
    rcases h20 rs hrs with hall | ⟨n, hn, hnnd, hcn, hothers⟩
    · by_cases hex : ∃ v, v ∈ rs ∧ v ∈ G.cols.getD j []
      · obtain ⟨v, hvrs, hvcol⟩ := hex
        have hvlive : v ∈ liveCol G j :=
          List.mem_filter.mpr ⟨hvcol, by simpa using hall v hvrs⟩
        have hvrows : v ∈ G.rows.flatten := List.mem_flatten.mpr ⟨rs, hrs, hvrs⟩
        have hroweq : rowOf G v = rs := rowOf_eq_of_mem h17 hrs hvrs
        refine Or.inr ⟨v, hvrs, ?_, ?_, ?_⟩
        · intro hcontra
          rcases List.mem_append.mp hcontra with h | h
          · exact hall v hvrs h
          · obtain ⟨v', hv'live, hvmate⟩ := hRBmate v h
            have hv'rows : v' ∈ G.rows.flatten :=
              h16 v' (mem_flatten_of_col hjcols (not_dead_of_live hv'live).1)
            obtain ⟨hvrow', hvne'⟩ := mate_mem_row h17 hv'rows hvmate
            have hroweq' : rowOf G v' = rs :=
              mem_unique_list h17 (rowOf_mem hv'rows).1 hrs hvrow' hvrs
            have hv'rs : v' ∈ rs := hroweq' ▸ (rowOf_mem hv'rows).2
            have : v = v' := List.inj_on_of_nodup_map (h18 rs hrs) hvrs hv'rs
              (by rw [h11 j hj v hvcol, h11 j hj v' (not_dead_of_live hv'live).1])
            exact hvne' this
        · rw [hcX v, h11 j hj v hvcol]
          exact h6.not_mem_erase
        · intro m hm hmne
          refine List.mem_append.mpr (Or.inr ?_)
          rw [hrB]
          refine List.mem_flatMap.mpr ⟨v, hvlive, ?_⟩
          exact row_mem_mates h17 hvrows (hroweq ▸ hm) hmne
      · refine Or.inl ?_
        intro m hm hcontra
        rcases List.mem_append.mp hcontra with h | h
        · exact hall m hm h
        · obtain ⟨v', hv'live, hvmate⟩ := hRBmate m h
          have hv'rows : v' ∈ G.rows.flatten :=
            h16 v' (mem_flatten_of_col hjcols (not_dead_of_live hv'live).1)
          obtain ⟨hmrow', _⟩ := mate_mem_row h17 hv'rows hvmate
          have hroweq' : rowOf G v' = rs :=
            mem_unique_list h17 (rowOf_mem hv'rows).1 hrs hmrow' hm
          exact hex ⟨v', hroweq' ▸ (rowOf_mem hv'rows).2, (not_dead_of_live hv'live).1⟩
    · refine Or.inr ⟨n, hn, ?_, ?_, ?_⟩
      · intro hcontra
        rcases List.mem_append.mp hcontra with h | h
        · exact hnnd h
        · obtain ⟨v', hv'live, hvmate⟩ := hRBmate n h
          have hv'rows : v' ∈ G.rows.flatten :=
            h16 v' (mem_flatten_of_col hjcols (not_dead_of_live hv'live).1)
          obtain ⟨hnrow', hnne'⟩ := mate_mem_row h17 hv'rows hvmate
          have hroweq' : rowOf G v' = rs :=
            mem_unique_list h17 (rowOf_mem hv'rows).1 hrs hnrow' hn
          have hv'rs : v' ∈ rs := hroweq' ▸ (rowOf_mem hv'rows).2
          exact (not_dead_of_live hv'live).2
            (hothers v' hv'rs (fun hh => hnne' hh.symm))
      · rw [hcX n]
        exact fun hcontra => hcn (List.mem_of_mem_erase hcontra)
      · intro m hm hmne
        exact List.mem_append.mpr (Or.inl (hothers m hm hmne))

end DLX

namespace DLX

theorem headerChain_spec {s : DState} : ∀ (xs : List Nat) (fuel : Nat) (cur : Nat),
    pathF (fun n => n.r) s cur xs 0 → cur ≠ 0 → (∀ x ∈ xs, x ≠ 0) →
    xs.length + 2 ≤ fuel →
    headerChain fuel s cur = some (cur :: xs) := by
  intro xs
  induction xs with
  | nil =>
    intro fuel cur hpath hcur _ hfuel
    match fuel, hfuel with
    | f + 2, _ =>
      rw [show headerChain (f + 2) s cur = if cur = 0 then some [] else
        (headerChain (f + 1) s ((getN s cur).r)).map (cur :: ·) from rfl]
      rw [if_neg hcur, show (getN s cur).r = 0 from hpath]
      rw [show headerChain (f + 1) s 0 = if (0 : Nat) = 0 then some [] else
        (headerChain f s ((getN s 0).r)).map ((0 : Nat) :: ·) from rfl, if_pos rfl]
      rfl
  | cons x xs ih =>
    intro fuel cur hpath hcur hxs hfuel
    match fuel, hfuel with
    | f + 2, hfuel =>
      rw [show headerChain (f + 2) s cur = if cur = 0 then some [] else
        (headerChain (f + 1) s ((getN s cur).r)).map (cur :: ·) from rfl]
      rw [if_neg hcur, show (getN s cur).r = x from hpath.1]
      rw [ih (f + 1) x hpath.2 (hxs x (List.mem_cons_self x xs))
        (fun y hy => hxs y (List.mem_cons_of_mem x hy)) (by simp at hfuel ⊢; omega)]
      rfl

/-- On a well-formed arena the active-header scan returns exactly the ghost's
active list. -/
theorem activeHeaders_eq {s : DState} {G : Ghost} (hwf : WF s G) :
    activeHeaders s = some G.act := by
  have h2 := hwf.2.1
  have h5 := hwf.2.2.2.2.1
  have h6 := hwf.2.2.2.2.2.1
  have h7 := hwf.2.2.2.2.2.2.1
  have hlen : G.act.length ≤ G.width := by
    have hsub : G.act.toFinset ⊆ Finset.Icc 1 G.width :=
      fun a ha => Finset.mem_Icc.mpr (h5 a (List.mem_toFinset.mp ha))
    have hcard := Finset.card_le_card hsub
    rw [Nat.card_Icc] at hcard
    rwa [List.toFinset_card_of_nodup h6] at hcard
  show headerChain (s.length + 1) s ((getN s 0).r) = some G.act
  cases hact : G.act with
  | nil =>
    rw [hact] at h7
    rw [show (getN s 0).r = 0 from h7]
    rw [show headerChain (s.length + 1) s 0 = if (0 : Nat) = 0 then some [] else
      (headerChain s.length s ((getN s 0).r)).map ((0 : Nat) :: ·) from rfl, if_pos rfl]
  | cons a act' =>
    rw [hact] at h7 hlen
    rw [show (getN s 0).r = a from h7.1]
    refine headerChain_spec act' (s.length + 1) a h7.2 ?_ ?_ ?_
    · have := (h5 a (by rw [hact]; exact List.mem_cons_self a act')).1
      omega
    · intro x hx
      have := (h5 x (by rw [hact]; exact List.mem_cons_of_mem a hx)).1
      omega
    · simp at hlen
      omega

/-- The cover of any active header succeeds, keeps the structure well formed
for the updated ghost, and is undone exactly by the matching uncover. -/
theorem cover_uncover_spec {s : DState} {G : Ghost} {c : Nat} (hwf : WF s G)
    (hc : c ∈ G.act) :
    ∃ s', cover s c = some s' ∧ WF s' (coverGhost G c) ∧ uncover s' c = some s := by
  have h5 := hwf.2.2.2.2.1
  obtain ⟨j, rfl⟩ : ∃ j, c = j + 1 := ⟨c - 1, by have := (h5 c hc).1; omega⟩
  have hj : j < G.width := by have := (h5 _ hc).2; omega
  exact ⟨_, cover_spec_core hwf hj hc, cover_preserves_WF hwf hj hc,
    uncover_spec_core hwf hj hc⟩

theorem uncoverSeq_append (xs ys : List Nat) :
    ∀ s : DState, uncoverSeq s (xs ++ ys) =
      (uncoverSeq s xs).bind fun s' => uncoverSeq s' ys := by
  induction xs with
  | nil => intro s; rfl
  | cons c xs ih =>
    intro s
    show (uncover s c).bind (fun s1 => uncoverSeq s1 (xs ++ ys)) = _
    cases h : uncover s c with
    | none =>
      show _ = ((uncover s c).bind fun s1 => uncoverSeq s1 xs).bind fun s' => uncoverSeq s' ys
      rw [h]
      rfl
    | some s1 =>
      simp only [Option.some_bind]
      show uncoverSeq s1 (xs ++ ys) = ((uncover s c).bind fun s1 =>
        uncoverSeq s1 xs).bind fun s' => uncoverSeq s' ys
      rw [h]
      simp only [Option.some_bind]
      exact ih s1

end DLX

namespace DLX

/-- **C4** (corrected).  For every node structure that is well formed for a
ghost description (as `build` produces) and every admissible sequence of
column headers — each header linked in the active header row at the moment
it is covered — performing the covers in order followed by the uncovers in
reverse order restores the arena exactly: every node's four neighbour links
and every header's payload are as before the sequence.  (The unrestricted
claim is refuted by `c4_cover_uncover_elided_header_not_inverse`: uncovering
an elided empty column's header is not the inverse of covering it.) -/
theorem c4_cover_uncover_sequence_roundtrip :
    ∀ (cs : List Nat) (s : DState) (G : Ghost), WF s G → SeqOK s cs →
    ∃ s', coverSeq s cs = some s' ∧ uncoverSeq s' cs.reverse = some s := by
  intro cs
  induction cs with
  | nil => intro s G hwf _; exact ⟨s, rfl, rfl⟩
  | cons c cs ih =>
    intro s G hwf hseq
    obtain ⟨hmem, hrest⟩ := hseq
    rw [activeHeaders_eq hwf] at hmem
    have hmem' : c ∈ G.act := hmem
    obtain ⟨s1, hcov, hwf1, hunc⟩ := cover_uncover_spec hwf hmem'
    rw [hcov] at hrest
    have hrest' : SeqOK s1 cs := hrest
    obtain ⟨s2, hc2, hu2⟩ := ih s1 (coverGhost G c) hwf1 hrest'
    refine ⟨s2, ?_, ?_⟩
    · show (cover s c).bind (fun s' => coverSeq s' cs) = some s2
      rw [hcov]
      simp only [Option.some_bind]
      exact hc2
    · show uncoverSeq s2 ((c :: cs).reverse) = some s
      rw [List.reverse_cons, uncoverSeq_append, hu2]
      simp only [Option.some_bind]
      show (uncover s1 c).bind (fun s' => uncoverSeq s' []) = some s
      rw [hunc]
      rfl

theorem c4_roundtrip_witness :
    ∃ s', coverSeq (((build [[true]]).getD ([], 0)).1) [1] = some s' ∧
      uncoverSeq s' ([1] : List Nat).reverse =
        some (((build [[true]]).getD ([], 0)).1) :=
  c4_cover_uncover_sequence_roundtrip [1] (((build [[true]]).getD ([], 0)).1)
    ⟨1, [[2]], [[2]], [1], []⟩ (by decide) (by decide)

end DLX
